import Mathlib

/-!
# A Zanzibar-style authorization core: schema, tuple store and Check

Shallow embedding of `src/schema/schema.go`, `src/schema/userset_rewrite.go`,
`src/policy/store.go` and `src/policy/evaluator.go`.

Modelling conventions

* Go strings are modelled by Lean `String` (sequences of Unicode code points); all the
  separators the code looks for (`:`, `|`, `group:`, `member`) are ASCII.
* Go maps are association lists read with `List.lookup`; a map used as a set
  (`map[string]bool` holding only `true`) is a list without repetitions; Go leaves the
  iteration order open, the model iterates in list order.
* A Go slice is a list. The nil map and the nil slice are the empty list, like the empty map
  and the empty slice; where Go tells them apart the model follows the non-nil case:
  `UpdateDefinitionWithUsersetRewrites` assigns into the `Relations` map of the `document`
  definition (Go panics when that map is nil), and `MarshalJSON` writes `[]` for a child
  list without elements (Go writes `null` when the slice is nil).
* A method that mutates its receiver returns the new receiver next to its result.
* `Store.changeNumber` is an `int64`: it is modelled by an `Int`, and the increment
  `s.changeNumber++` by `wrapInt64 (s.changeNumber + 1)`, which wraps around from
  9223372036854775807 to -9223372036854775808 as the Go addition does.
* `time.Now()` is an explicit argument `now`.
* The recursions of `getGroupMemberships`, `expandGroupMembers` and `UnmarshalJSON` are
  bounded by an explicit depth: `none` stands for "depth bound exhausted", and
  `getGroupMemberships_total`, `expandGroupMembers_total` and `UnmarshalJSONFuel_stable`
  show that it never happens (for `UnmarshalJSON`: a bound above the nesting depth of the
  value never changes the answer).
* `EvaluateUserset` and `evaluateUsersetRewrite` call each other without any bound in the
  Go code, and on some schemas and tuples they never return. `EvaluateUsersetFuel` counts the
  nested `EvaluateUserset` calls and answers `none` when the count is used up;
  `EvaluatesTo` says that some count gives the answer, `EvaluateUsersetFuel_mono` that a
  larger count gives the same answer, and `EvaluatesTo_unique` that the answer is unique.
  The evaluator reads the schema and the tuples of its store; the model takes both as
  arguments.
* `MarshalJSON` and `UnmarshalJSON` work on parsed JSON values (`Json`); the functions of
  `encoding/json` they call are modelled from the documented behaviour of that package.
* Pointers are not nil: a child of a rewrite node is a tree. `UnmarshalJSON` of a child
  array with a `null` item gives, in Go, a node with a nil child; the model has no such tree
  and answers `none` there.
-/

namespace Zanzibar

/-! ## The Go `strings` and `fmt` functions the code uses -/

/-- Cuts a character list at the first occurrence of `sep`; `none` when `sep` is absent. -/
def cutFirst (sep : Char) : List Char → Option (List Char × List Char)
  | [] => none
  | c :: cs =>
    if c = sep then some ([], cs)
    else
      match cutFirst sep cs with
      | none => none
      | some (a, b) => some (c :: a, b)

/-- Go `strings.SplitN(s, sep, 2)` for a one-character separator: `[s]` when `sep` does not
occur in `s`, otherwise the text before the first `sep` and the text after it. -/
def SplitN2 (s : String) (sep : Char) : List String :=
  match cutFirst sep s.data with
  | none => [s]
  | some (a, b) => [String.mk a, String.mk b]

/-- Go `strings.Split(s, sep)` for a one-character separator. -/
def Split (s : String) (sep : Char) : List String :=
  (s.data.splitOn sep).map String.mk

/-- Go `unicode.IsSpace`. -/
def isSpace (c : Char) : Bool :=
  let n := c.toNat
  (9 ≤ n && n ≤ 13) || n == 32 || n == 133 || n == 160 || n == 5760 ||
    (8192 ≤ n && n ≤ 8202) || n == 8232 || n == 8233 || n == 8239 || n == 8287 || n == 12288

/-- Go `strings.TrimSpace`: drops leading and trailing white space. -/
def TrimSpace (s : String) : String :=
  String.mk ((s.data.dropWhile isSpace).reverse.dropWhile isSpace).reverse

/-- Go `strings.HasPrefix`. -/
def HasPrefix (s pre : String) : Bool :=
  pre.data.isPrefixOf s.data

/-- Go `fmt.Sprintf("%d", n)`. -/
def formatInt : Int → String
  | Int.ofNat m => Nat.repr m
  | Int.negSucc m => "-" ++ Nat.repr (m + 1)

/-- Go `fmt.Sprintf("%v", xs)` for a slice of strings. -/
def formatSlice (xs : List String) : String :=
  "[" ++ " ".intercalate xs ++ "]"

/-! ## Schema (`src/schema`) -/

/-- Go `ComputedUserset`. -/
structure ComputedUserset where
  relation : String
  deriving DecidableEq, Repr

/-- Go `Tupleset`. -/
structure Tupleset where
  relation : String
  deriving DecidableEq, Repr

/-- Go `TupleToUserset`. -/
structure TupleToUserset where
  tupleset : Tupleset
  computedUserset : ComputedUserset
  deriving DecidableEq, Repr

/-- Go `UsersetRewrite`: the tag `Type`, the two optional payloads and the children. -/
inductive UsersetRewrite where
  | mk (type : String) (computedUserset : Option ComputedUserset)
      (tupleToUserset : Option TupleToUserset) (children : List UsersetRewrite)

/-- Go `NewThisRewrite`. -/
def NewThisRewrite : UsersetRewrite :=
  .mk "this" none none []

/-- Go `NewComputedUsersetRewrite`. -/
def NewComputedUsersetRewrite (relation : String) : UsersetRewrite :=
  .mk "computed_userset" (some ⟨relation⟩) none []

/-- Go `NewTupleToUsersetRewrite`. -/
def NewTupleToUsersetRewrite (tupleRelation computedRelation : String) : UsersetRewrite :=
  .mk "tuple_to_userset" none (some ⟨⟨tupleRelation⟩, ⟨computedRelation⟩⟩) []

/-- Go `NewUnionRewrite`. -/
def NewUnionRewrite (children : List UsersetRewrite) : UsersetRewrite :=
  .mk "union" none none children

/-- Go `Subject`: a subject type a relation admits, with an optional sub-relation. -/
structure Subject where
  type : String
  relation : String := ""
  deriving DecidableEq, Repr

/-- Go `Relation`. -/
structure Relation where
  subjects : List Subject
  usersetRewrite : Option UsersetRewrite := none

/-- Go `Permission`. -/
structure Permission where
  expression : String
  deriving DecidableEq, Repr

/-- Go `Definition`. -/
structure Definition where
  type : String
  relations : List (String × Relation) := []
  permissions : List (String × Permission) := []

/-- Go `Schema`: the map from type name to definition. -/
structure Schema where
  definitions : List (String × Definition)

/-- Errors, one constructor per `fmt.Errorf` format of the code, carrying its arguments.
`jsonType` stands for the type errors of `json.Unmarshal`, `missingField` for the formats
"… rewrite rule must have '…' field". -/
inductive Error where
  | invalidResourceFormat (resource : String)
  | invalidSubjectFormat (subject : String)
  | typeNotDefined (resourceType : String)
  | definitionNotFound (typeName : String)
  | definitionExists (typeName : String)
  | relationNotDefined (relation resourceType : String)
  | subjectTypeNotAllowed (subjectType relation resourceType : String)
  | permissionNotDefined (permission resourceType : String)
  | relationshipNotFound
  | jsonType
  | missingField (variant field : String)
  | unknownRewriteType
  | unknownRewriteTypeNamed (type : String)
  | exclusionArity
  | computedUsersetNil
  | tupleToUsersetNil
  | unionNoChildren
  | intersectionNoChildren
  | exclusionChildren
  deriving DecidableEq, Repr

/-- Equality of results is decidable, so that concrete runs can be evaluated. -/
instance instDecidableEqExcept {ε α : Type} [DecidableEq ε] [DecidableEq α] :
    DecidableEq (Except ε α)
  | .ok a, .ok b => if h : a = b then isTrue (by rw [h]) else isFalse (by intro h1; cases h1; exact h rfl)
  | .error a, .error b =>
    if h : a = b then isTrue (by rw [h]) else isFalse (by intro h1; cases h1; exact h rfl)
  | .ok _, .error _ => isFalse (by intro h; cases h)
  | .error _, .ok _ => isFalse (by intro h; cases h)

/-- Go map assignment `m[k] = v`. -/
def mapSet {β : Type} (m : List (String × β)) (k : String) (v : β) : List (String × β) :=
  match m with
  | [] => [(k, v)]
  | (k1, v1) :: rest => if k1 = k then (k, v) :: rest else (k1, v1) :: mapSet rest k v

/-- Go `NewSchema`. -/
def NewSchema : Schema := ⟨[]⟩

/-- Go `Schema.AddDefinition`. -/
def Schema.AddDefinition (s : Schema) (d : Definition) : Except Error Unit × Schema :=
  match s.definitions.lookup d.type with
  | some _ => (.error (.definitionExists d.type), s)
  | none => (.ok (), ⟨mapSet s.definitions d.type d⟩)

/-- Go `Schema.GetDefinition`. -/
def Schema.GetDefinition (s : Schema) (typeName : String) : Except Error Definition :=
  match s.definitions.lookup typeName with
  | none => .error (.definitionNotFound typeName)
  | some d => .ok d

/-- The `document` definition of `LoadDefaultSchema`. -/
def docDef : Definition where
  type := "document"
  relations :=
    [("owner", ⟨[⟨"user", ""⟩], none⟩),
     ("editor", ⟨[⟨"user", ""⟩], none⟩),
     ("viewer", ⟨[⟨"user", ""⟩, ⟨"group", "member"⟩], none⟩),
     ("parent", ⟨[⟨"folder", ""⟩], none⟩)]
  permissions :=
    [("view", ⟨"owner | editor | viewer"⟩),
     ("edit", ⟨"owner | editor"⟩),
     ("delete", ⟨"owner"⟩)]

/-- The `folder` definition of `LoadDefaultSchema`. -/
def folderDef : Definition where
  type := "folder"
  relations :=
    [("owner", ⟨[⟨"user", ""⟩], none⟩),
     ("editor", ⟨[⟨"user", ""⟩], none⟩),
     ("viewer", ⟨[⟨"user", ""⟩, ⟨"group", "member"⟩], none⟩)]
  permissions :=
    [("view", ⟨"owner | editor | viewer"⟩),
     ("edit", ⟨"owner | editor"⟩),
     ("delete", ⟨"owner"⟩)]

/-- The `group` definition of `LoadDefaultSchema`. -/
def groupDef : Definition where
  type := "group"
  relations := [("member", ⟨[⟨"user", ""⟩, ⟨"group", ""⟩], none⟩)]

/-- The `user` definition of `LoadDefaultSchema`. -/
def userDef : Definition where
  type := "user"

/-- Go `LoadDefaultSchema`: four `AddDefinition` calls whose error result is dropped. -/
def LoadDefaultSchema : Schema :=
  let s0 := NewSchema
  let s1 := (s0.AddDefinition userDef).2
  let s2 := (s1.AddDefinition docDef).2
  let s3 := (s2.AddDefinition folderDef).2
  (s3.AddDefinition groupDef).2

/-- Go `Schema.UpdateDefinitionWithUsersetRewrites`: installs
`viewer = this | editor | parent#viewer` and `editor = this | owner` on `document`. -/
def Schema.UpdateDefinitionWithUsersetRewrites (s : Schema) : Except Error Unit × Schema :=
  match s.GetDefinition "document" with
  | .error e => (.error e, s)
  | .ok d =>
    let viewerRelation : Relation := (d.relations.lookup "viewer").getD ⟨[], none⟩
    let viewerRewrite := NewUnionRewrite
      [NewThisRewrite, NewComputedUsersetRewrite "editor", NewTupleToUsersetRewrite "parent" "viewer"]
    let relations1 := mapSet d.relations "viewer" { viewerRelation with usersetRewrite := some viewerRewrite }
    let editorRelation : Relation := (relations1.lookup "editor").getD ⟨[], none⟩
    let editorRewrite := NewUnionRewrite [NewThisRewrite, NewComputedUsersetRewrite "owner"]
    let relations2 := mapSet relations1 "editor" { editorRelation with usersetRewrite := some editorRewrite }
    (.ok (), ⟨mapSet s.definitions "document" { d with relations := relations2 }⟩)

/-- Go `Schema.ValidateRelationship`. -/
def Schema.ValidateRelationship (s : Schema) (resourceType relation subjectType : String) :
    Except Error Unit :=
  match s.definitions.lookup resourceType with
  | none => .error (.typeNotDefined resourceType)
  | some d =>
    match d.relations.lookup relation with
    | none => .error (.relationNotDefined relation resourceType)
    | some rel =>
      if rel.subjects.any (fun sub => decide (sub.type = subjectType)) then .ok ()
      else .error (.subjectTypeNotAllowed subjectType relation resourceType)

/-- The operands of a permission expression: `strings.Split(expr, "|")`, each part passed
through `strings.TrimSpace`. -/
def operands (expr : String) : List String :=
  (Split expr '|').map TrimSpace

/-- Go `Schema.EvaluatePermission`. -/
def Schema.EvaluatePermission (s : Schema) (resourceType permission : String)
    (relations : List String) : Except Error Bool :=
  match s.definitions.lookup resourceType with
  | none => .error (.typeNotDefined resourceType)
  | some d =>
    match d.permissions.lookup permission with
    | none => .error (.permissionNotDefined permission resourceType)
    | some perm =>
      .ok ((Split perm.expression '|').any
        (fun part => relations.any (fun r => decide (r = TrimSpace part))))

/-! ## Tuple store (`src/policy/store.go`) -/

/-- Go `Relationship`. -/
structure Relationship where
  resource : String
  relation : String
  subject : String
  zookieToken : String
  updatedAt : Nat
  deriving DecidableEq, Repr

/-- The value of an `int64` computation whose mathematical result is `n`: Go integer
arithmetic wraps around (two's complement), so the result is the number of the range
`-2^63 ≤ r < 2^63` that differs from `n` by a multiple of `2^64`. -/
def wrapInt64 (n : Int) : Int :=
  (n + 9223372036854775808) % 18446744073709551616 - 9223372036854775808

/-- Go `Store` (the lock is not modelled: every operation holds it from start to end). -/
structure Store where
  relationships : List Relationship
  schema : Schema
  changeNumber : Int

/-- Go `NewStore`. -/
def NewStore (schema : Schema) : Store :=
  { relationships := [], schema := schema, changeNumber := 1 }

/-- The test `r.Resource == resource && r.Relation == relation && r.Subject == subject`. -/
def sameTriple (resource relation subject : String) (r : Relationship) : Bool :=
  decide (r.resource = resource) && decide (r.relation = relation) && decide (r.subject = subject)

/-- Go `Store.AddRelationship`. -/
def Store.AddRelationship (s : Store) (resource relation subject : String) (now : Nat) :
    Except Error String × Store :=
  let resourceParts := SplitN2 resource ':'
  if resourceParts.length ≠ 2 then (.error (.invalidResourceFormat resource), s)
  else
    let resourceType := resourceParts.headD ""
    let subjectParts := SplitN2 subject ':'
    if subjectParts.length ≠ 2 then (.error (.invalidSubjectFormat subject), s)
    else
      let subjectType := subjectParts.headD ""
      match s.schema.ValidateRelationship resourceType relation subjectType with
      | .error e => (.error e, s)
      | .ok _ =>
        match s.relationships.find? (sameTriple resource relation subject) with
        | some r => (.ok r.zookieToken, s)
        | none =>
          let zookieToken := "zk_" ++ formatInt s.changeNumber
          (.ok zookieToken,
            { s with
              changeNumber := wrapInt64 (s.changeNumber + 1)
              relationships := s.relationships ++
                [{ resource := resource, relation := relation, subject := subject,
                   zookieToken := zookieToken, updatedAt := now }] })

/-- The slice update of `RemoveRelationship`: `rs[i] = rs[len(rs)-1]; rs = rs[:len(rs)-1]`. -/
def swapRemove (rs : List Relationship) (i : Nat) : List Relationship :=
  match rs.getLast? with
  | none => rs
  | some last => (rs.set i last).dropLast

/-- Go `Store.RemoveRelationship`. -/
def Store.RemoveRelationship (s : Store) (resource relation subject : String) :
    Except Error Unit × Store :=
  let i := s.relationships.findIdx (sameTriple resource relation subject)
  if i < s.relationships.length then
    (.ok (), { s with relationships := swapRemove s.relationships i,
                      changeNumber := wrapInt64 (s.changeNumber + 1) })
  else (.error .relationshipNotFound, s)

/-- The loop body of `getGroupMemberships`, with the recursive call as a parameter.
`groups` is the result set under construction, `visited` the set shared by the whole
traversal. -/
def groupLoop (recur : String → List String → Option (List String × List String))
    (subject : String) :
    List Relationship → List String → List String → Option (List String × List String)
  | [], groups, visited => some (groups, visited)
  | r :: rest, groups, visited =>
    if HasPrefix r.resource "group:" = true ∧ r.relation = "member" ∧ r.subject = subject then
      if r.resource ∈ visited then groupLoop recur subject rest groups visited
      else
        match recur r.resource (r.resource :: visited) with
        | none => none
        | some (nested, visited1) =>
          groupLoop recur subject rest
            (nested.foldl (fun g ng => g.insert ng) (groups.insert r.resource)) visited1
    else groupLoop recur subject rest groups visited

/-- Go `Store.getGroupMemberships` with a bound on the recursion depth; returns the group set
and the final `visited` set. -/
def getGroupMembershipsFuel (rels : List Relationship) :
    Nat → String → List String → Option (List String × List String)
  | 0, _, _ => none
  | fuel + 1, subject, visited =>
    groupLoop (getGroupMembershipsFuel rels fuel) subject rels [] visited

/-- Go `Store.getGroupMemberships`: every recursive call marks a group resource of a stored
tuple as visited, so the depth never exceeds the number of tuples. -/
def getGroupMemberships (rels : List Relationship) (subject : String) (visited : List String) :
    Option (List String × List String) :=
  getGroupMembershipsFuel rels (rels.length + 1) subject visited

/-- The relations of the tuples `(resource, _, subject)`, in stored order. -/
def relationsOf (rels : List Relationship) (subject resource : String) : List String :=
  (rels.filter (fun r => decide (r.resource = resource) && decide (r.subject = subject))).map
    (fun r => r.relation)

/-- Go `Store.getRelations`. -/
def getRelations (rels : List Relationship) (subject resource : String) : Option (List String) :=
  match getGroupMemberships rels subject [] with
  | none => none
  | some (groups, _) =>
    some (relationsOf rels subject resource ++
      groups.flatMap (fun groupID => relationsOf rels groupID resource))

/-- Go `Store.Check`; the result is `(allowed, reason)` or the error. -/
def Store.Check (s : Store) (subject resource action : String) :
    Option (Except Error (Bool × String)) :=
  let resourceParts := SplitN2 resource ':'
  if resourceParts.length ≠ 2 then some (.error (.invalidResourceFormat resource))
  else
    let resourceType := resourceParts.headD ""
    match getRelations s.relationships subject resource with
    | none => none
    | some relations =>
      match s.schema.EvaluatePermission resourceType action relations with
      | .error e => some (.error e)
      | .ok allowed =>
        if allowed then
          some (.ok (true, "Subject has required relation(s): " ++ formatSlice relations))
        else
          some (.ok (false, "Subject lacks required relation(s) for action: " ++ action))

/-- Go `Store.InitializeWithSampleData`. -/
def Store.InitializeWithSampleData (s : Store) (now : Nat) : Store :=
  { s with
    relationships :=
      [⟨"document:report", "owner", "user:alice", "zk_1", now⟩,
       ⟨"document:report", "editor", "user:bob", "zk_2", now⟩,
       ⟨"document:report", "viewer", "group:engineering", "zk_3", now⟩,
       ⟨"group:engineering", "member", "user:charlie", "zk_4", now⟩,
       ⟨"group:frontend", "member", "user:dave", "zk_5", now⟩,
       ⟨"group:engineering", "member", "group:frontend", "zk_6", now⟩]
    changeNumber := 7 }

/-! ## Histories of mutations -/

/-- A mutating call on the store. -/
inductive Op where
  | add (resource relation subject : String) (now : Nat)
  | remove (resource relation subject : String)
  deriving DecidableEq, Repr

/-- The store after one call (whether it succeeds or fails). -/
def step (s : Store) : Op → Store
  | .add r l u now => (s.AddRelationship r l u now).2
  | .remove r l u => (s.RemoveRelationship r l u).2

/-- The store after a sequence of calls. -/
def run (s : Store) (ops : List Op) : Store :=
  ops.foldl step s

/-- A store state reached from `NewStore schema` by `AddRelationship` and
`RemoveRelationship` calls. -/
def Reachable (schema : Schema) (s : Store) : Prop :=
  ∃ ops : List Op, run (NewStore schema) ops = s

/-- The part of an identifier before its first `:` (the whole identifier if it has none). -/
def typeOf (ident : String) : String :=
  String.mk (ident.data.takeWhile (fun c => c ≠ ':'))

/-- The edge `(g, "member", x)` is stored and `g` carries the prefix `group:`. -/
def memberEdge (rels : List Relationship) (x g : String) : Prop :=
  HasPrefix g "group:" = true ∧
    ∃ t ∈ rels, t.resource = g ∧ t.relation = "member" ∧ t.subject = x

/-- Transitive group membership: `g` is reached from `x` by one or more member edges. -/
inductive InGroup (rels : List Relationship) : String → String → Prop where
  | direct {x g : String} : memberEdge rels x g → InGroup rels x g
  | nested {x g h : String} : InGroup rels x g → memberEdge rels g h → InGroup rels x h

/-- The schema admits tuples of relation `relation` between a resource of type `resourceType`
and a subject of type `subjectType`. -/
def Admits (schema : Schema) (resourceType relation subjectType : String) : Prop :=
  ∃ d, schema.definitions.lookup resourceType = some d ∧
    ∃ rel, d.relations.lookup relation = some rel ∧
      ∃ sub ∈ rel.subjects, sub.type = subjectType

/-- The key `(resource, relation, subject)` of a stored tuple. -/
def triple (t : Relationship) : String × String × String :=
  (t.resource, t.relation, t.subject)

/-- The store after a fresh tuple has been appended by `AddRelationship`. -/
def inserted (s : Store) (r l u : String) (now : Nat) : Store :=
  { s with
    changeNumber := wrapInt64 (s.changeNumber + 1)
    relationships := s.relationships ++
      [{ resource := r, relation := l, subject := u,
         zookieToken := "zk_" ++ formatInt s.changeNumber, updatedAt := now }] }

/-- A history used to instantiate the statements about reachable states. -/
def sampleOps : List Op :=
  [.add "document:report" "owner" "user:alice" 1,
   .add "document:report" "editor" "user:bob" 2,
   .add "document:report" "owner" "user:alice" 3,
   .remove "document:report" "owner" "user:alice",
   .add "document:report" "viewer" "group:eng" 4]

/-- The number of stored tuples whose resource is not yet in `visited`: the measure that
bounds the recursion depth of `getGroupMemberships`. -/
def unvisited (rels : List Relationship) (visited : List String) : Nat :=
  rels.countP (fun r => decide (r.resource ∉ visited))

/-- The test of the loop of `getGroupMemberships` on a tuple. -/
def isMemberTuple (subject : String) (r : Relationship) : Prop :=
  HasPrefix r.resource "group:" = true ∧ r.relation = "member" ∧ r.subject = subject

/-- What a call `getGroupMemberships(subject, visited)` returning `(groups, visited1)`
guarantees: `visited` only grows, and only by returned groups; every group that directly
contains `subject` or a returned group has been visited; every returned group is a transitive
group of `subject`. -/
def TraversalSpec (rels : List Relationship) (subject : String) (visited groups visited1 : List String) :
    Prop :=
  visited ⊆ visited1 ∧
  (∀ h, memberEdge rels subject h → h ∈ visited1) ∧
  (∀ g ∈ groups, InGroup rels subject g ∧ ∀ h, memberEdge rels g h → h ∈ visited1) ∧
  (∀ x ∈ visited1, x ∈ visited ∨ x ∈ groups)

/-- The subject effectively holds `rel` on `resource`: the tuple `(resource, rel, subject)`
is stored, or a tuple `(resource, rel, g)` is stored for a transitive group `g` of the
subject. -/
def Holds (rels : List Relationship) (subject resource rel : String) : Prop :=
  (∃ t ∈ rels, t.resource = resource ∧ t.relation = rel ∧ t.subject = subject) ∨
  (∃ g, InGroup rels subject g ∧
    ∃ t ∈ rels, t.resource = resource ∧ t.relation = rel ∧ t.subject = g)

/-- The number written by a list of decimal digit characters, most significant first. -/
def decimalValue : List Char → Nat
  | [] => 0
  | c :: cs => (c.toNat - 48) * 10 ^ cs.length + decimalValue cs

/-- The character is one of `'0'` … `'9'`. -/
def IsDigit (c : Char) : Prop :=
  48 ≤ c.toNat ∧ c.toNat ≤ 57

/-- The tokens minted, in issue order, by a sequence of calls starting in state `s`: a token
is minted by every successful `AddRelationship` of a triple that is not stored yet. -/
def mintedTokens (s : Store) : List Op → List String
  | [] => []
  | .add r l u now :: ops =>
    match (s.AddRelationship r l u now).1 with
    | .ok tok =>
      if s.relationships.any (sameTriple r l u) then
        mintedTokens (s.AddRelationship r l u now).2 ops
      else tok :: mintedTokens (s.AddRelationship r l u now).2 ops
    | .error _ => mintedTokens (s.AddRelationship r l u now).2 ops
  | .remove r l u :: ops => mintedTokens (s.RemoveRelationship r l u).2 ops

/-- Go's `<` on strings: lexicographic comparison, character by character. -/
def stringLt (s t : String) : Prop :=
  List.lt s.data t.data

/-- The comparison `stringLt` can be evaluated. -/
instance instDecidableStringLt (s t : String) : Decidable (stringLt s t) :=
  List.hasDecidableLt s.data t.data

/-- Length-then-lexicographic order on strings: a shorter string comes first, and strings of
equal length are compared lexicographically. -/
def shortlexLt (s t : String) : Prop :=
  s.length < t.length ∨ (s.length = t.length ∧ stringLt s t)

/-- Ten calls that each add a new tuple. -/
def tenAdds : List Op :=
  [.add "document:d1" "owner" "user:alice" 1,
   .add "document:d2" "owner" "user:alice" 2,
   .add "document:d3" "owner" "user:alice" 3,
   .add "document:d4" "owner" "user:alice" 4,
   .add "document:d5" "owner" "user:alice" 5,
   .add "document:d6" "owner" "user:alice" 6,
   .add "document:d7" "owner" "user:alice" 7,
   .add "document:d8" "owner" "user:alice" 8,
   .add "document:d9" "owner" "user:alice" 9,
   .add "document:d10" "owner" "user:alice" 10]

/-- The default schema after `UpdateDefinitionWithUsersetRewrites`, as the test
`TestUsersetRewriteRules` builds it. -/
def rewriteSchema : Schema :=
  (LoadDefaultSchema.UpdateDefinitionWithUsersetRewrites).2

/-- The two calls that store `(document:report, parent, folder:projects)` and
`(folder:projects, viewer, user:eve)`. -/
def parentFolderOps : List Op :=
  [.add "document:report" "parent" "folder:projects" 1,
   .add "folder:projects" "viewer" "user:eve" 2]

/-- The loop body of `expandGroupMembers`, with the recursive call as a parameter: `result`
is the set of members collected so far, `visited` the set of groups already expanded. -/
def expandLoop (recur : String → List String → List String → Option (List String × List String))
    (groupID : String) :
    List Relationship → List String → List String → Option (List String × List String)
  | [], result, visited => some (result, visited)
  | r :: rest, result, visited =>
    if r.resource = groupID ∧ r.relation = "member" then
      if HasPrefix r.subject "group:" = true then
        match recur r.subject (result.insert r.subject) visited with
        | none => none
        | some (result1, visited1) => expandLoop recur groupID rest result1 visited1
      else expandLoop recur groupID rest (result.insert r.subject) visited
    else expandLoop recur groupID rest result visited

/-- Go `Store.expandGroupMembers` with a bound on the recursion depth; returns the `result`
and `visited` sets as the call leaves them. -/
def expandGroupMembersFuel (rels : List Relationship) :
    Nat → String → List String → List String → Option (List String × List String)
  | 0, _, _, _ => none
  | fuel + 1, groupID, result, visited =>
    if groupID ∈ visited then some (result, visited)
    else expandLoop (expandGroupMembersFuel rels fuel) groupID rels result (groupID :: visited)

/-- Go `Store.expandGroupMembers`: every call that does not return at once marks a new group,
and every nested group is the subject of a stored tuple, so the depth never exceeds the
number of tuples plus two. -/
def expandGroupMembers (rels : List Relationship) (groupID : String)
    (result visited : List String) : Option (List String × List String) :=
  expandGroupMembersFuel rels (rels.length + 2) groupID result visited

/-- The first loop of `Expand`: collects `directSubjects` and `expandedSubjects`; every
direct subject with the prefix `group:` is expanded with a fresh `visited` set. -/
def expandDirect (rels : List Relationship) (resource relation : String) :
    List Relationship → List String → List String → Option (List String × List String)
  | [], direct, expanded => some (direct, expanded)
  | r :: rest, direct, expanded =>
    if r.resource = resource ∧ r.relation = relation then
      if HasPrefix r.subject "group:" = true then
        match expandGroupMembers rels r.subject expanded [] with
        | none => none
        | some (expanded1, _) =>
          expandDirect rels resource relation rest (direct.insert r.subject) expanded1
      else expandDirect rels resource relation rest (direct.insert r.subject) expanded
    else expandDirect rels resource relation rest direct expanded

/-- Go `Store.Expand`: the keys of `directSubjects` followed by the keys of
`expandedSubjects`. -/
def Store.Expand (s : Store) (resource relation : String) : Option (List String) :=
  match expandDirect s.relationships resource relation s.relationships [] [] with
  | none => none
  | some (direct, expanded) => some (direct ++ expanded)

/-- Go `Store.ListRelationships`: a copy of the tuple slice. -/
def Store.ListRelationships (s : Store) : List Relationship :=
  s.relationships

/-- Go `Store.GetChangeNumber`. -/
def Store.GetChangeNumber (s : Store) : Int :=
  s.changeNumber

/-- A call of one of the five public operations of the store. -/
inductive Call where
  | add (resource relation subject : String) (now : Nat)
  | remove (resource relation subject : String)
  | check (subject resource action : String)
  | expand (resource relation : String)
  | list

/-- The store a call leaves behind. `Check`, `Expand` and `ListRelationships` take the read
lock and assign no field of the store. -/
def Store.afterCall (s : Store) : Call → Store
  | .add r l u now => (s.AddRelationship r l u now).2
  | .remove r l u => (s.RemoveRelationship r l u).2
  | .check _ _ _ => s
  | .expand _ _ => s
  | .list => s

/-- A store whose two groups are members of each other. -/
def cyclicStore : Store :=
  { relationships :=
      [⟨"group:a", "member", "group:b", "zk_1", 1⟩,
       ⟨"group:b", "member", "group:a", "zk_2", 2⟩,
       ⟨"group:a", "member", "user:u", "zk_3", 3⟩,
       ⟨"document:report", "viewer", "group:a", "zk_4", 4⟩]
    schema := LoadDefaultSchema
    changeNumber := 5 }

/-- The number of stored tuples whose subject is not yet in `visited`: the measure that
bounds the recursion depth of `expandGroupMembers`. -/
def unexpanded (rels : List Relationship) (visited : List String) : Nat :=
  rels.countP (fun r => decide (r.subject ∉ visited))

/-- The group `v` has been fully processed: every member of `v` is in `result`, and every
member that is itself a group is in `visited`. -/
def Expanded (rels : List Relationship) (v : String) (result visited : List String) : Prop :=
  ∀ t ∈ rels, t.resource = v → t.relation = "member" →
    t.subject ∈ result ∧ (HasPrefix t.subject "group:" = true → t.subject ∈ visited)

/-- What a call `expandGroupMembers(g, result, visited)` leaving `(result1, visited1)`
guarantees: both sets only grow, `g` is visited, what was added to `result` are transitive
members of `g` (when `g` carries the prefix `group:`), and every newly visited group has
been fully processed. -/
def ExpansionSpec (rels : List Relationship) (g : String)
    (result visited result1 visited1 : List String) : Prop :=
  visited ⊆ visited1 ∧ g ∈ visited1 ∧ result ⊆ result1 ∧
  (HasPrefix g "group:" = true → ∀ x ∈ result1, x ∈ result ∨ InGroup rels x g) ∧
  (∀ v ∈ visited1, v ∈ visited ∨ Expanded rels v result1 visited1)

/-- Three calls: a group and one of its members are both made viewers of a document. -/
def overlapOps : List Op :=
  [.add "document:report" "viewer" "group:eng" 1,
   .add "document:report" "viewer" "user:x" 2,
   .add "group:eng" "member" "user:x" 3]

/-- A JSON text after parsing: the input of `json.Unmarshal` and the output of
`json.Marshal`. Object members are kept in the order of the text. -/
inductive Json where
  | null
  | bool (b : Bool)
  | num (literal : String)
  | str (s : String)
  | arr (items : List Json)
  | obj (members : List (String × Json))

mutual
/-- The nesting depth of a JSON value. -/
def Json.depth : Json → Nat
  | .arr items => Json.depthList items + 1
  | .obj members => Json.depthMembers members + 1
  | _ => 1
/-- The largest depth among the items of an array. -/
def Json.depthList : List Json → Nat
  | [] => 0
  | x :: xs => max x.depth (Json.depthList xs)
/-- The largest depth among the member values of an object. -/
def Json.depthMembers : List (String × Json) → Nat
  | [] => 0
  | (_, v) :: ms => max v.depth (Json.depthMembers ms)
end

/-- Go `json.Unmarshal` into a `map[string]json.RawMessage`: `null` leaves the map nil (no
key), an object gives its members, any other value is a type error. -/
def asRawMap : Json → Except Error (List (String × Json))
  | .null => .ok []
  | .obj members => .ok members
  | _ => .error .jsonType

/-- Go map lookup `raw[key]` in a map filled by `json.Unmarshal`: of several members with
the same key the last one is kept. -/
def rawGet (raw : List (String × Json)) (key : String) : Option Json :=
  raw.reverse.lookup key

/-- Case folding of `encoding/json` for member names, on the characters that can fold to an
ASCII letter: lower-case ASCII letters, the long s (U+017F) and the Kelvin sign (U+212A). -/
def foldChar (c : Char) : Char :=
  if c.toNat = 383 then 'S' else if c.toNat = 8490 then 'K' else c.toUpper

/-- The member name `key` selects the struct field tagged `field` (an ASCII name): they are
equal up to case folding. -/
def fieldMatches (key field : String) : Bool :=
  key.data.map foldChar == field.data.map foldChar

/-- Go `json.Unmarshal` of a value into a `string` variable holding `cur`. -/
def decodeString (cur : String) : Json → Except Error String
  | .null => .ok cur
  | .str s => .ok s
  | _ => .error .jsonType

/-- Go `json.Unmarshal` of a value into a struct whose only field is `Relation string`
tagged `relation` (`ComputedUserset`, `Tupleset`), the field holding `cur` before. -/
def decodeRelationStruct (cur : String) : Json → Except Error String
  | .null => .ok cur
  | .obj members =>
    members.foldlM (fun acc kv => if fieldMatches kv.1 "relation" then decodeString acc kv.2
      else .ok acc) cur
  | _ => .error .jsonType

/-- Go `json.Unmarshal(data, &cu)` for `var cu ComputedUserset`. -/
def decodeComputedUserset (data : Json) : Except Error ComputedUserset :=
  match decodeRelationStruct "" data with
  | .error e => .error e
  | .ok r => .ok ⟨r⟩

/-- Go `json.Unmarshal(data, &ttu)` for `var ttu TupleToUserset`. -/
def decodeTupleToUserset : Json → Except Error TupleToUserset
  | .null => .ok ⟨⟨""⟩, ⟨""⟩⟩
  | .obj members =>
    members.foldlM (fun (acc : TupleToUserset) kv =>
      if fieldMatches kv.1 "tupleset" then
        match decodeRelationStruct acc.tupleset.relation kv.2 with
        | .error e => .error e
        | .ok r => .ok { acc with tupleset := ⟨r⟩ }
      else if fieldMatches kv.1 "computed_userset" then
        match decodeRelationStruct acc.computedUserset.relation kv.2 with
        | .error e => .error e
        | .ok r => .ok { acc with computedUserset := ⟨r⟩ }
      else .ok acc) ⟨⟨""⟩, ⟨""⟩⟩
  | _ => .error .jsonType

/-- Go `json.Unmarshal` of the items of an array into a `[]*UsersetRewrite`, `recur` being
`UnmarshalJSON` on an item. For a `null` item Go stores a nil pointer and goes on without
error: the decoded node then has a nil child, which the tree type does not represent, and
the model gives no answer (`none`). -/
def decodeItems (recur : Json → Option (Except Error UsersetRewrite)) :
    List Json → Option (Except Error (List UsersetRewrite))
  | [] => some (.ok [])
  | .null :: _ => none
  | item :: rest =>
    match recur item with
    | none => none
    | some (.error e) => some (.error e)
    | some (.ok c) =>
      match decodeItems recur rest with
      | none => none
      | some (.error e) => some (.error e)
      | some (.ok cs) => some (.ok (c :: cs))

/-- Go `json.Unmarshal(childrenData, &children)` for `var children []*UsersetRewrite`. -/
def decodeChildren (recur : Json → Option (Except Error UsersetRewrite)) :
    Json → Option (Except Error (List UsersetRewrite))
  | .null => some (.ok [])
  | .arr items => decodeItems recur items
  | _ => some (.error .jsonType)

/-- The `union` and `intersection` branches of `UnmarshalJSON`: the value is read as a map,
its `child` member is required and decoded as the children. -/
def decodeVariadic (recur : Json → Option (Except Error UsersetRewrite)) (variant : String)
    (data : Json) : Option (Except Error UsersetRewrite) :=
  match asRawMap data with
  | .error e => some (.error e)
  | .ok m =>
    match rawGet m "child" with
    | none => some (.error (.missingField variant "child"))
    | some childrenData =>
      match decodeChildren recur childrenData with
      | none => none
      | some (.error e) => some (.error e)
      | some (.ok children) => some (.ok (.mk variant none none children))

/-- The `exclusion` branch of `UnmarshalJSON`: `base` and `subtract` are both required and
become the two children. -/
def decodeExclusion (recur : Json → Option (Except Error UsersetRewrite)) (data : Json) :
    Option (Except Error UsersetRewrite) :=
  match asRawMap data with
  | .error e => some (.error e)
  | .ok m =>
    match rawGet m "base" with
    | none => some (.error (.missingField "exclusion" "base"))
    | some baseData =>
      match recur baseData with
      | none => none
      | some (.error e) => some (.error e)
      | some (.ok base) =>
        match rawGet m "subtract" with
        | none => some (.error (.missingField "exclusion" "subtract"))
        | some subtractData =>
          match recur subtractData with
          | none => none
          | some (.error e) => some (.error e)
          | some (.ok subtract) => some (.ok (.mk "exclusion" none none [base, subtract]))

/-- Go `UsersetRewrite.UnmarshalJSON` into a zero `UsersetRewrite`, with a bound on the
nesting depth of the recursion (`none`: bound exhausted). -/
def UnmarshalJSONFuel : Nat → Json → Option (Except Error UsersetRewrite)
  | 0, _ => none
  | fuel + 1, data =>
    match asRawMap data with
    | .error e => some (.error e)
    | .ok raw =>
      if (rawGet raw "_this").isSome then some (.ok (.mk "this" none none []))
      else
        match rawGet raw "computed_userset" with
        | some d =>
          match decodeComputedUserset d with
          | .error e => some (.error e)
          | .ok cu => some (.ok (.mk "computed_userset" (some cu) none []))
        | none =>
          match rawGet raw "tuple_to_userset" with
          | some d =>
            match decodeTupleToUserset d with
            | .error e => some (.error e)
            | .ok ttu => some (.ok (.mk "tuple_to_userset" none (some ttu) []))
          | none =>
            match rawGet raw "union" with
            | some d => decodeVariadic (UnmarshalJSONFuel fuel) "union" d
            | none =>
              match rawGet raw "intersection" with
              | some d => decodeVariadic (UnmarshalJSONFuel fuel) "intersection" d
              | none =>
                match rawGet raw "exclusion" with
                | some d => decodeExclusion (UnmarshalJSONFuel fuel) d
                | none => some (.error .unknownRewriteType)

/-- Go `UsersetRewrite.UnmarshalJSON`: every recursive call is on a value nested inside the
argument, so the nesting depth of the argument bounds the recursion. The answer `none` stands
for a decoded tree with a nil child (see `decodeItems`). -/
def UnmarshalJSON (data : Json) : Option (Except Error UsersetRewrite) :=
  UnmarshalJSONFuel data.depth data

/-- Go `json.Marshal` of a `*ComputedUserset`. -/
def encodeComputedUserset : Option ComputedUserset → Json
  | none => .null
  | some cu => .obj [("relation", .str cu.relation)]

/-- Go `json.Marshal` of a `*TupleToUserset`. -/
def encodeTupleToUserset : Option TupleToUserset → Json
  | none => .null
  | some t =>
    .obj [("tupleset", .obj [("relation", .str t.tupleset.relation)]),
          ("computed_userset", .obj [("relation", .str t.computedUserset.relation)])]

mutual
/-- Go `UsersetRewrite.MarshalJSON`. A child list without elements is written `[]`, as Go
does for an empty slice (for the nil slice that `NewUnionRewrite()` leaves, Go writes
`null`). -/
def MarshalJSON : UsersetRewrite → Except Error Json
  | .mk type computedUserset tupleToUserset children =>
    if type = "this" then .ok (.obj [("_this", .obj [])])
    else if type = "computed_userset" then
      .ok (.obj [("computed_userset", encodeComputedUserset computedUserset)])
    else if type = "tuple_to_userset" then
      .ok (.obj [("tuple_to_userset", encodeTupleToUserset tupleToUserset)])
    else if type = "union" then
      match marshalChildren children with
      | .error e => .error e
      | .ok cs => .ok (.obj [("union", .obj [("child", .arr cs)])])
    else if type = "intersection" then
      match marshalChildren children with
      | .error e => .error e
      | .ok cs => .ok (.obj [("intersection", .obj [("child", .arr cs)])])
    else if type = "exclusion" then
      if children.length ≠ 2 then .error .exclusionArity
      else
        match marshalChildren children with
        | .error e => .error e
        | .ok [base, subtract] =>
          .ok (.obj [("exclusion", .obj [("base", base), ("subtract", subtract)])])
        | .ok _ => .error .exclusionArity
    else .error (.unknownRewriteTypeNamed type)
/-- Go `json.Marshal` of the elements of `Children`, each through `MarshalJSON`. -/
def marshalChildren : List UsersetRewrite → Except Error (List Json)
  | [] => .ok []
  | c :: cs =>
    match MarshalJSON c with
    | .error e => .error e
    | .ok j =>
      match marshalChildren cs with
      | .error e => .error e
      | .ok js => .ok (j :: js)
end

/-- Go `NewIntersectionRewrite`. -/
def NewIntersectionRewrite (children : List UsersetRewrite) : UsersetRewrite :=
  .mk "intersection" none none children

/-- Go `NewExclusionRewrite`. -/
def NewExclusionRewrite (base subtract : UsersetRewrite) : UsersetRewrite :=
  .mk "exclusion" none none [base, subtract]

/-- Structurally valid rewrite trees: the trees built by the six construction helpers,
`Union` and `Intersection` from a non-empty list of valid children. -/
inductive Valid : UsersetRewrite → Prop where
  | this : Valid NewThisRewrite
  | computedUserset (relation : String) : Valid (NewComputedUsersetRewrite relation)
  | tupleToUserset (tupleRelation computedRelation : String) :
      Valid (NewTupleToUsersetRewrite tupleRelation computedRelation)
  | union (children : List UsersetRewrite) :
      children ≠ [] → (∀ c ∈ children, Valid c) → Valid (NewUnionRewrite children)
  | intersection (children : List UsersetRewrite) :
      children ≠ [] → (∀ c ∈ children, Valid c) → Valid (NewIntersectionRewrite children)
  | exclusion (base subtract : UsersetRewrite) :
      Valid base → Valid subtract → Valid (NewExclusionRewrite base subtract)

/-- The rewrite tree `viewer = this | editor | parent#viewer` of the default schema. -/
def viewerRewrite : UsersetRewrite :=
  NewUnionRewrite
    [NewThisRewrite, NewComputedUsersetRewrite "editor", NewTupleToUsersetRewrite "parent" "viewer"]

/-- Round trip of one tree: it is encoded as a JSON object, and decoding that object with
any depth bound not below its nesting depth gives the tree back. -/
def RoundTrips (t : UsersetRewrite) : Prop :=
  ∃ j, MarshalJSON t = .ok j ∧ (∃ m, j = .obj m) ∧
    ∀ fuel, j.depth ≤ fuel → UnmarshalJSONFuel fuel j = some (.ok t)

/-- The variant keys of a rewrite node, in the order in which `UnmarshalJSON` looks for
them. -/
def variantKeys : List String :=
  ["_this", "computed_userset", "tuple_to_userset", "union", "intersection", "exclusion"]

/-- The first variant key, in the order of `variantKeys`, that the decoded map holds, with
its value. -/
def firstVariant (raw : List (String × Json)) : Option (String × Json) :=
  variantKeys.findSome? (fun k => (rawGet raw k).map (fun v => (k, v)))

/-- A JSON object holding both the `_this` and the `union` key. -/
def twoVariantKeys : Json :=
  .obj [("_this", .obj []), ("union", .obj [("child", .arr [.obj [("_this", .obj [])]])])]

/-- The two decoders agree on every value of nesting depth at most `d`. -/
def Agree (recur recur2 : Json → Option (Except Error UsersetRewrite)) (d : Nat) : Prop :=
  ∀ j : Json, j.depth ≤ d → recur2 j = recur j

/-- A valid tree that uses all six variants. -/
def sampleRewrite : UsersetRewrite :=
  NewExclusionRewrite
    (NewUnionRewrite
      [NewThisRewrite, NewComputedUsersetRewrite "editor",
       NewTupleToUsersetRewrite "parent" "viewer"])
    (NewIntersectionRewrite [NewComputedUsersetRewrite "blocked", NewThisRewrite])

/-- The field `Children` of a rewrite node. -/
def UsersetRewrite.children : UsersetRewrite → List UsersetRewrite
  | .mk _ _ _ children => children

/-- The field `Type` of a rewrite node. -/
def UsersetRewrite.type : UsersetRewrite → String
  | .mk type _ _ _ => type

/-- The loop of the `tuple_to_userset` case: the related objects are asked one after the
other, `ask` being `EvaluateUserset(relatedObj, computedRelation, subject)`; the first answer
that is true or an error is returned. -/
def scanRelated {α : Type} (ask : α → Option (Except Error Bool)) :
    List α → Option (Except Error Bool)
  | [] => some (.ok false)
  | relatedObj :: rest =>
    match ask relatedObj with
    | none => none
    | some (.error e) => some (.error e)
    | some (.ok true) => some (.ok true)
    | some (.ok false) => scanRelated ask rest

mutual
/-- Go `Evaluator.evaluateUsersetRewrite`; `ev` is `EvaluateUserset` (the recursion through
it is bounded by `EvaluateUsersetFuel`). -/
def evaluateUsersetRewrite (ev : String → String → String → Option (Except Error Bool))
    (rels : List Relationship) (objectID subject : String) :
    UsersetRewrite → Option (Except Error Bool)
  | .mk type computedUserset tupleToUserset children =>
    if type = "this" then
      some (.ok (rels.any (fun r => decide (r.resource = objectID) && decide (r.subject = subject))))
    else if type = "computed_userset" then
      match computedUserset with
      | none => some (.error .computedUsersetNil)
      | some cu => ev objectID cu.relation subject
    else if type = "tuple_to_userset" then
      match tupleToUserset with
      | none => some (.error .tupleToUsersetNil)
      | some ttu =>
        scanRelated (fun relatedObj => ev relatedObj ttu.computedUserset.relation subject)
          ((rels.filter (fun r => decide (r.resource = objectID) &&
            decide (r.relation = ttu.tupleset.relation))).map (fun r => r.subject))
    else if type = "union" then
      if children.length = 0 then some (.error .unionNoChildren)
      else evaluateUnion ev rels objectID subject children
    else if type = "intersection" then
      if children.length = 0 then some (.error .intersectionNoChildren)
      else evaluateIntersection ev rels objectID subject children
    else if type = "exclusion" then
      if children.length ≠ 2 then some (.error .exclusionChildren)
      else evaluateExclusion ev rels objectID subject children
    else some (.error (.unknownRewriteTypeNamed type))
/-- The loop of the `union` case. -/
def evaluateUnion (ev : String → String → String → Option (Except Error Bool))
    (rels : List Relationship) (objectID subject : String) :
    List UsersetRewrite → Option (Except Error Bool)
  | [] => some (.ok false)
  | child :: rest =>
    match evaluateUsersetRewrite ev rels objectID subject child with
    | none => none
    | some (.error e) => some (.error e)
    | some (.ok true) => some (.ok true)
    | some (.ok false) => evaluateUnion ev rels objectID subject rest
/-- The loop of the `intersection` case. -/
def evaluateIntersection (ev : String → String → String → Option (Except Error Bool))
    (rels : List Relationship) (objectID subject : String) :
    List UsersetRewrite → Option (Except Error Bool)
  | [] => some (.ok true)
  | child :: rest =>
    match evaluateUsersetRewrite ev rels objectID subject child with
    | none => none
    | some (.error e) => some (.error e)
    | some (.ok false) => some (.ok false)
    | some (.ok true) => evaluateIntersection ev rels objectID subject rest
/-- The `exclusion` case on `Children[0]` and `Children[1]`. -/
def evaluateExclusion (ev : String → String → String → Option (Except Error Bool))
    (rels : List Relationship) (objectID subject : String) :
    List UsersetRewrite → Option (Except Error Bool)
  | [base, subtract] =>
    match evaluateUsersetRewrite ev rels objectID subject base with
    | none => none
    | some (.error e) => some (.error e)
    | some (.ok false) => some (.ok false)
    | some (.ok true) =>
      match evaluateUsersetRewrite ev rels objectID subject subtract with
      | none => none
      | some (.error e) => some (.error e)
      | some (.ok subtractAllowed) => some (.ok (true && !subtractAllowed))
  | _ => some (.error .exclusionChildren)
end

/-- Go `Evaluator.EvaluateUserset` with a bound on the depth of the recursion through
`computed_userset` and `tuple_to_userset` (`none`: bound exhausted; the Go function itself
has no such bound and does not return on a cyclic rule). -/
def EvaluateUsersetFuel (schema : Schema) (rels : List Relationship) :
    Nat → String → String → String → Option (Except Error Bool)
  | 0, _, _, _ => none
  | fuel + 1, objectID, relation, subject =>
    let resourceParts := SplitN2 objectID ':'
    if resourceParts.length ≠ 2 then some (.error (.invalidResourceFormat objectID))
    else
      let resourceType := resourceParts.headD ""
      match schema.GetDefinition resourceType with
      | .error e => some (.error e)
      | .ok d =>
        match d.relations.lookup relation with
        | none => some (.error (.relationNotDefined relation resourceType))
        | some rel =>
          match rel.usersetRewrite with
          | none =>
            if rels.any (sameTriple objectID relation subject) then some (.ok true)
            else if HasPrefix subject "user:" then
              match getGroupMemberships rels subject [] with
              | none => none
              | some (groups, _) =>
                some (.ok (groups.any (fun groupID =>
                  rels.any (sameTriple objectID relation groupID))))
            else some (.ok false)
          | some rewrite =>
            evaluateUsersetRewrite (EvaluateUsersetFuel schema rels fuel) rels objectID subject
              rewrite

/-- The call `EvaluateUserset(objectID, relation, subject)` returns `r`. -/
def EvaluatesTo (schema : Schema) (rels : List Relationship) (objectID relation subject : String)
    (r : Except Error Bool) : Prop :=
  ∃ fuel, EvaluateUsersetFuel schema rels fuel objectID relation subject = some r

/-- The scan dual to `scanRelated`: the first answer that is false or an error is returned,
and true when every answer is true (the loop of the `intersection` case). -/
def scanAll {α : Type} (ask : α → Option (Except Error Bool)) :
    List α → Option (Except Error Bool)
  | [] => some (.ok true)
  | x :: rest =>
    match ask x with
    | none => none
    | some (.error e) => some (.error e)
    | some (.ok false) => some (.ok false)
    | some (.ok true) => scanAll ask rest

/-- A schema with one type whose relation `viewer` is defined by the single node `This`,
built with `NewSchema` and `AddDefinition`. -/
def thisSchema : Schema :=
  (NewSchema.AddDefinition
    { type := "document"
      relations :=
        [("owner", ⟨[⟨"user", ""⟩], none⟩),
         ("viewer", ⟨[⟨"user", ""⟩], some NewThisRewrite⟩)] }).2

/-- The slice `relatedObjects` of the `tuple_to_userset` case: the subjects of the tuples
`(objectID, tupleRelation, _)`, in stored order. -/
def relatedObjects (rels : List Relationship) (objectID tupleRelation : String) : List String :=
  (rels.filter (fun r => decide (r.resource = objectID) &&
    decide (r.relation = tupleRelation))).map (fun r => r.subject)

/-- A schema built with `NewSchema` and `AddDefinition` in which the `parent` of a document
is a folder or a user, and `viewer` of a document is `parent -> viewer`. -/
def orderSchema : Schema :=
  let s1 := (NewSchema.AddDefinition userDef).2
  let s2 := (s1.AddDefinition
    { type := "folder", relations := [("viewer", ⟨[⟨"user", ""⟩], none⟩)] }).2
  (s2.AddDefinition
    { type := "document"
      relations :=
        [("parent", ⟨[⟨"folder", ""⟩, ⟨"user", ""⟩], none⟩),
         ("viewer", ⟨[⟨"user", ""⟩],
           some (NewTupleToUsersetRewrite "parent" "viewer")⟩)] }).2

/-- Three `AddRelationship` calls, the folder parent stored before the user parent. -/
def folderFirstOps : List Op :=
  [.add "document:report" "parent" "folder:projects" 1,
   .add "folder:projects" "viewer" "user:eve" 2,
   .add "document:report" "parent" "user:bob" 3]

/-- The same three `AddRelationship` calls, the user parent stored first. -/
def userFirstOps : List Op :=
  [.add "document:report" "parent" "user:bob" 1,
   .add "document:report" "parent" "folder:projects" 2,
   .add "folder:projects" "viewer" "user:eve" 3]

/-- The history that stores the tuple `(document:report, owner, user:alice)` and removes it
again, `k` times over: `2 * k` successful mutations that leave the store empty. -/
def addRemoveOps : Nat → List Op
  | 0 => []
  | k + 1 =>
    .add "document:report" "owner" "user:alice" 1 ::
      .remove "document:report" "owner" "user:alice" :: addRemoveOps k

/-- A history of `2^64 + 1` successful mutations: `2^63` times the tuple is stored and
removed, then it is stored once more. -/
def recycleOps : List Op :=
  addRemoveOps 9223372036854775808 ++ [.add "document:report" "owner" "user:alice" 1]

/-! ## Strings and admission: basic facts -/

theorem cutFirst_eq_none_iff (sep : Char) (l : List Char) :
    cutFirst sep l = none ↔ sep ∉ l := by
  induction l with
  | nil => simp [cutFirst]
  | cons c cs ih =>
    simp only [cutFirst]
    by_cases h : c = sep
    · simp [h]
    · rw [if_neg h]
      cases hc : cutFirst sep cs with
      | none =>
        have := ih.mp hc
        simp [this, Ne.symm h]
      | some p =>
        have : ¬ (sep ∉ cs) := fun hn => by rw [ih.mpr hn] at hc; cases hc
        simp at this
        simp [this]

theorem cutFirst_fst (sep : Char) (l a b : List Char) (h : cutFirst sep l = some (a, b)) :
    a = l.takeWhile (fun c => c ≠ sep) := by
  induction l generalizing a b with
  | nil => simp [cutFirst] at h
  | cons c cs ih =>
    simp only [cutFirst] at h
    by_cases hc : c = sep
    · simp [hc] at h
      simp [hc, h.1.symm]
    · rw [if_neg hc] at h
      cases hcs : cutFirst sep cs with
      | none => rw [hcs] at h; cases h
      | some p =>
        obtain ⟨a1, b1⟩ := p
        rw [hcs] at h
        simp at h
        have := ih a1 b1 hcs
        simp [List.takeWhile, hc, ← h.1, this]

theorem SplitN2_length (s : String) (sep : Char) :
    (SplitN2 s sep).length = 2 ↔ sep ∈ s.data := by
  unfold SplitN2
  cases h : cutFirst sep s.data with
  | none => simp [(cutFirst_eq_none_iff sep s.data).mp h]
  | some p =>
    have : ¬ (sep ∉ s.data) := fun hn => by rw [(cutFirst_eq_none_iff _ _).mpr hn] at h; cases h
    simp at this
    simp [this]

theorem SplitN2_headD (s : String) (h : ':' ∈ s.data) :
    (SplitN2 s ':').headD "" = typeOf s := by
  unfold SplitN2 typeOf
  cases hc : cutFirst ':' s.data with
  | none => exact absurd h ((cutFirst_eq_none_iff _ _).mp hc)
  | some p =>
    obtain ⟨a, b⟩ := p
    simp [cutFirst_fst _ _ _ _ hc]


theorem sameTriple_iff (r l u : String) (t : Relationship) :
    sameTriple r l u t = true ↔ triple t = (r, l, u) := by
  simp [sameTriple, triple, and_assoc]

theorem validate_cases (s : Schema) (rt l st : String) :
    (s.ValidateRelationship rt l st = .ok () ∧ Admits s rt l st) ∨
    (¬ Admits s rt l st ∧
      (s.ValidateRelationship rt l st = .error (.typeNotDefined rt) ∨
       s.ValidateRelationship rt l st = .error (.relationNotDefined l rt) ∨
       s.ValidateRelationship rt l st = .error (.subjectTypeNotAllowed st l rt))) := by
  unfold Schema.ValidateRelationship Admits
  cases hd : s.definitions.lookup rt with
  | none => right; simp
  | some d =>
    dsimp only
    cases hr : d.relations.lookup l with
    | none => right; simp [hr]
    | some rel =>
      dsimp only
      by_cases hany : rel.subjects.any (fun sub => decide (sub.type = st)) = true
      · left
        rw [if_pos hany]
        refine ⟨rfl, d, rfl, rel, hr, ?_⟩
        simpa using hany
      · right
        rw [if_neg hany]
        refine ⟨?_, by simp⟩
        rintro ⟨d1, hd1, rel1, hr1, hsub⟩
        cases hd1
        rw [hr] at hr1
        cases hr1
        exact hany (by simpa using hsub)

theorem add_cases (s : Store) (r l u : String) (now : Nat) :
    (':' ∉ r.data ∧ s.AddRelationship r l u now = (.error (.invalidResourceFormat r), s)) ∨
    (':' ∈ r.data ∧ ':' ∉ u.data ∧
      s.AddRelationship r l u now = (.error (.invalidSubjectFormat u), s)) ∨
    (':' ∈ r.data ∧ ':' ∈ u.data ∧ ¬ Admits s.schema (typeOf r) l (typeOf u) ∧
      (s.AddRelationship r l u now = (.error (.typeNotDefined (typeOf r)), s) ∨
       s.AddRelationship r l u now = (.error (.relationNotDefined l (typeOf r)), s) ∨
       s.AddRelationship r l u now =
         (.error (.subjectTypeNotAllowed (typeOf u) l (typeOf r)), s))) ∨
    (':' ∈ r.data ∧ ':' ∈ u.data ∧ Admits s.schema (typeOf r) l (typeOf u) ∧
      ∃ t, s.relationships.find? (sameTriple r l u) = some t ∧
        s.AddRelationship r l u now = (.ok t.zookieToken, s)) ∨
    (':' ∈ r.data ∧ ':' ∈ u.data ∧ Admits s.schema (typeOf r) l (typeOf u) ∧
      s.relationships.find? (sameTriple r l u) = none ∧
        s.AddRelationship r l u now = (.ok ("zk_" ++ formatInt s.changeNumber), inserted s r l u now)) := by
  unfold Store.AddRelationship
  by_cases hr : ':' ∈ r.data
  · have hr2 : (SplitN2 r ':').length = 2 := (SplitN2_length r ':').mpr hr
    by_cases hu : ':' ∈ u.data
    · have hu2 : (SplitN2 u ':').length = 2 := (SplitN2_length u ':').mpr hu
      simp only [hr2, hu2, ne_eq, not_true_eq_false, if_false, SplitN2_headD r hr,
        SplitN2_headD u hu]
      rcases validate_cases s.schema (typeOf r) l (typeOf u) with ⟨hv, ha⟩ | ⟨ha, hv⟩
      · rw [hv]
        cases hf : s.relationships.find? (sameTriple r l u) with
        | some t => right; right; right; left; exact ⟨hr, hu, ha, t, rfl, rfl⟩
        | none => right; right; right; right; exact ⟨hr, hu, ha, rfl, rfl⟩
      · right; right; left
        refine ⟨hr, hu, ha, ?_⟩
        rcases hv with hv | hv | hv <;> rw [hv] <;> simp
    · have hu2 : (SplitN2 u ':').length ≠ 2 := fun h => hu ((SplitN2_length u ':').mp h)
      right; left
      simp [hr2, hu2, hr, hu]
  · have hr2 : (SplitN2 r ':').length ≠ 2 := fun h => hr ((SplitN2_length r ':').mp h)
    left
    simp [hr2, hr]

theorem inserted_find (s : Store) (r l u : String) (now : Nat)
    (hf : s.relationships.find? (sameTriple r l u) = none) :
    (inserted s r l u now).relationships.find? (sameTriple r l u) =
      some ⟨r, l, u, "zk_" ++ formatInt s.changeNumber, now⟩ := by
  simp [inserted, List.find?_append, hf, sameTriple]

/-- C10: `AddRelationship` succeeds exactly when both identifiers contain `:` and the schema
admits the tuple (the resource type is defined, the relation is declared on it, and the
subject type is among the relation's subject types); in every other case the result is one
of the malformed-id, missing-type, missing-relation or subject-type-not-allowed errors. -/
theorem AddRelationship_succeeds_iff (s : Store) (r l u : String) (now : Nat) :
    ((∃ tok, (s.AddRelationship r l u now).1 = .ok tok) ↔
      (':' ∈ r.data ∧ ':' ∈ u.data ∧ Admits s.schema (typeOf r) l (typeOf u))) ∧
    ((':' ∈ r.data ∧ ':' ∈ u.data ∧ Admits s.schema (typeOf r) l (typeOf u)) ∨
      (s.AddRelationship r l u now).1 = .error (.invalidResourceFormat r) ∨
      (s.AddRelationship r l u now).1 = .error (.invalidSubjectFormat u) ∨
      (s.AddRelationship r l u now).1 = .error (.typeNotDefined (typeOf r)) ∨
      (s.AddRelationship r l u now).1 = .error (.relationNotDefined l (typeOf r)) ∨
      (s.AddRelationship r l u now).1 =
        .error (.subjectTypeNotAllowed (typeOf u) l (typeOf r))) := by
  rcases add_cases s r l u now with ⟨hr, h⟩ | ⟨hr, hu, h⟩ | ⟨hr, hu, ha, h⟩ |
    ⟨hr, hu, ha, t, _, h⟩ | ⟨hr, hu, ha, _, h⟩
  · refine ⟨⟨?_, fun hc => absurd hc.1 hr⟩, ?_⟩
    · rintro ⟨tok, htok⟩
      rw [h] at htok
      cases htok
    · rw [h]; simp
  · refine ⟨⟨?_, fun hc => absurd hc.2.1 hu⟩, ?_⟩
    · rintro ⟨tok, htok⟩
      rw [h] at htok
      cases htok
    · rw [h]; simp
  · refine ⟨⟨?_, fun hc => absurd hc.2.2 ha⟩, ?_⟩
    · rintro ⟨tok, htok⟩
      rcases h with h | h | h <;> rw [h] at htok <;> cases htok
    · rcases h with h | h | h <;> rw [h] <;> simp
  · exact ⟨⟨fun _ => ⟨hr, hu, ha⟩, fun _ => ⟨t.zookieToken, by rw [h]⟩⟩, Or.inl ⟨hr, hu, ha⟩⟩
  · exact ⟨⟨fun _ => ⟨hr, hu, ha⟩, fun _ => ⟨_, by rw [h]⟩⟩, Or.inl ⟨hr, hu, ha⟩⟩

/-- C4: a repeated `AddRelationship` returns the token of the first call and leaves the
store (tuple list and change counter) exactly as the first call left it. -/
theorem AddRelationship_idempotent (s : Store) (r l u : String) (now now2 : Nat) (tok : String)
    (h : (s.AddRelationship r l u now).1 = .ok tok) :
    ((s.AddRelationship r l u now).2.AddRelationship r l u now2).1 = .ok tok ∧
    ((s.AddRelationship r l u now).2.AddRelationship r l u now2).2.relationships =
      (s.AddRelationship r l u now).2.relationships ∧
    ((s.AddRelationship r l u now).2.AddRelationship r l u now2).2.changeNumber =
      (s.AddRelationship r l u now).2.changeNumber := by
  rcases add_cases s r l u now with ⟨_, h1⟩ | ⟨_, _, h1⟩ | ⟨_, _, _, h1⟩ |
    ⟨hr, hu, ha, t, hf, h1⟩ | ⟨hr, hu, ha, hf, h1⟩
  · rw [h1] at h; cases h
  · rw [h1] at h; cases h
  · rcases h1 with h1 | h1 | h1 <;> rw [h1] at h <;> cases h
  · rw [h1] at h ⊢
    simp only at h ⊢
    rcases add_cases s r l u now2 with ⟨hr2, _⟩ | ⟨_, hu2, _⟩ |
      ⟨_, _, ha2, _⟩ | ⟨_, _, _, t2, hf2, h2⟩ | ⟨_, _, _, hf2, _⟩
    · exact absurd hr hr2
    · exact absurd hu hu2
    · exact absurd ha ha2
    · rw [hf] at hf2
      cases hf2
      rw [h2]
      exact ⟨h, rfl, rfl⟩
    · rw [hf] at hf2
      cases hf2
  · rw [h1] at h ⊢
    simp only at h ⊢
    rcases add_cases (inserted s r l u now) r l u now2 with ⟨hr2, _⟩ | ⟨_, hu2, _⟩ |
      ⟨_, _, ha2, _⟩ | ⟨_, _, _, t, hf2, h2⟩ | ⟨_, _, _, hf2, _⟩
    · exact absurd hr hr2
    · exact absurd hu hu2
    · exact absurd ha ha2
    · rw [inserted_find s r l u now hf] at hf2
      cases hf2
      rw [h2]
      exact ⟨h, rfl, rfl⟩
    · rw [inserted_find s r l u now hf] at hf2
      cases hf2

theorem AddRelationship_idempotent_witness :
    (((NewStore LoadDefaultSchema).AddRelationship "document:report" "owner" "user:alice" 5).2.AddRelationship
        "document:report" "owner" "user:alice" 9).1 = .ok "zk_1" ∧
    (((NewStore LoadDefaultSchema).AddRelationship "document:report" "owner" "user:alice" 5).2.AddRelationship
        "document:report" "owner" "user:alice" 9).2.relationships =
      ((NewStore LoadDefaultSchema).AddRelationship "document:report" "owner" "user:alice" 5).2.relationships ∧
    (((NewStore LoadDefaultSchema).AddRelationship "document:report" "owner" "user:alice" 5).2.AddRelationship
        "document:report" "owner" "user:alice" 9).2.changeNumber =
      ((NewStore LoadDefaultSchema).AddRelationship "document:report" "owner" "user:alice" 5).2.changeNumber :=
  AddRelationship_idempotent (NewStore LoadDefaultSchema) "document:report" "owner" "user:alice"
    5 9 "zk_1" (by decide)

theorem set_perm_cons_eraseIdx {α : Type} (x : α) :
    ∀ (l : List α) (i : Nat), i < l.length → (l.set i x).Perm (x :: l.eraseIdx i)
  | [], _, h => by simp at h
  | a :: l, 0, _ => by simp
  | a :: l, i + 1, h => by
    have ih := set_perm_cons_eraseIdx x l i (by simpa using h)
    simp only [List.set_cons_succ, List.eraseIdx_cons_succ]
    exact (List.Perm.cons a ih).trans (List.Perm.swap x a _)

theorem swapRemove_perm (rs : List Relationship) (i : Nat) (hi : i < rs.length) :
    (swapRemove rs i).Perm (rs.eraseIdx i) := by
  unfold swapRemove
  cases hl : rs.getLast? with
  | none =>
    rw [List.getLast?_eq_none_iff] at hl
    subst hl
    simp at hi
  | some last =>
    obtain ⟨init, rfl⟩ := List.getLast?_eq_some_iff.mp hl
    dsimp only
    by_cases h : i < init.length
    · rw [List.set_append_left i last h, List.dropLast_concat,
        List.eraseIdx_append_of_lt_length h]
      exact (set_perm_cons_eraseIdx last init i h).trans (List.perm_append_singleton _ _).symm
    · have hi2 : i = init.length := by
        simp at hi
        omega
      subst hi2
      rw [List.set_append_right _ _ (le_refl _), List.eraseIdx_append_of_length_le (le_refl _)]
      simp

theorem mem_of_mem_swapRemove (rs : List Relationship) (i : Nat) (hi : i < rs.length)
    (t : Relationship) (ht : t ∈ swapRemove rs i) : t ∈ rs :=
  List.eraseIdx_subset rs i ((swapRemove_perm rs i hi).subset ht)

theorem swapRemove_nodup (rs : List Relationship) (i : Nat) (hi : i < rs.length)
    (hn : (rs.map triple).Nodup) : ((swapRemove rs i).map triple).Nodup := by
  rw [((swapRemove_perm rs i hi).map triple).nodup_iff]
  exact hn.sublist ((List.eraseIdx_sublist rs i).map triple)

theorem triple_ne_of_mem_swapRemove (rs : List Relationship) (i : Nat) (hi : i < rs.length)
    (hn : (rs.map triple).Nodup) (t : Relationship) (ht : t ∈ swapRemove rs i) :
    triple t ≠ triple rs[i] := by
  have ht2 := (swapRemove_perm rs i hi).subset ht
  obtain ⟨j, hj, hne, rfl⟩ := List.mem_eraseIdx_iff_getElem.mp ht2
  intro heq
  have hj2 : j < (rs.map triple).length := by simpa using hj
  have hi2 : i < (rs.map triple).length := by simpa using hi
  have h1 : (rs.map triple)[j] = (rs.map triple)[i] := by
    simpa using heq
  exact hne ((hn.getElem_inj_iff).mp h1)

theorem remove_cases (s : Store) (r l u : String) :
    (∃ (hi : s.relationships.findIdx (sameTriple r l u) < s.relationships.length),
      triple (s.relationships[s.relationships.findIdx (sameTriple r l u)]) = (r, l, u) ∧
      s.RemoveRelationship r l u =
        (.ok (), { s with
          relationships := swapRemove s.relationships
            (s.relationships.findIdx (sameTriple r l u)),
          changeNumber := wrapInt64 (s.changeNumber + 1) })) ∨
    ((∀ t ∈ s.relationships, triple t ≠ (r, l, u)) ∧
      s.RemoveRelationship r l u = (.error .relationshipNotFound, s)) := by
  unfold Store.RemoveRelationship
  by_cases hi : s.relationships.findIdx (sameTriple r l u) < s.relationships.length
  · left
    refine ⟨hi, ?_, by simp [hi]⟩
    exact (sameTriple_iff r l u _).mp (List.findIdx_getElem (w := hi))
  · right
    refine ⟨?_, by simp only [hi, if_false]⟩
    intro t ht heq
    exact hi (List.findIdx_lt_length_of_exists ⟨t, ht, (sameTriple_iff r l u t).mpr heq⟩)

theorem run_append (s : Store) (ops1 ops2 : List Op) :
    run s (ops1 ++ ops2) = run (run s ops1) ops2 := by
  simp [run, List.foldl_append]

theorem reachable_induction (schema : Schema) (P : Store → Prop) (h0 : P (NewStore schema))
    (hstep : ∀ s op, P s → P (step s op)) : ∀ s, Reachable schema s → P s := by
  rintro s ⟨ops, rfl⟩
  induction ops using List.reverseRecOn with
  | nil => exact h0
  | append_singleton ops op ih =>
    rw [run_append]
    exact hstep _ op ih

theorem step_cases (s : Store) (op : Op) :
    step s op = s ∨
    (∃ r l u now, ':' ∈ r.data ∧ ':' ∈ u.data ∧ Admits s.schema (typeOf r) l (typeOf u) ∧
      s.relationships.find? (sameTriple r l u) = none ∧ step s op = inserted s r l u now) ∨
    (∃ i, i < s.relationships.length ∧
      step s op = { s with relationships := swapRemove s.relationships i,
                           changeNumber := wrapInt64 (s.changeNumber + 1) }) := by
  cases op with
  | add r l u now =>
    simp only [step]
    rcases add_cases s r l u now with ⟨_, h⟩ | ⟨_, _, h⟩ | ⟨_, _, _, h⟩ |
      ⟨_, _, _, t, _, h⟩ | ⟨hr, hu, ha, hf, h⟩
    · left; rw [h]
    · left; rw [h]
    · left; rcases h with h | h | h <;> rw [h]
    · left; rw [h]
    · right; left; exact ⟨r, l, u, now, hr, hu, ha, hf, by rw [h]⟩
  | remove r l u =>
    simp only [step]
    rcases remove_cases s r l u with ⟨hi, _, h⟩ | ⟨_, h⟩
    · right; right; exact ⟨_, hi, by rw [h]⟩
    · left; rw [h]

theorem reachable_schema (schema : Schema) (s : Store) (h : Reachable schema s) :
    s.schema = schema := by
  refine reachable_induction schema (fun s => s.schema = schema) rfl ?_ s h
  intro s op ih
  rcases step_cases s op with h | ⟨r, l, u, now, _, _, _, _, h⟩ | ⟨i, _, h⟩ <;> rw [h] <;> exact ih

theorem reachable_nodup (schema : Schema) (s : Store) (h : Reachable schema s) :
    (s.relationships.map triple).Nodup := by
  refine reachable_induction schema (fun s => (s.relationships.map triple).Nodup) ?_ ?_ s h
  · simp [NewStore]
  · intro s op ih
    rcases step_cases s op with h | ⟨r, l, u, now, _, _, _, hf, h⟩ | ⟨i, hi, h⟩ <;> rw [h]
    · exact ih
    · simp only [inserted, List.map_append, List.map_cons, List.map_nil]
      rw [List.nodup_append]
      refine ⟨ih, by simp, ?_⟩
      simp only [List.Disjoint, List.mem_map, List.mem_singleton]
      rintro x ⟨t, ht, rfl⟩ hx
      have := List.find?_eq_none.mp hf t ht
      exact this ((sameTriple_iff r l u t).mpr hx)
    · exact swapRemove_nodup _ i hi ih

/-- C8: in every reachable store state no two stored tuples carry the same
`(resource, relation, subject)` triple. -/
theorem reachable_triples_unique (schema : Schema) (s : Store) (h : Reachable schema s) :
    s.relationships.Pairwise (fun a b => triple a ≠ triple b) :=
  List.pairwise_map.mp (reachable_nodup schema s h)

/-- C9: in every reachable store state every stored tuple is admitted by the schema: its
resource type is defined, its relation is declared on that type, and its subject type (the
text before the first `:`) is among the relation's subject types. -/
theorem reachable_schema_valid (schema : Schema) (s : Store) (h : Reachable schema s) :
    ∀ t ∈ s.relationships, Admits schema (typeOf t.resource) t.relation (typeOf t.subject) := by
  have key : s.schema = schema ∧
      ∀ t ∈ s.relationships, Admits schema (typeOf t.resource) t.relation (typeOf t.subject) := by
    refine reachable_induction schema (fun s => s.schema = schema ∧
      ∀ t ∈ s.relationships, Admits schema (typeOf t.resource) t.relation (typeOf t.subject))
      ?_ ?_ s h
    · simp [NewStore]
    · rintro s op ⟨hs, ih⟩
      rcases step_cases s op with h | ⟨r, l, u, now, _, _, ha, _, h⟩ | ⟨i, hi, h⟩ <;> rw [h]
      · exact ⟨hs, ih⟩
      · refine ⟨hs, ?_⟩
        intro t ht
        simp only [inserted, List.mem_append, List.mem_singleton] at ht
        rcases ht with ht | rfl
        · exact ih t ht
        · rw [← hs]; exact ha
      · exact ⟨hs, fun t ht => ih t (mem_of_mem_swapRemove _ i hi t ht)⟩
  exact key.2

/-- C5: in a reachable store state, a successful `RemoveRelationship(r, l, u)` leaves no
tuple with the triple `(r, l, u)`, and repeating the call fails with "not found". -/
theorem RemoveRelationship_then_absent (schema : Schema) (s : Store) (h : Reachable schema s)
    (r l u : String) (hok : (s.RemoveRelationship r l u).1 = .ok ()) :
    (∀ t ∈ (s.RemoveRelationship r l u).2.relationships, triple t ≠ (r, l, u)) ∧
    ((s.RemoveRelationship r l u).2.RemoveRelationship r l u).1 =
      .error .relationshipNotFound := by
  rcases remove_cases s r l u with ⟨hi, htr, h1⟩ | ⟨_, h1⟩
  · have habs : ∀ t ∈ (s.RemoveRelationship r l u).2.relationships, triple t ≠ (r, l, u) := by
      rw [h1]
      intro t ht
      rw [← htr]
      exact triple_ne_of_mem_swapRemove _ _ hi (reachable_nodup schema s h) t ht
    refine ⟨habs, ?_⟩
    rcases remove_cases (s.RemoveRelationship r l u).2 r l u with ⟨hi2, htr2, _⟩ | ⟨_, h2⟩
    · exact absurd htr2 (habs _ (List.getElem_mem _))
    · rw [h2]
  · rw [h1] at hok
    cases hok

theorem reachable_triples_unique_witness :
    Reachable LoadDefaultSchema (run (NewStore LoadDefaultSchema) sampleOps) ∧
    (run (NewStore LoadDefaultSchema) sampleOps).relationships.Pairwise
      (fun a b => triple a ≠ triple b) :=
  ⟨⟨sampleOps, rfl⟩, reachable_triples_unique LoadDefaultSchema _ ⟨sampleOps, rfl⟩⟩

theorem reachable_schema_valid_witness :
    Reachable LoadDefaultSchema (run (NewStore LoadDefaultSchema) sampleOps) ∧
    ∀ t ∈ (run (NewStore LoadDefaultSchema) sampleOps).relationships,
      Admits LoadDefaultSchema (typeOf t.resource) t.relation (typeOf t.subject) :=
  ⟨⟨sampleOps, rfl⟩, reachable_schema_valid LoadDefaultSchema _ ⟨sampleOps, rfl⟩⟩

theorem RemoveRelationship_then_absent_witness :
    Reachable LoadDefaultSchema (run (NewStore LoadDefaultSchema) sampleOps) ∧
    ((run (NewStore LoadDefaultSchema) sampleOps).RemoveRelationship
      "document:report" "editor" "user:bob").1 = .ok () ∧
    (∀ t ∈ ((run (NewStore LoadDefaultSchema) sampleOps).RemoveRelationship
        "document:report" "editor" "user:bob").2.relationships,
      triple t ≠ ("document:report", "editor", "user:bob")) ∧
    (((run (NewStore LoadDefaultSchema) sampleOps).RemoveRelationship
        "document:report" "editor" "user:bob").2.RemoveRelationship
        "document:report" "editor" "user:bob").1 = .error .relationshipNotFound :=
  ⟨⟨sampleOps, rfl⟩, by decide,
    RemoveRelationship_then_absent LoadDefaultSchema _ ⟨sampleOps, rfl⟩
      "document:report" "editor" "user:bob" (by decide)⟩

theorem countP_lt_countP {α : Type} (p q : α → Bool) :
    ∀ (l : List α), (∀ x ∈ l, p x = true → q x = true) →
      (∃ x ∈ l, q x = true ∧ p x = false) → l.countP p < l.countP q
  | [], _, h => by simp at h
  | a :: l, hpq, hex => by
    have hle : l.countP p ≤ l.countP q :=
      List.countP_mono_left (fun x hx => hpq x (List.mem_cons_of_mem a hx))
    by_cases hq : q a = true
    · by_cases hp : p a = true
      · have hex2 : ∃ x ∈ l, q x = true ∧ p x = false := by
          obtain ⟨x, hx, hqx, hpx⟩ := hex
          rcases List.mem_cons.mp hx with rfl | hx
          · rw [hp] at hpx; cases hpx
          · exact ⟨x, hx, hqx, hpx⟩
        have ih := countP_lt_countP p q l
          (fun x hx => hpq x (List.mem_cons_of_mem a hx)) hex2
        simp [List.countP_cons, hq, hp, ih]
      · simp only [List.countP_cons, hq, hp, if_true]
        simp only [Bool.false_eq_true, if_false]
        omega
    · have hp : ¬ p a = true := fun hp => hq (hpq a (List.mem_cons_self a l) hp)
      have hex2 : ∃ x ∈ l, q x = true ∧ p x = false := by
        obtain ⟨x, hx, hqx, hpx⟩ := hex
        rcases List.mem_cons.mp hx with rfl | hx
        · exact absurd hqx hq
        · exact ⟨x, hx, hqx, hpx⟩
      have ih := countP_lt_countP p q l
        (fun x hx => hpq x (List.mem_cons_of_mem a hx)) hex2
      simp [List.countP_cons, hq, hp, ih]

theorem unvisited_mono (rels : List Relationship) (v w : List String) (h : v ⊆ w) :
    unvisited rels w ≤ unvisited rels v := by
  unfold unvisited
  apply List.countP_mono_left
  intro x _ hx
  simp only [decide_eq_true_eq] at hx ⊢
  exact fun hm => hx (h hm)

theorem unvisited_cons_lt (rels : List Relationship) (v : List String) (r : Relationship)
    (hr : r ∈ rels) (hv : r.resource ∉ v) :
    unvisited rels (r.resource :: v) < unvisited rels v := by
  unfold unvisited
  apply countP_lt_countP
  · intro x _ hx
    simp only [decide_eq_true_eq, List.mem_cons, not_or] at hx ⊢
    exact hx.2
  · exact ⟨r, hr, by simpa using hv, by simp⟩

theorem mem_foldl_insert (nested : List String) :
    ∀ (init : List String) (x : String),
      x ∈ nested.foldl (fun g ng => g.insert ng) init ↔ x ∈ init ∨ x ∈ nested := by
  induction nested with
  | nil => intro init x; simp
  | cons n ns ih =>
    intro init x
    simp only [List.foldl_cons, ih, List.mem_insert_iff, List.mem_cons]
    tauto

theorem groupLoop_total (rels : List Relationship) (fuel : Nat)
    (recur : String → List String → Option (List String × List String))
    (hrec : ∀ s v, unvisited rels v < fuel → ∃ g w, recur s v = some (g, w) ∧ v ⊆ w)
    (subject : String) :
    ∀ (rs : List Relationship), (∀ t ∈ rs, t ∈ rels) → ∀ (groups visited : List String),
      unvisited rels visited ≤ fuel →
      ∃ g w, groupLoop recur subject rs groups visited = some (g, w) ∧ visited ⊆ w := by
  intro rs
  induction rs with
  | nil => intro _ groups visited _; exact ⟨groups, visited, rfl, fun _ h => h⟩
  | cons r rest ih =>
    intro hsub groups visited hfuel
    have hsub2 : ∀ t ∈ rest, t ∈ rels := fun t ht => hsub t (List.mem_cons_of_mem r ht)
    simp only [groupLoop]
    by_cases hm : HasPrefix r.resource "group:" = true ∧ r.relation = "member" ∧
        r.subject = subject
    · rw [if_pos hm]
      by_cases hv : r.resource ∈ visited
      · rw [if_pos hv]
        exact ih hsub2 groups visited hfuel
      · rw [if_neg hv]
        have hlt := unvisited_cons_lt rels visited r (hsub r (List.mem_cons_self r rest)) hv
        obtain ⟨nested, v1, hcall, hv1⟩ := hrec r.resource (r.resource :: visited) (by omega)
        rw [hcall]
        dsimp only
        have hle : unvisited rels v1 ≤ fuel := by
          have := unvisited_mono rels _ _ hv1
          omega
        obtain ⟨g, w, hres, hw⟩ := ih hsub2 _ v1 hle
        exact ⟨g, w, hres, fun x hx => hw (hv1 (List.mem_cons_of_mem _ hx))⟩
    · rw [if_neg hm]
      exact ih hsub2 groups visited hfuel

theorem getGroupMembershipsFuel_total (rels : List Relationship) :
    ∀ (fuel : Nat) (subject : String) (visited : List String),
      unvisited rels visited < fuel →
      ∃ g w, getGroupMembershipsFuel rels fuel subject visited = some (g, w) ∧ visited ⊆ w := by
  intro fuel
  induction fuel with
  | zero => intro _ _ h; omega
  | succ fuel ih =>
    intro subject visited h
    simp only [getGroupMembershipsFuel]
    exact groupLoop_total rels fuel _ ih subject rels (fun _ ht => ht) [] visited (by omega)

/-- The traversal always returns: the depth bound `len(rels) + 1` is never exhausted. -/
theorem getGroupMemberships_total (rels : List Relationship) (subject : String)
    (visited : List String) :
    ∃ g w, getGroupMemberships rels subject visited = some (g, w) := by
  have hle : unvisited rels visited ≤ rels.length := List.countP_le_length _
  obtain ⟨g, w, h, _⟩ :=
    getGroupMembershipsFuel_total rels (rels.length + 1) subject visited (by omega)
  exact ⟨g, w, h⟩

theorem InGroup.trans {rels : List Relationship} {x g h : String}
    (h1 : InGroup rels x g) (h2 : InGroup rels g h) : InGroup rels x h := by
  induction h2 with
  | direct e => exact InGroup.nested h1 e
  | nested _ e ih => exact InGroup.nested ih e

theorem groupLoop_spec (rels : List Relationship)
    (recur : String → List String → Option (List String × List String))
    (hrec : ∀ s v g w, recur s v = some (g, w) → TraversalSpec rels s v g w)
    (subject : String) :
    ∀ (rs : List Relationship), (∀ t ∈ rs, t ∈ rels) →
      ∀ (groups visited g w : List String),
      groupLoop recur subject rs groups visited = some (g, w) →
      visited ⊆ w ∧ groups ⊆ g ∧
      (∀ t ∈ rs, isMemberTuple subject t → t.resource ∈ w) ∧
      (∀ x ∈ g, x ∈ groups ∨
        (InGroup rels subject x ∧ ∀ h, memberEdge rels x h → h ∈ w)) ∧
      (∀ x ∈ w, x ∈ visited ∨ x ∈ g) := by
  intro rs
  induction rs with
  | nil =>
    intro _ groups visited g w h
    simp only [groupLoop, Option.some.injEq, Prod.mk.injEq] at h
    obtain ⟨rfl, rfl⟩ := h
    exact ⟨fun _ h => h, fun _ h => h, by simp, fun x hx => Or.inl hx, fun x hx => Or.inl hx⟩
  | cons r rest ih =>
    intro hsub groups visited g w h
    have hsub2 : ∀ t ∈ rest, t ∈ rels := fun t ht => hsub t (List.mem_cons_of_mem r ht)
    simp only [groupLoop] at h
    by_cases hm : HasPrefix r.resource "group:" = true ∧ r.relation = "member" ∧
        r.subject = subject
    · rw [if_pos hm] at h
      by_cases hv : r.resource ∈ visited
      · rw [if_pos hv] at h
        obtain ⟨h1, h2, h3, h4, h5⟩ := ih hsub2 groups visited g w h
        refine ⟨h1, h2, ?_, h4, h5⟩
        intro t ht htm
        rcases List.mem_cons.mp ht with rfl | ht
        · exact h1 hv
        · exact h3 t ht htm
      · rw [if_neg hv] at h
        cases hcall : recur r.resource (r.resource :: visited) with
        | none => rw [hcall] at h; cases h
        | some p =>
          obtain ⟨nested, v1⟩ := p
          rw [hcall] at h
          dsimp only at h
          obtain ⟨c1, c2, c3, c4⟩ := hrec _ _ _ _ hcall
          obtain ⟨h1, h2, h3, h4, h5⟩ := ih hsub2 _ v1 g w h
          have hedge : memberEdge rels subject r.resource :=
            ⟨hm.1, r, hsub r (List.mem_cons_self r rest), rfl, hm.2.1, hm.2.2⟩
          refine ⟨?_, ?_, ?_, ?_, ?_⟩
          · exact fun x hx => h1 (c1 (List.mem_cons_of_mem _ hx))
          · intro x hx
            exact h2 ((mem_foldl_insert nested _ x).mpr (Or.inl (List.mem_insert_iff.mpr (Or.inr hx))))
          · intro t ht htm
            rcases List.mem_cons.mp ht with rfl | ht
            · exact h1 (c1 (List.mem_cons_self _ _))
            · exact h3 t ht htm
          · intro x hx
            rcases h4 x hx with hx | hx
            · rcases (mem_foldl_insert nested _ x).mp hx with hx | hx
              · rcases List.mem_insert_iff.mp hx with rfl | hx
                · exact Or.inr ⟨InGroup.direct hedge, fun y hy => h1 (c2 y hy)⟩
                · exact Or.inl hx
              · obtain ⟨d1, d2⟩ := c3 x hx
                exact Or.inr ⟨(InGroup.direct hedge).trans d1, fun y hy => h1 (d2 y hy)⟩
            · exact Or.inr hx
          · intro x hx
            rcases h5 x hx with hx | hx
            · rcases c4 x hx with hx | hx
              · rcases List.mem_cons.mp hx with rfl | hx
                · exact Or.inr (h2 ((mem_foldl_insert nested _ _).mpr
                    (Or.inl (List.mem_insert_iff.mpr (Or.inl rfl)))))
                · exact Or.inl hx
              · exact Or.inr (h2 ((mem_foldl_insert nested _ x).mpr (Or.inr hx)))
            · exact Or.inr hx
    · rw [if_neg hm] at h
      obtain ⟨h1, h2, h3, h4, h5⟩ := ih hsub2 groups visited g w h
      refine ⟨h1, h2, ?_, h4, h5⟩
      intro t ht htm
      rcases List.mem_cons.mp ht with rfl | ht
      · exact absurd htm hm
      · exact h3 t ht htm

theorem getGroupMembershipsFuel_spec (rels : List Relationship) :
    ∀ (fuel : Nat) (subject : String) (visited g w : List String),
      getGroupMembershipsFuel rels fuel subject visited = some (g, w) →
      TraversalSpec rels subject visited g w := by
  intro fuel
  induction fuel with
  | zero => intro _ _ _ _ h; simp [getGroupMembershipsFuel] at h
  | succ fuel ih =>
    intro subject visited g w h
    simp only [getGroupMembershipsFuel] at h
    obtain ⟨h1, _, h3, h4, h5⟩ :=
      groupLoop_spec rels _ ih subject rels (fun _ ht => ht) [] visited g w h
    refine ⟨h1, ?_, ?_, h5⟩
    · rintro x ⟨hp, t, ht, rfl, hl, hs⟩
      exact h3 t ht ⟨hp, hl, hs⟩
    · intro x hx
      rcases h4 x hx with hx | hx
      · simp at hx
      · exact hx

/-- Started with an empty `visited` set, `getGroupMemberships` returns exactly the
transitive groups of the subject. -/
theorem getGroupMemberships_mem (rels : List Relationship) (subject : String)
    (g w : List String) (h : getGroupMemberships rels subject [] = some (g, w)) (x : String) :
    x ∈ g ↔ InGroup rels subject x := by
  obtain ⟨_, h2, h3, h4⟩ := getGroupMembershipsFuel_spec rels _ subject [] g w h
  have hw : ∀ y ∈ w, y ∈ g := fun y hy => by
    rcases h4 y hy with hy | hy
    · simp at hy
    · exact hy
  constructor
  · exact fun hx => (h3 x hx).1
  · intro hx
    induction hx with
    | direct e => exact hw _ (h2 _ e)
    | nested _ e ih => exact hw _ ((h3 _ ih).2 _ e)

theorem mem_relationsOf (rels : List Relationship) (subject resource rel : String) :
    rel ∈ relationsOf rels subject resource ↔
      ∃ t ∈ rels, t.resource = resource ∧ t.relation = rel ∧ t.subject = subject := by
  simp only [relationsOf, List.mem_map, List.mem_filter, Bool.and_eq_true, decide_eq_true_eq]
  constructor
  · rintro ⟨t, ⟨ht, h1, h2⟩, h3⟩
    exact ⟨t, ht, h1, h3, h2⟩
  · rintro ⟨t, ht, h1, h3, h2⟩
    exact ⟨t, ⟨ht, h1, h2⟩, h3⟩

theorem getRelations_spec (rels : List Relationship) (subject resource : String) :
    ∃ held, getRelations rels subject resource = some held ∧
      ∀ rel, rel ∈ held ↔ Holds rels subject resource rel := by
  obtain ⟨g, w, hg⟩ := getGroupMemberships_total rels subject []
  refine ⟨relationsOf rels subject resource ++
    g.flatMap (fun groupID => relationsOf rels groupID resource), by simp only [getRelations, hg], ?_⟩
  intro rel
  simp only [List.mem_append, List.mem_flatMap, mem_relationsOf, Holds,
    getGroupMemberships_mem rels subject g w hg]

theorem EvaluatePermission_ok (sch : Schema) (rt action : String) (held : List String)
    (d : Definition) (perm : Permission)
    (hd : sch.definitions.lookup rt = some d) (hp : d.permissions.lookup action = some perm) :
    ∃ allowed, sch.EvaluatePermission rt action held = .ok allowed ∧
      (allowed = true ↔ ∃ rel ∈ operands perm.expression, rel ∈ held) := by
  refine ⟨(Split perm.expression '|').any
    (fun part => held.any (fun r => decide (r = TrimSpace part))),
    by simp only [Schema.EvaluatePermission, hd, hp], ?_⟩
  simp only [operands, List.any_eq_true, decide_eq_true_eq, List.mem_map]
  constructor
  · rintro ⟨part, hpart, r, hr, rfl⟩
    exact ⟨_, ⟨part, hpart, rfl⟩, hr⟩
  · rintro ⟨rel, ⟨part, hpart, rfl⟩, hr⟩
    exact ⟨part, hpart, _, hr, rfl⟩

theorem Check_spec (s : Store) (subject resource action : String)
    (d : Definition) (perm : Permission) (hres : ':' ∈ resource.data)
    (hd : s.schema.definitions.lookup (typeOf resource) = some d)
    (hp : d.permissions.lookup action = some perm) :
    ∃ allowed reason, s.Check subject resource action = some (.ok (allowed, reason)) ∧
      (allowed = true ↔
        ∃ rel ∈ operands perm.expression, Holds s.relationships subject resource rel) := by
  obtain ⟨held, hheld, hmem⟩ := getRelations_spec s.relationships subject resource
  obtain ⟨allowed, hev, hall⟩ :=
    EvaluatePermission_ok s.schema (typeOf resource) action held d perm hd hp
  have hlen : (SplitN2 resource ':').length = 2 := (SplitN2_length resource ':').mpr hres
  have hiff : allowed = true ↔
      ∃ rel ∈ operands perm.expression, Holds s.relationships subject resource rel := by
    rw [hall]
    constructor
    · rintro ⟨rel, h1, h2⟩; exact ⟨rel, h1, (hmem rel).mp h2⟩
    · rintro ⟨rel, h1, h2⟩; exact ⟨rel, h1, (hmem rel).mpr h2⟩
  cases allowed with
  | true =>
    refine ⟨true, "Subject has required relation(s): " ++ formatSlice held, ?_, hiff⟩
    simp only [Store.Check, hlen, ne_eq, not_true_eq_false, if_false, SplitN2_headD resource hres,
      hheld, hev, if_true]
  | false =>
    refine ⟨false, "Subject lacks required relation(s) for action: " ++ action, ?_, hiff⟩
    simp only [Store.Check, hlen, ne_eq, not_true_eq_false, if_false, SplitN2_headD resource hres,
      hheld, hev, Bool.false_eq_true]

/-- C1: when the resource contains `:` and its type defines the permission `action`, `Check`
returns without error, and `allowed` is true exactly when some operand of the permission
expression is a relation held by the subject on the resource, directly or through one of
its transitive groups. -/
theorem Check_allowed_iff (s : Store) (subject resource action : String)
    (d : Definition) (perm : Permission) (hres : ':' ∈ resource.data)
    (hd : s.schema.definitions.lookup (typeOf resource) = some d)
    (hp : d.permissions.lookup action = some perm) :
    ∃ allowed reason, s.Check subject resource action = some (.ok (allowed, reason)) ∧
      (allowed = true ↔
        ∃ rel ∈ operands perm.expression,
          (∃ t ∈ s.relationships, t.resource = resource ∧ t.relation = rel ∧
            t.subject = subject) ∨
          (∃ g, InGroup s.relationships subject g ∧
            ∃ t ∈ s.relationships, t.resource = resource ∧ t.relation = rel ∧ t.subject = g)) :=
  Check_spec s subject resource action d perm hres hd hp

theorem Check_allowed_iff_witness :
    ':' ∈ "document:report".data ∧
    LoadDefaultSchema.definitions.lookup (typeOf "document:report") = some docDef ∧
    docDef.permissions.lookup "view" = some ⟨"owner | editor | viewer"⟩ ∧
    ∃ allowed reason,
      (Store.InitializeWithSampleData (NewStore LoadDefaultSchema) 0).Check
        "user:dave" "document:report" "view" = some (.ok (allowed, reason)) ∧
      (allowed = true ↔
        ∃ rel ∈ operands "owner | editor | viewer",
          (∃ t ∈ (Store.InitializeWithSampleData (NewStore LoadDefaultSchema) 0).relationships,
            t.resource = "document:report" ∧ t.relation = rel ∧ t.subject = "user:dave") ∨
          (∃ g, InGroup (Store.InitializeWithSampleData (NewStore LoadDefaultSchema) 0).relationships
              "user:dave" g ∧
            ∃ t ∈ (Store.InitializeWithSampleData (NewStore LoadDefaultSchema) 0).relationships,
              t.resource = "document:report" ∧ t.relation = rel ∧ t.subject = g)) :=
  ⟨by decide, by rfl, by rfl,
    Check_allowed_iff (Store.InitializeWithSampleData (NewStore LoadDefaultSchema) 0)
      "user:dave" "document:report" "view" docDef ⟨"owner | editor | viewer"⟩
      (by decide) (by rfl) (by rfl)⟩

theorem mem_after_add (s : Store) (r l u : String) (now : Nat) (tok : String)
    (h : (s.AddRelationship r l u now).1 = .ok tok) :
    ':' ∈ r.data ∧ (s.AddRelationship r l u now).2.schema = s.schema ∧
    ∃ t ∈ (s.AddRelationship r l u now).2.relationships,
      t.resource = r ∧ t.relation = l ∧ t.subject = u := by
  rcases add_cases s r l u now with ⟨_, h1⟩ | ⟨_, _, h1⟩ | ⟨_, _, _, h1⟩ |
    ⟨hr, _, _, t, hf, h1⟩ | ⟨hr, _, _, _, h1⟩
  · rw [h1] at h; cases h
  · rw [h1] at h; cases h
  · rcases h1 with h1 | h1 | h1 <;> rw [h1] at h <;> cases h
  · rw [h1]
    have hp := List.find?_some hf
    have ht := (sameTriple_iff r l u t).mp hp
    simp only [triple, Prod.mk.injEq] at ht
    exact ⟨hr, rfl, t, List.mem_of_find?_eq_some hf, ht.1, ht.2.1, ht.2.2⟩
  · rw [h1]
    exact ⟨hr, rfl, ⟨r, l, u, "zk_" ++ formatInt s.changeNumber, now⟩, by simp [inserted],
      rfl, rfl, rfl⟩

/-- C3: after a successful `AddRelationship(resource, relation, subject)`, `Check` of the
subject on the resource for any permission of the resource's type that has `relation` among
its operands returns `allowed = true` without error. -/
theorem Check_after_AddRelationship (s : Store) (r l u : String) (now : Nat) (tok action : String)
    (d : Definition) (perm : Permission)
    (hadd : (s.AddRelationship r l u now).1 = .ok tok)
    (hd : s.schema.definitions.lookup (typeOf r) = some d)
    (hp : d.permissions.lookup action = some perm)
    (hop : l ∈ operands perm.expression) :
    ∃ reason, (s.AddRelationship r l u now).2.Check u r action = some (.ok (true, reason)) := by
  obtain ⟨hr, hsch, t, ht, h1, h2, h3⟩ := mem_after_add s r l u now tok hadd
  obtain ⟨allowed, reason, hc, hiff⟩ :=
    Check_spec (s.AddRelationship r l u now).2 u r action d perm hr (by rw [hsch]; exact hd) hp
  have : allowed = true := hiff.mpr ⟨l, hop, Or.inl ⟨t, ht, h1, h2, h3⟩⟩
  subst this
  exact ⟨reason, hc⟩

theorem Check_after_AddRelationship_witness :
    ∃ reason, ((NewStore LoadDefaultSchema).AddRelationship
      "document:report" "editor" "user:bob" 7).2.Check "user:bob" "document:report" "edit"
        = some (.ok (true, reason)) :=
  Check_after_AddRelationship (NewStore LoadDefaultSchema) "document:report" "editor" "user:bob" 7
    "zk_1" "edit" docDef ⟨"owner | editor"⟩ (by decide) (by rfl) (by rfl) (by decide)

theorem digitChar_toNat (k : Nat) (hk : k < 10) : (Nat.digitChar k).toNat = 48 + k := by
  interval_cases k <;> rfl

theorem decimalValue_concat (l : List Char) (c : Char) :
    decimalValue (l ++ [c]) = 10 * decimalValue l + (c.toNat - 48) := by
  induction l with
  | nil => simp [decimalValue]
  | cons a l ih =>
    show decimalValue (a :: (l ++ [c])) = 10 * decimalValue (a :: l) + (c.toNat - 48)
    rw [decimalValue, ih, decimalValue, List.length_append, List.length_singleton, pow_succ]
    ring

theorem decimalValue_lt (l : List Char) (h : ∀ c ∈ l, IsDigit c) :
    decimalValue l < 10 ^ l.length := by
  induction l with
  | nil => simp [decimalValue]
  | cons a l ih =>
    have ha := h a (List.mem_cons_self a l)
    have ih2 := ih (fun c hc => h c (List.mem_cons_of_mem a hc))
    simp only [decimalValue, List.length_cons, pow_succ]
    have h9 : a.toNat - 48 ≤ 9 := by
      have := ha.2
      omega
    nlinarith [Nat.mul_le_mul_right (10 ^ l.length) h9]

theorem toDigitsCore_append (fuel : Nat) :
    ∀ (n : Nat) (ds : List Char),
      Nat.toDigitsCore 10 fuel n ds = Nat.toDigitsCore 10 fuel n [] ++ ds := by
  induction fuel with
  | zero => intro n ds; simp [Nat.toDigitsCore]
  | succ fuel ih =>
    intro n ds
    simp only [Nat.toDigitsCore]
    by_cases h : n / 10 = 0
    · simp [h]
    · rw [if_neg h, if_neg h, ih (n / 10) (Nat.digitChar (n % 10) :: ds),
        ih (n / 10) [Nat.digitChar (n % 10)]]
      simp

theorem toDigitsCore_succ (fuel n : Nat) :
    Nat.toDigitsCore 10 (fuel + 1) n [] =
      if n / 10 = 0 then [Nat.digitChar (n % 10)]
      else Nat.toDigitsCore 10 fuel (n / 10) [] ++ [Nat.digitChar (n % 10)] := by
  simp only [Nat.toDigitsCore]
  by_cases h : n / 10 = 0
  · simp [h]
  · rw [if_neg h, if_neg h, toDigitsCore_append]

theorem toDigitsCore_spec (fuel : Nat) :
    ∀ (n : Nat), n < fuel →
      decimalValue (Nat.toDigitsCore 10 fuel n []) = n ∧
      (∀ c ∈ Nat.toDigitsCore 10 fuel n [], IsDigit c) ∧
      1 ≤ (Nat.toDigitsCore 10 fuel n []).length ∧
      (1 ≤ n → 10 ^ ((Nat.toDigitsCore 10 fuel n []).length - 1) ≤ n) := by
  induction fuel with
  | zero => intro n h; omega
  | succ fuel ih =>
    intro n hn
    have hd : IsDigit (Nat.digitChar (n % 10)) := by
      unfold IsDigit
      rw [digitChar_toNat _ (Nat.mod_lt n (by omega))]
      omega
    have hv : (Nat.digitChar (n % 10)).toNat - 48 = n % 10 := by
      rw [digitChar_toNat _ (Nat.mod_lt n (by omega))]
      omega
    rw [toDigitsCore_succ]
    by_cases h : n / 10 = 0
    · rw [if_pos h]
      refine ⟨?_, ?_, by simp, ?_⟩
      · simp only [decimalValue, hv, List.length_nil, pow_zero]
        omega
      · intro c hc
        rw [List.mem_singleton.mp hc]
        exact hd
      · intro h1
        simpa using h1
    · rw [if_neg h]
      have hlt : n / 10 < fuel := by omega
      obtain ⟨h1, h2, h3, h4⟩ := ih (n / 10) hlt
      refine ⟨?_, ?_, by simp, ?_⟩
      · rw [decimalValue_concat, h1, hv]
        omega
      · intro c hc
        rcases List.mem_append.mp hc with hc | hc
        · exact h2 c hc
        · rw [List.mem_singleton.mp hc]
          exact hd
      · intro _
        have h5 := h4 (by omega)
        simp only [List.length_append, List.length_singleton, Nat.add_sub_cancel]
        obtain ⟨k, hk⟩ : ∃ k, (Nat.toDigitsCore 10 fuel (n / 10) []).length = k + 1 :=
          ⟨_, (Nat.sub_add_cancel h3).symm⟩
        rw [hk] at h5 ⊢
        simp only [Nat.add_sub_cancel] at h5
        rw [pow_succ]
        omega

theorem lt_of_decimalValue_lt :
    ∀ (x y : List Char), x.length = y.length → (∀ c ∈ x, IsDigit c) → (∀ c ∈ y, IsDigit c) →
      decimalValue x < decimalValue y → List.lt x y
  | [], [], _, _, _, h => by simp [decimalValue] at h
  | [], _ :: _, h, _, _, _ => by simp at h
  | _ :: _, [], h, _, _, _ => by simp at h
  | a :: x, b :: y, hlen, hx, hy, h => by
    have hlen2 : x.length = y.length := by simpa using hlen
    have hx2 : ∀ c ∈ x, IsDigit c := fun c hc => hx c (List.mem_cons_of_mem a hc)
    have hy2 : ∀ c ∈ y, IsDigit c := fun c hc => hy c (List.mem_cons_of_mem b hc)
    have ha := hx a (List.mem_cons_self a x)
    have hb := hy b (List.mem_cons_self b y)
    have bx := decimalValue_lt x hx2
    have by2 := decimalValue_lt y hy2
    simp only [decimalValue, hlen2] at h
    rw [hlen2] at bx
    have hab : a.toNat ≤ b.toNat := by
      by_contra hc
      have h1 : b.toNat - 48 + 1 ≤ a.toNat - 48 := by
        have := ha.1; have := hb.1
        omega
      have := Nat.mul_le_mul_right (10 ^ y.length) h1
      nlinarith
    rcases Nat.lt_or_ge a.toNat b.toNat with hlt | hge
    · exact List.lt.head _ _ (by
        rw [Char.lt_def]
        exact hlt)
    · have heq : a.toNat = b.toNat := le_antisymm hab hge
      rw [heq] at h
      have h3 : decimalValue x < decimalValue y := by omega
      have ih := lt_of_decimalValue_lt x y hlen2 hx2 hy2 h3
      have hnlt1 : ¬ a < b := by
        rw [Char.lt_def]
        show ¬ a.toNat < b.toNat
        omega
      have hnlt2 : ¬ b < a := by
        rw [Char.lt_def]
        show ¬ b.toNat < a.toNat
        omega
      exact List.lt.tail hnlt1 hnlt2 ih

theorem token_shortlex (a b : Int) (ha : 0 ≤ a) (hab : a < b) :
    shortlexLt ("zk_" ++ formatInt a) ("zk_" ++ formatInt b) := by
  obtain ⟨m, rfl⟩ := Int.eq_ofNat_of_zero_le ha
  obtain ⟨k, rfl⟩ := Int.eq_ofNat_of_zero_le (le_trans ha (le_of_lt hab))
  have hmk : m < k := by exact_mod_cast hab
  obtain ⟨x1, x2, x3, x4⟩ := toDigitsCore_spec (m + 1) m (Nat.lt_succ_self m)
  obtain ⟨y1, y2, y3, y4⟩ := toDigitsCore_spec (k + 1) k (Nat.lt_succ_self k)
  have hx := decimalValue_lt _ x2
  have hy := decimalValue_lt _ y2
  rw [x1] at hx
  rw [y1] at hy
  have hda : ("zk_" ++ formatInt (m : Int)).data = 'z' :: 'k' :: '_' :: Nat.toDigitsCore 10 (m + 1) m [] := by
    rw [String.data_append]; rfl
  have hdb : ("zk_" ++ formatInt (k : Int)).data = 'z' :: 'k' :: '_' :: Nat.toDigitsCore 10 (k + 1) k [] := by
    rw [String.data_append]; rfl
  unfold shortlexLt
  show ("zk_" ++ formatInt (m : Int)).data.length < ("zk_" ++ formatInt (k : Int)).data.length ∨
    (("zk_" ++ formatInt (m : Int)).data.length = ("zk_" ++ formatInt (k : Int)).data.length ∧
      List.lt ("zk_" ++ formatInt (m : Int)).data ("zk_" ++ formatInt (k : Int)).data)
  rw [hda, hdb]
  simp only [List.length_cons]
  rcases Nat.lt_trichotomy (Nat.toDigitsCore 10 (m + 1) m []).length
      (Nat.toDigitsCore 10 (k + 1) k []).length with hlt | heq | hgt
  · left; omega
  · right
    refine ⟨by omega, ?_⟩
    have hlex := lt_of_decimalValue_lt _ _ heq x2 y2 (by rw [x1, y1]; exact hmk)
    exact List.lt.tail (by decide) (by decide)
      (List.lt.tail (by decide) (by decide) (List.lt.tail (by decide) (by decide) hlex))
  · exfalso
    have hm1 : 1 ≤ m := by
      by_contra hm0
      have hm0 : m = 0 := by omega
      subst hm0
      have : (Nat.toDigitsCore 10 (0 + 1) 0 []).length = 1 := rfl
      omega
    have h5 := x4 hm1
    have hpow : 10 ^ (Nat.toDigitsCore 10 (k + 1) k []).length ≤
        10 ^ ((Nat.toDigitsCore 10 (m + 1) m []).length - 1) :=
      Nat.pow_le_pow_right (by omega) (by omega)
    omega

theorem shortlexLt_ne (s t : String) (h : shortlexLt s t) : s ≠ t := by
  rintro rfl
  rcases h with h | ⟨_, h⟩
  · omega
  · exact List.lt_irrefl (fun c => Char.lt_irrefl c) _ h

/-- C7 (as stated) fails: the ninth and tenth tokens minted are `zk_9` and `zk_10`, and the
later one is the smaller string. -/
theorem minted_tokens_not_lexicographic :
    mintedTokens (NewStore LoadDefaultSchema) tenAdds =
      ["zk_1", "zk_2", "zk_3", "zk_4", "zk_5", "zk_6", "zk_7", "zk_8", "zk_9", "zk_10"] ∧
    stringLt "zk_10" "zk_9" ∧
    ¬ (mintedTokens (NewStore LoadDefaultSchema) tenAdds).Pairwise stringLt := by
  decide

/-- C2 (code): with the rewrite rules installed and the tuples
`(document:report, parent, folder:projects)` and `(folder:projects, viewer, user:eve)` stored,
`Check(user:eve, document:report, view)` answers `allowed = false`: `Check` never reads the
rewrite rules. -/
theorem Check_parent_folder_viewer_denied :
    (LoadDefaultSchema.UpdateDefinitionWithUsersetRewrites).1 = .ok () ∧
    (run (NewStore rewriteSchema) parentFolderOps).relationships =
      [⟨"document:report", "parent", "folder:projects", "zk_1", 1⟩,
       ⟨"folder:projects", "viewer", "user:eve", "zk_2", 2⟩] ∧
    (run (NewStore rewriteSchema) parentFolderOps).Check "user:eve" "document:report" "view" =
      some (.ok (false, "Subject lacks required relation(s) for action: view")) := by
  decide

/-- C11: a failing `AddRelationship` or `RemoveRelationship` leaves the stored tuple list
(indeed the whole store) exactly as it was before the call. -/
theorem mutation_error_leaves_store (s : Store) (r l u : String) (now : Nat) :
    ((∃ e, (s.AddRelationship r l u now).1 = .error e) →
      (s.AddRelationship r l u now).2.relationships = s.relationships ∧
      (s.AddRelationship r l u now).2 = s) ∧
    ((∃ e, (s.RemoveRelationship r l u).1 = .error e) →
      (s.RemoveRelationship r l u).2.relationships = s.relationships ∧
      (s.RemoveRelationship r l u).2 = s) := by
  constructor
  · rintro ⟨e, he⟩
    rcases add_cases s r l u now with ⟨_, h⟩ | ⟨_, _, h⟩ | ⟨_, _, _, h⟩ |
      ⟨_, _, _, t, _, h⟩ | ⟨_, _, _, _, h⟩
    · rw [h]; exact ⟨rfl, rfl⟩
    · rw [h]; exact ⟨rfl, rfl⟩
    · rcases h with h | h | h <;> rw [h] <;> exact ⟨rfl, rfl⟩
    · rw [h] at he; cases he
    · rw [h] at he; cases he
  · rintro ⟨e, he⟩
    rcases remove_cases s r l u with ⟨_, _, h⟩ | ⟨_, h⟩
    · rw [h] at he; cases he
    · rw [h]; exact ⟨rfl, rfl⟩

/-- C18: `EvaluatePermission` fails exactly when the type or the permission is not defined;
otherwise it returns whether some trimmed operand of the expression occurs in the held list,
so two held lists with the same elements (duplicated or permuted) give the same answer. -/
theorem EvaluatePermission_spec (sch : Schema) (rt perm : String) (held : List String) :
    ((∃ e, sch.EvaluatePermission rt perm held = .error e) ↔
      (sch.definitions.lookup rt = none ∨
        ∃ d, sch.definitions.lookup rt = some d ∧ d.permissions.lookup perm = none)) ∧
    (∀ d p, sch.definitions.lookup rt = some d → d.permissions.lookup perm = some p →
      ∃ allowed, sch.EvaluatePermission rt perm held = .ok allowed ∧
        (allowed = true ↔ ∃ rel ∈ operands p.expression, rel ∈ held)) ∧
    (∀ held2 : List String, (∀ x, x ∈ held ↔ x ∈ held2) →
      sch.EvaluatePermission rt perm held2 = sch.EvaluatePermission rt perm held) := by
  refine ⟨?_, ?_, ?_⟩
  · cases hd : sch.definitions.lookup rt with
    | none =>
      simp only [Schema.EvaluatePermission, hd]
      exact ⟨fun _ => Or.inl trivial, fun _ => ⟨_, rfl⟩⟩
    | some d =>
      cases hp : d.permissions.lookup perm with
      | none =>
        simp only [Schema.EvaluatePermission, hd, hp]
        exact ⟨fun _ => Or.inr ⟨d, rfl, hp⟩, fun _ => ⟨_, rfl⟩⟩
      | some p =>
        simp only [Schema.EvaluatePermission, hd, hp]
        constructor
        · rintro ⟨e, he⟩
          cases he
        · rintro (h | ⟨d2, h1, h2⟩)
          · cases h
          · cases h1
            rw [hp] at h2
            cases h2
  · intro d p hd hp
    exact EvaluatePermission_ok sch rt perm held d p hd hp
  · intro held2 hsame
    cases hd : sch.definitions.lookup rt with
    | none => simp [Schema.EvaluatePermission, hd]
    | some d =>
      cases hp : d.permissions.lookup perm with
      | none => simp [Schema.EvaluatePermission, hd, hp]
      | some p =>
        obtain ⟨a1, h1, i1⟩ := EvaluatePermission_ok sch rt perm held d p hd hp
        obtain ⟨a2, h2, i2⟩ := EvaluatePermission_ok sch rt perm held2 d p hd hp
        rw [h1, h2]
        have : a2 = a1 := by
          rw [Bool.eq_iff_iff, i1, i2]
          constructor
          · rintro ⟨rel, hr, hm⟩; exact ⟨rel, hr, (hsame rel).mpr hm⟩
          · rintro ⟨rel, hr, hm⟩; exact ⟨rel, hr, (hsame rel).mp hm⟩
        rw [this]

theorem inGroup_iff_chain (rels : List Relationship) (x g : String) :
    InGroup rels x g ↔
      ∃ chain : List String, chain ≠ [] ∧
        List.Chain (fun a b => memberEdge rels a b) x chain ∧ chain.getLast? = some g := by
  constructor
  · intro h
    induction h with
    | direct e => exact ⟨[_], by simp, List.chain_singleton.mpr e, rfl⟩
    | @nested g1 g2 _ e ih =>
      obtain ⟨l, _, hc, hl⟩ := ih
      obtain ⟨l0, rfl⟩ := List.getLast?_eq_some_iff.mp hl
      refine ⟨l0 ++ [g1, g2], by simp, ?_, by simp⟩
      exact List.chain_split.mpr ⟨hc, List.chain_singleton.mpr e⟩
  · rintro ⟨l, hne, hc, hl⟩
    induction l generalizing x with
    | nil => exact absurd rfl hne
    | cons a l ih =>
      rw [List.chain_cons] at hc
      cases l with
      | nil =>
        simp only [List.getLast?_singleton, Option.some.injEq] at hl
        subst hl
        exact InGroup.direct hc.1
      | cons b l =>
        rw [List.getLast?_cons_cons] at hl
        exact (InGroup.direct hc.1).trans (ih a (by simp) hc.2 hl)

/-- C14: started with an empty `visited` set, `getGroupMemberships` returns, and a group
identifier `g` is in the returned set exactly when there is a chain
`subject = x0, x1, …, xk = g` with `k ≥ 1` in which every tuple `(x(i+1), "member", x(i))`
is stored and every `x(i+1)` carries the prefix `group:`. -/
theorem getGroupMemberships_reachable (rels : List Relationship) (subject : String) :
    ∃ groups visited, getGroupMemberships rels subject [] = some (groups, visited) ∧
      ∀ g, g ∈ groups ↔
        ∃ chain : List String, chain ≠ [] ∧
          List.Chain (fun a b => HasPrefix b "group:" = true ∧
            ∃ t ∈ rels, t.resource = b ∧ t.relation = "member" ∧ t.subject = a) subject chain ∧
          chain.getLast? = some g := by
  obtain ⟨groups, visited, h⟩ := getGroupMemberships_total rels subject []
  refine ⟨groups, visited, h, fun g => ?_⟩
  rw [getGroupMemberships_mem rels subject groups visited h g, inGroup_iff_chain]
  rfl

theorem unexpanded_mono (rels : List Relationship) (v w : List String) (h : v ⊆ w) :
    unexpanded rels w ≤ unexpanded rels v := by
  unfold unexpanded
  apply List.countP_mono_left
  intro x _ hx
  simp only [decide_eq_true_eq] at hx ⊢
  exact fun hm => hx (h hm)

theorem unexpanded_cons_lt (rels : List Relationship) (v : List String) (r : Relationship)
    (hr : r ∈ rels) (hv : r.subject ∉ v) :
    unexpanded rels (r.subject :: v) < unexpanded rels v := by
  unfold unexpanded
  apply countP_lt_countP
  · intro x _ hx
    simp only [decide_eq_true_eq, List.mem_cons, not_or] at hx ⊢
    exact hx.2
  · exact ⟨r, hr, by simpa using hv, by simp⟩

theorem expandLoop_total (rels : List Relationship) (fuel : Nat)
    (recur : String → List String → List String → Option (List String × List String))
    (hrec : ∀ g res v, (g ∈ v ∧ 1 ≤ fuel) ∨ (g ∉ v ∧ unexpanded rels (g :: v) + 2 ≤ fuel) →
      ∃ res1 w, recur g res v = some (res1, w) ∧ v ⊆ w)
    (groupID : String) :
    ∀ (rs : List Relationship), (∀ t ∈ rs, t ∈ rels) → ∀ (result visited : List String),
      unexpanded rels visited + 1 ≤ fuel →
      ∃ res1 w, expandLoop recur groupID rs result visited = some (res1, w) ∧ visited ⊆ w := by
  intro rs
  induction rs with
  | nil => intro _ result visited _; exact ⟨result, visited, rfl, fun _ h => h⟩
  | cons r rest ih =>
    intro hsub result visited hfuel
    have hsub2 : ∀ t ∈ rest, t ∈ rels := fun t ht => hsub t (List.mem_cons_of_mem r ht)
    simp only [expandLoop]
    by_cases hm : r.resource = groupID ∧ r.relation = "member"
    · rw [if_pos hm]
      by_cases hp : HasPrefix r.subject "group:" = true
      · rw [if_pos hp]
        have hcall : ∃ res1 w, recur r.subject (result.insert r.subject) visited = some (res1, w) ∧
            visited ⊆ w := by
          apply hrec
          by_cases hv : r.subject ∈ visited
          · exact Or.inl ⟨hv, by omega⟩
          · have := unexpanded_cons_lt rels visited r (hsub r (List.mem_cons_self r rest)) hv
            exact Or.inr ⟨hv, by omega⟩
        obtain ⟨res1, v1, hc, hv1⟩ := hcall
        rw [hc]
        dsimp only
        have hle := unexpanded_mono rels _ _ hv1
        obtain ⟨res2, w, hres, hw⟩ := ih hsub2 res1 v1 (by omega)
        exact ⟨res2, w, hres, fun x hx => hw (hv1 hx)⟩
      · rw [if_neg hp]
        exact ih hsub2 _ visited hfuel
    · rw [if_neg hm]
      exact ih hsub2 result visited hfuel

theorem expandGroupMembersFuel_total (rels : List Relationship) :
    ∀ (fuel : Nat) (groupID : String) (result visited : List String),
      (groupID ∈ visited ∧ 1 ≤ fuel) ∨
        (groupID ∉ visited ∧ unexpanded rels (groupID :: visited) + 2 ≤ fuel) →
      ∃ res1 w, expandGroupMembersFuel rels fuel groupID result visited = some (res1, w) ∧
        visited ⊆ w := by
  intro fuel
  induction fuel with
  | zero => intro _ _ _ h; omega
  | succ fuel ih =>
    intro groupID result visited h
    simp only [expandGroupMembersFuel]
    by_cases hv : groupID ∈ visited
    · rw [if_pos hv]
      exact ⟨result, visited, rfl, fun _ hx => hx⟩
    · rw [if_neg hv]
      have hfuel : unexpanded rels (groupID :: visited) + 1 ≤ fuel := by
        rcases h with ⟨h1, _⟩ | ⟨_, h2⟩
        · exact absurd h1 hv
        · omega
      obtain ⟨res1, w, hres, hw⟩ :=
        expandLoop_total rels fuel _ ih groupID rels (fun _ ht => ht) result _ hfuel
      exact ⟨res1, w, hres, fun x hx => hw (List.mem_cons_of_mem _ hx)⟩

/-- The expansion of a group always returns: the depth bound `len(rels) + 2` is never
exhausted. -/
theorem expandGroupMembers_total (rels : List Relationship) (groupID : String)
    (result visited : List String) :
    ∃ res1 w, expandGroupMembers rels groupID result visited = some (res1, w) := by
  have h1 : unexpanded rels (groupID :: visited) ≤ rels.length := List.countP_le_length _
  obtain ⟨res1, w, h, _⟩ :=
    expandGroupMembersFuel_total rels (rels.length + 2) groupID result visited (by
      by_cases hv : groupID ∈ visited
      · exact Or.inl ⟨hv, by omega⟩
      · exact Or.inr ⟨hv, by omega⟩)
  exact ⟨res1, w, h⟩

theorem expandDirect_total (rels : List Relationship) (resource relation : String) :
    ∀ (rs : List Relationship) (direct expanded : List String),
      ∃ d e, expandDirect rels resource relation rs direct expanded = some (d, e) := by
  intro rs
  induction rs with
  | nil => intro direct expanded; exact ⟨direct, expanded, rfl⟩
  | cons r rest ih =>
    intro direct expanded
    simp only [expandDirect]
    by_cases hm : r.resource = resource ∧ r.relation = relation
    · rw [if_pos hm]
      by_cases hp : HasPrefix r.subject "group:" = true
      · rw [if_pos hp]
        obtain ⟨e1, w, hc⟩ := expandGroupMembers_total rels r.subject expanded []
        rw [hc]
        exact ih _ _
      · rw [if_neg hp]
        exact ih _ _
    · rw [if_neg hm]
      exact ih _ _

theorem Expand_total (s : Store) (resource relation : String) :
    ∃ out, s.Expand resource relation = some out := by
  obtain ⟨d, e, h⟩ := expandDirect_total s.relationships resource relation s.relationships [] []
  exact ⟨d ++ e, by simp only [Store.Expand, h]⟩

theorem Check_total (s : Store) (subject resource action : String) :
    ∃ out, s.Check subject resource action = some out := by
  obtain ⟨held, hheld, _⟩ := getRelations_spec s.relationships subject resource
  unfold Store.Check
  simp only [hheld]
  split
  · exact ⟨_, rfl⟩
  · split
    · exact ⟨_, rfl⟩
    · split <;> exact ⟨_, rfl⟩

/-- C13: `Check` and `Expand` return on every tuple list, cyclic group memberships included:
`getGroupMemberships` and `expandGroupMembers` return for every argument (their recursion
depth is bounded by the number of tuples whose group is not yet visited). -/
theorem Check_and_Expand_terminate (s : Store) (subject resource action relation groupID : String)
    (result visited : List String) :
    (∃ out, s.Check subject resource action = some out) ∧
    (∃ out, s.Expand resource relation = some out) ∧
    (∃ groups w, getGroupMemberships s.relationships subject visited = some (groups, w)) ∧
    (∃ res1 w, expandGroupMembers s.relationships groupID result visited = some (res1, w)) :=
  ⟨Check_total s subject resource action, Expand_total s resource relation,
    getGroupMemberships_total s.relationships subject visited,
    expandGroupMembers_total s.relationships groupID result visited⟩

/-- C13 on a cycle: with `group:a` and `group:b` members of each other, `Check`, `Expand`
and both traversals return the values shown. -/
theorem Check_and_Expand_terminate_witness :
    cyclicStore.Check "group:b" "document:report" "view" =
      some (.ok (true, "Subject has required relation(s): [viewer]")) ∧
    cyclicStore.Expand "document:report" "viewer" =
      some ["group:a", "user:u", "group:a", "group:b"] ∧
    getGroupMemberships cyclicStore.relationships "group:a" [] =
      some (["group:a", "group:b"], ["group:a", "group:b"]) ∧
    expandGroupMembers cyclicStore.relationships "group:a" [] [] =
      some (["user:u", "group:a", "group:b"], ["group:b", "group:a"]) ∧
    ((∃ out, cyclicStore.Check "group:b" "document:report" "view" = some out) ∧
     (∃ out, cyclicStore.Expand "document:report" "viewer" = some out) ∧
     (∃ groups w, getGroupMemberships cyclicStore.relationships "group:b" [] = some (groups, w)) ∧
     (∃ res1 w, expandGroupMembers cyclicStore.relationships "group:a" [] [] = some (res1, w))) :=
  ⟨by decide, by decide, by decide, by decide,
    Check_and_Expand_terminate cyclicStore "group:b" "document:report" "view" "viewer" "group:a"
      [] []⟩

theorem Expanded.mono {rels : List Relationship} {v : String} {r1 v1 r2 v2 : List String}
    (h : Expanded rels v r1 v1) (hr : r1 ⊆ r2) (hv : v1 ⊆ v2) : Expanded rels v r2 v2 :=
  fun t ht h1 h2 => ⟨hr (h t ht h1 h2).1, fun hp => hv ((h t ht h1 h2).2 hp)⟩

theorem expandLoop_spec (rels : List Relationship)
    (recur : String → List String → List String → Option (List String × List String))
    (hrec : ∀ g res v res1 w, recur g res v = some (res1, w) → ExpansionSpec rels g res v res1 w)
    (groupID : String) :
    ∀ (rs : List Relationship), (∀ t ∈ rs, t ∈ rels) →
      ∀ (result visited res1 w : List String),
      expandLoop recur groupID rs result visited = some (res1, w) →
      visited ⊆ w ∧ result ⊆ res1 ∧
      (HasPrefix groupID "group:" = true → ∀ x ∈ res1, x ∈ result ∨ InGroup rels x groupID) ∧
      (∀ v ∈ w, v ∈ visited ∨ Expanded rels v res1 w) ∧
      (∀ t ∈ rs, t.resource = groupID → t.relation = "member" →
        t.subject ∈ res1 ∧ (HasPrefix t.subject "group:" = true → t.subject ∈ w)) := by
  intro rs
  induction rs with
  | nil =>
    intro _ result visited res1 w h
    simp only [expandLoop, Option.some.injEq, Prod.mk.injEq] at h
    obtain ⟨rfl, rfl⟩ := h
    exact ⟨fun _ h => h, fun _ h => h, fun _ x hx => Or.inl hx, fun x hx => Or.inl hx, by simp⟩
  | cons r rest ih =>
    intro hsub result visited res1 w h
    have hsub2 : ∀ t ∈ rest, t ∈ rels := fun t ht => hsub t (List.mem_cons_of_mem r ht)
    have hr : r ∈ rels := hsub r (List.mem_cons_self r rest)
    simp only [expandLoop] at h
    by_cases hm : r.resource = groupID ∧ r.relation = "member"
    · rw [if_pos hm] at h
      have hedge : HasPrefix groupID "group:" = true → InGroup rels r.subject groupID :=
        fun hg => InGroup.direct ⟨hg, r, hr, hm.1, hm.2, rfl⟩
      by_cases hp : HasPrefix r.subject "group:" = true
      · rw [if_pos hp] at h
        cases hcall : recur r.subject (result.insert r.subject) visited with
        | none => rw [hcall] at h; cases h
        | some p =>
          obtain ⟨r1, v1⟩ := p
          rw [hcall] at h
          dsimp only at h
          obtain ⟨c1, c2, c3, c4, c5⟩ := hrec _ _ _ _ _ hcall
          obtain ⟨h1, h2, h3, h4, h5⟩ := ih hsub2 r1 v1 res1 w h
          have hin : r.subject ∈ r1 := c3 (List.mem_insert_self _ _)
          refine ⟨fun x hx => h1 (c1 hx), ?_, ?_, ?_, ?_⟩
          · exact fun x hx => h2 (c3 (List.mem_insert_of_mem hx))
          · intro hg x hx
            rcases h3 hg x hx with hx | hx
            · rcases c4 hp x hx with hx | hx
              · rcases List.mem_insert_iff.mp hx with rfl | hx
                · exact Or.inr (hedge hg)
                · exact Or.inl hx
              · exact Or.inr (hx.trans (hedge hg))
            · exact Or.inr hx
          · intro v hv
            rcases h4 v hv with hv | hv
            · rcases c5 v hv with hv | hv
              · exact Or.inl hv
              · exact Or.inr (hv.mono h2 h1)
            · exact Or.inr hv
          · intro t ht ht1 ht2
            rcases List.mem_cons.mp ht with rfl | ht
            · exact ⟨h2 hin, fun _ => h1 c2⟩
            · exact h5 t ht ht1 ht2
      · rw [if_neg hp] at h
        obtain ⟨h1, h2, h3, h4, h5⟩ := ih hsub2 _ visited res1 w h
        refine ⟨h1, fun x hx => h2 (List.mem_insert_of_mem hx), ?_, h4, ?_⟩
        · intro hg x hx
          rcases h3 hg x hx with hx | hx
          · rcases List.mem_insert_iff.mp hx with rfl | hx
            · exact Or.inr (hedge hg)
            · exact Or.inl hx
          · exact Or.inr hx
        · intro t ht ht1 ht2
          rcases List.mem_cons.mp ht with rfl | ht
          · exact ⟨h2 (List.mem_insert_self _ _), fun hc => absurd hc hp⟩
          · exact h5 t ht ht1 ht2
    · rw [if_neg hm] at h
      obtain ⟨h1, h2, h3, h4, h5⟩ := ih hsub2 result visited res1 w h
      refine ⟨h1, h2, h3, h4, ?_⟩
      intro t ht ht1 ht2
      rcases List.mem_cons.mp ht with rfl | ht
      · exact absurd ⟨ht1, ht2⟩ hm
      · exact h5 t ht ht1 ht2

theorem expandGroupMembersFuel_spec (rels : List Relationship) :
    ∀ (fuel : Nat) (g : String) (result visited res1 w : List String),
      expandGroupMembersFuel rels fuel g result visited = some (res1, w) →
      ExpansionSpec rels g result visited res1 w := by
  intro fuel
  induction fuel with
  | zero => intro _ _ _ _ _ h; simp [expandGroupMembersFuel] at h
  | succ fuel ih =>
    intro g result visited res1 w h
    simp only [expandGroupMembersFuel] at h
    by_cases hv : g ∈ visited
    · rw [if_pos hv] at h
      simp only [Option.some.injEq, Prod.mk.injEq] at h
      obtain ⟨rfl, rfl⟩ := h
      exact ⟨fun _ h => h, hv, fun _ h => h, fun _ x hx => Or.inl hx, fun x hx => Or.inl hx⟩
    · rw [if_neg hv] at h
      obtain ⟨h1, h2, h3, h4, h5⟩ :=
        expandLoop_spec rels _ ih g rels (fun _ ht => ht) result (g :: visited) res1 w h
      refine ⟨fun x hx => h1 (List.mem_cons_of_mem _ hx), h1 (List.mem_cons_self _ _), h2, h3, ?_⟩
      intro v hv2
      rcases h4 v hv2 with hv2 | hv2
      · rcases List.mem_cons.mp hv2 with rfl | hv2
        · exact Or.inr h5
        · exact Or.inl hv2
      · exact Or.inr hv2

theorem InGroup.hasPrefix {rels : List Relationship} {x g : String} (h : InGroup rels x g) :
    HasPrefix g "group:" = true := by
  cases h with
  | direct e => exact e.1
  | nested _ e => exact e.1

theorem mem_of_inGroup_of_expanded (rels : List Relationship) (res w : List String)
    (hclosed : ∀ v ∈ w, Expanded rels v res w) (x g : String) (h : InGroup rels x g) :
    g ∈ w → x ∈ res := by
  induction h with
  | direct e =>
    intro hg
    obtain ⟨_, t, ht, h1, h2, h3⟩ := e
    rw [← h3]
    exact (hclosed _ hg t ht h1 h2).1
  | nested hx e ih =>
    intro hg
    obtain ⟨_, t, ht, h1, h2, h3⟩ := e
    apply ih
    rw [← h3]
    exact (hclosed _ hg t ht h1 h2).2 (by rw [h3]; exact hx.hasPrefix)

theorem expandGroupMembers_mem (rels : List Relationship) (g : String) (result res1 w : List String)
    (hg : HasPrefix g "group:" = true)
    (h : expandGroupMembers rels g result [] = some (res1, w)) (x : String) :
    x ∈ res1 ↔ x ∈ result ∨ InGroup rels x g := by
  obtain ⟨_, h2, h3, h4, h5⟩ := expandGroupMembersFuel_spec rels _ g result [] res1 w h
  have hclosed : ∀ v ∈ w, Expanded rels v res1 w := fun v hv => by
    rcases h5 v hv with hv | hv
    · simp at hv
    · exact hv
  constructor
  · exact h4 hg x
  · rintro (hx | hx)
    · exact h3 hx
    · exact mem_of_inGroup_of_expanded rels res1 w hclosed x g hx h2

theorem expandDirect_spec (rels : List Relationship) (resource relation : String) :
    ∀ (rs : List Relationship) (direct expanded d e : List String),
      expandDirect rels resource relation rs direct expanded = some (d, e) →
      (∀ x, x ∈ d ↔ x ∈ direct ∨
        ∃ t ∈ rs, t.resource = resource ∧ t.relation = relation ∧ t.subject = x) ∧
      (∀ x, x ∈ e ↔ x ∈ expanded ∨
        ∃ t ∈ rs, t.resource = resource ∧ t.relation = relation ∧
          HasPrefix t.subject "group:" = true ∧ InGroup rels x t.subject) := by
  intro rs
  induction rs with
  | nil =>
    intro direct expanded d e h
    simp only [expandDirect, Option.some.injEq, Prod.mk.injEq] at h
    obtain ⟨rfl, rfl⟩ := h
    simp
  | cons r rest ih =>
    intro direct expanded d e h
    simp only [expandDirect] at h
    by_cases hm : r.resource = resource ∧ r.relation = relation
    · rw [if_pos hm] at h
      by_cases hp : HasPrefix r.subject "group:" = true
      · rw [if_pos hp] at h
        cases hcall : expandGroupMembers rels r.subject expanded [] with
        | none => rw [hcall] at h; cases h
        | some p =>
          obtain ⟨e1, w⟩ := p
          rw [hcall] at h
          dsimp only at h
          obtain ⟨h1, h2⟩ := ih _ _ d e h
          have hmem := expandGroupMembers_mem rels r.subject expanded e1 w hp hcall
          constructor
          · intro x
            rw [h1 x, List.mem_insert_iff]
            constructor
            · rintro ((rfl | hx) | ⟨t, ht, hh⟩)
              · exact Or.inr ⟨r, List.mem_cons_self _ _, hm.1, hm.2, rfl⟩
              · exact Or.inl hx
              · exact Or.inr ⟨t, List.mem_cons_of_mem _ ht, hh⟩
            · rintro (hx | ⟨t, ht, hh⟩)
              · exact Or.inl (Or.inr hx)
              · rcases List.mem_cons.mp ht with rfl | ht
                · exact Or.inl (Or.inl hh.2.2.symm)
                · exact Or.inr ⟨t, ht, hh⟩
          · intro x
            rw [h2 x, hmem x]
            constructor
            · rintro ((hx | hx) | ⟨t, ht, hh⟩)
              · exact Or.inl hx
              · exact Or.inr ⟨r, List.mem_cons_self _ _, hm.1, hm.2, hp, hx⟩
              · exact Or.inr ⟨t, List.mem_cons_of_mem _ ht, hh⟩
            · rintro (hx | ⟨t, ht, hh⟩)
              · exact Or.inl (Or.inl hx)
              · rcases List.mem_cons.mp ht with rfl | ht
                · exact Or.inl (Or.inr hh.2.2.2)
                · exact Or.inr ⟨t, ht, hh⟩
      · rw [if_neg hp] at h
        obtain ⟨h1, h2⟩ := ih _ _ d e h
        constructor
        · intro x
          rw [h1 x, List.mem_insert_iff]
          constructor
          · rintro ((rfl | hx) | ⟨t, ht, hh⟩)
            · exact Or.inr ⟨r, List.mem_cons_self _ _, hm.1, hm.2, rfl⟩
            · exact Or.inl hx
            · exact Or.inr ⟨t, List.mem_cons_of_mem _ ht, hh⟩
          · rintro (hx | ⟨t, ht, hh⟩)
            · exact Or.inl (Or.inr hx)
            · rcases List.mem_cons.mp ht with rfl | ht
              · exact Or.inl (Or.inl hh.2.2.symm)
              · exact Or.inr ⟨t, ht, hh⟩
        · intro x
          rw [h2 x]
          constructor
          · rintro (hx | ⟨t, ht, hh⟩)
            · exact Or.inl hx
            · exact Or.inr ⟨t, List.mem_cons_of_mem _ ht, hh⟩
          · rintro (hx | ⟨t, ht, hh⟩)
            · exact Or.inl hx
            · rcases List.mem_cons.mp ht with rfl | ht
              · exact absurd hh.2.2.1 hp
              · exact Or.inr ⟨t, ht, hh⟩
    · rw [if_neg hm] at h
      obtain ⟨h1, h2⟩ := ih _ _ d e h
      constructor
      · intro x
        rw [h1 x]
        constructor
        · rintro (hx | ⟨t, ht, hh⟩)
          · exact Or.inl hx
          · exact Or.inr ⟨t, List.mem_cons_of_mem _ ht, hh⟩
        · rintro (hx | ⟨t, ht, hh⟩)
          · exact Or.inl hx
          · rcases List.mem_cons.mp ht with rfl | ht
            · exact absurd ⟨hh.1, hh.2.1⟩ hm
            · exact Or.inr ⟨t, ht, hh⟩
      · intro x
        rw [h2 x]
        constructor
        · rintro (hx | ⟨t, ht, hh⟩)
          · exact Or.inl hx
          · exact Or.inr ⟨t, List.mem_cons_of_mem _ ht, hh⟩
        · rintro (hx | ⟨t, ht, hh⟩)
          · exact Or.inl hx
          · rcases List.mem_cons.mp ht with rfl | ht
            · exact absurd ⟨hh.1, hh.2.1⟩ hm
            · exact Or.inr ⟨t, ht, hh⟩

/-- The result of `Expand`: the direct subjects, followed by the transitive members of the
direct subjects that are groups. -/
theorem Expand_spec (s : Store) (resource relation : String) :
    ∃ d e, s.Expand resource relation = some (d ++ e) ∧
      (∀ x, x ∈ d ↔
        ∃ t ∈ s.relationships, t.resource = resource ∧ t.relation = relation ∧ t.subject = x) ∧
      (∀ x, x ∈ e ↔
        ∃ t ∈ s.relationships, t.resource = resource ∧ t.relation = relation ∧
          HasPrefix t.subject "group:" = true ∧ InGroup s.relationships x t.subject) := by
  obtain ⟨d, e, h⟩ := expandDirect_total s.relationships resource relation s.relationships [] []
  obtain ⟨h1, h2⟩ := expandDirect_spec s.relationships resource relation _ _ _ d e h
  refine ⟨d, e, by simp only [Store.Expand, h], ?_, ?_⟩
  · intro x
    rw [h1 x]
    simp
  · intro x
    rw [h2 x]
    simp

theorem inGroup_iff_chain_down (rels : List Relationship) (x g : String) :
    InGroup rels x g ↔
      ∃ chain : List String, chain ≠ [] ∧
        List.Chain (fun a b => memberEdge rels b a) g chain ∧ chain.getLast? = some x := by
  constructor
  · intro h
    induction h with
    | @direct g1 e => exact ⟨[x], by simp, List.chain_singleton.mpr e, rfl⟩
    | @nested g1 g2 _ e ih =>
      obtain ⟨l, hne, hc, hl⟩ := ih
      refine ⟨g1 :: l, by simp, List.chain_cons.mpr ⟨e, hc⟩, ?_⟩
      cases l with
      | nil => exact absurd rfl hne
      | cons b l => rw [List.getLast?_cons_cons]; exact hl
  · rintro ⟨l, hne, hc, hl⟩
    induction l generalizing g with
    | nil => exact absurd rfl hne
    | cons a l ih =>
      rw [List.chain_cons] at hc
      cases l with
      | nil =>
        simp only [List.getLast?_singleton, Option.some.injEq] at hl
        subst hl
        exact InGroup.direct hc.1
      | cons b l =>
        rw [List.getLast?_cons_cons] at hl
        exact InGroup.nested (ih a (by simp) hc.2 hl) hc.1

/-- C15: `Expand` returns, and `x` occurs in its result exactly when a tuple
`(resource, relation, x)` is stored, or a tuple `(resource, relation, g)` is stored for a
`g` with the prefix `group:` of which `x` is a transitive member: there is a chain
`g = g0, …, gk = x`, `k ≥ 1`, in which every tuple `(g(i), "member", g(i+1))` is stored and
every `g(i)` with `i < k` carries the prefix `group:`. -/
theorem Expand_mem_iff (s : Store) (resource relation : String) :
    ∃ out, s.Expand resource relation = some out ∧
      ∀ x, x ∈ out ↔
        (∃ t ∈ s.relationships, t.resource = resource ∧ t.relation = relation ∧ t.subject = x) ∨
        (∃ g, (∃ t ∈ s.relationships,
                t.resource = resource ∧ t.relation = relation ∧ t.subject = g) ∧
          HasPrefix g "group:" = true ∧
          ∃ chain : List String, chain ≠ [] ∧
            List.Chain (fun a b => HasPrefix a "group:" = true ∧
              ∃ t ∈ s.relationships, t.resource = a ∧ t.relation = "member" ∧ t.subject = b)
              g chain ∧
            chain.getLast? = some x) := by
  obtain ⟨d, e, hout, hd, he⟩ := Expand_spec s resource relation
  refine ⟨d ++ e, hout, fun x => ?_⟩
  rw [List.mem_append, hd x, he x]
  constructor
  · rintro (h | ⟨t, ht, h1, h2, h3, h4⟩)
    · exact Or.inl h
    · exact Or.inr ⟨t.subject, ⟨t, ht, h1, h2, rfl⟩, h3,
        (inGroup_iff_chain_down s.relationships x t.subject).mp h4⟩
  · rintro (h | ⟨g, ⟨t, ht, h1, h2, rfl⟩, h3, h4⟩)
    · exact Or.inl h
    · exact Or.inr ⟨t, ht, h1, h2, h3,
        (inGroup_iff_chain_down s.relationships x t.subject).mpr h4⟩

/-- C16 (code): with `group:eng` and its member `user:x` both viewers of `document:report`,
`Expand(document:report, viewer)` lists `user:x` twice, once as a direct subject and once as
a member of the group. -/
theorem Expand_lists_subject_twice :
    (run (NewStore LoadDefaultSchema) overlapOps).relationships =
      [⟨"document:report", "viewer", "group:eng", "zk_1", 1⟩,
       ⟨"document:report", "viewer", "user:x", "zk_2", 2⟩,
       ⟨"group:eng", "member", "user:x", "zk_3", 3⟩] ∧
    ∃ out, (run (NewStore LoadDefaultSchema) overlapOps).Expand "document:report" "viewer" =
        some out ∧
      out.count "user:x" = 2 ∧ ¬ out.Nodup :=
  ⟨by decide, ["user:x", "group:eng", "user:x"], by decide, by decide, by decide⟩

/-- C17 (as stated) fails: on the sample data `Expand(document:report, viewer)` contains the
group identifiers `group:engineering` and `group:frontend`. -/
theorem Expand_returns_group_identifiers :
    ∃ out, (Store.InitializeWithSampleData (NewStore LoadDefaultSchema) 0).Expand
        "document:report" "viewer" = some out ∧
      "group:engineering" ∈ out ∧ "group:frontend" ∈ out ∧
      HasPrefix "group:engineering" "group:" = true ∧
      HasPrefix "group:frontend" "group:" = true :=
  ⟨["group:engineering", "user:dave", "group:frontend", "user:charlie"],
    by decide, by decide, by decide, by decide, by decide⟩

/-- C17 (amended): every element of `Expand(resource, relation)` is the subject of a stored
tuple, either of a tuple `(resource, relation, x)` or of a `member` tuple of a group, and
every direct subject — a group identifier included — is an element of the result. -/
theorem Expand_elements_are_subjects (s : Store) (resource relation : String) :
    ∃ out, s.Expand resource relation = some out ∧
      (∀ x ∈ out,
        (∃ t ∈ s.relationships, t.resource = resource ∧ t.relation = relation ∧ t.subject = x) ∨
        (∃ t ∈ s.relationships, HasPrefix t.resource "group:" = true ∧ t.relation = "member" ∧
          t.subject = x)) ∧
      (∀ t ∈ s.relationships, t.resource = resource → t.relation = relation →
        t.subject ∈ out) := by
  obtain ⟨d, e, hout, hd, he⟩ := Expand_spec s resource relation
  refine ⟨d ++ e, hout, ?_, ?_⟩
  · intro x hx
    rcases List.mem_append.mp hx with hx | hx
    · exact Or.inl ((hd x).mp hx)
    · obtain ⟨t, _, _, _, _, h4⟩ := (he x).mp hx
      right
      have key : ∀ g, InGroup s.relationships x g →
          ∃ t ∈ s.relationships, HasPrefix t.resource "group:" = true ∧ t.relation = "member" ∧
            t.subject = x := by
        intro g hg
        induction hg with
        | direct e1 =>
          obtain ⟨hp, t1, ht1, h1, h2, h3⟩ := e1
          exact ⟨t1, ht1, by rw [h1]; exact hp, h2, h3⟩
        | nested _ _ ih => exact ih
      exact key _ h4
  · intro t ht h1 h2
    exact List.mem_append.mpr (Or.inl ((hd t.subject).mpr ⟨t, ht, h1, h2, rfl⟩))

theorem decodeItems_obj (recur : Json → Option (Except Error UsersetRewrite))
    (m : List (String × Json)) (rest : List Json) :
    decodeItems recur (.obj m :: rest) =
      match recur (.obj m) with
      | none => none
      | some (.error e) => some (.error e)
      | some (.ok c) =>
        match decodeItems recur rest with
        | none => none
        | some (.error e) => some (.error e)
        | some (.ok cs) => some (.ok (c :: cs)) := by
  rw [decodeItems]
  all_goals first | rfl | (intro h; cases h)

theorem marshalChildren_roundTrips :
    ∀ (cs : List UsersetRewrite), (∀ c ∈ cs, RoundTrips c) →
      ∃ js, marshalChildren cs = .ok js ∧ js.length = cs.length ∧
        ∀ fuel, Json.depthList js ≤ fuel →
          decodeItems (UnmarshalJSONFuel fuel) js = some (.ok cs)
  | [], _ => ⟨[], rfl, rfl, fun _ _ => rfl⟩
  | c :: cs, h => by
    obtain ⟨j, hj, ⟨m, rfl⟩, hdec⟩ := h c (List.mem_cons_self c cs)
    obtain ⟨js, hjs, hlen, hdecs⟩ :=
      marshalChildren_roundTrips cs (fun x hx => h x (List.mem_cons_of_mem c hx))
    refine ⟨.obj m :: js, ?_, by simp [hlen], ?_⟩
    · rw [marshalChildren, hj, hjs]
    · intro fuel hfuel
      simp only [Json.depthList] at hfuel
      rw [decodeItems_obj, hdec fuel (le_trans (le_max_left _ _) hfuel),
        hdecs fuel (le_trans (le_max_right _ _) hfuel)]

theorem valid_roundTrips (t : UsersetRewrite) (h : Valid t) : RoundTrips t := by
  induction h with
  | this =>
    refine ⟨.obj [("_this", .obj [])], rfl, ⟨_, rfl⟩, ?_⟩
    intro fuel hfuel
    obtain ⟨f, rfl⟩ : ∃ f, fuel = f + 1 := ⟨fuel - 1, by
      have : (Json.obj [("_this", .obj [])]).depth = 2 := rfl
      omega⟩
    rfl
  | computedUserset relation =>
    refine ⟨.obj [("computed_userset", .obj [("relation", .str relation)])], rfl, ⟨_, rfl⟩, ?_⟩
    intro fuel hfuel
    obtain ⟨f, rfl⟩ : ∃ f, fuel = f + 1 := ⟨fuel - 1, by
      have : (Json.obj [("computed_userset", .obj [("relation", .str relation)])]).depth = 3 := rfl
      omega⟩
    rfl
  | tupleToUserset tupleRelation computedRelation =>
    refine ⟨.obj [("tuple_to_userset",
      .obj [("tupleset", .obj [("relation", .str tupleRelation)]),
            ("computed_userset", .obj [("relation", .str computedRelation)])])],
      rfl, ⟨_, rfl⟩, ?_⟩
    intro fuel hfuel
    obtain ⟨f, rfl⟩ : ∃ f, fuel = f + 1 := ⟨fuel - 1, by
      have : (Json.obj [("tuple_to_userset",
        .obj [("tupleset", .obj [("relation", .str tupleRelation)]),
              ("computed_userset", .obj [("relation", .str computedRelation)])])]).depth = 4 := rfl
      omega⟩
    rfl
  | union children _ _ ih =>
    obtain ⟨js, hjs, _, hdec⟩ := marshalChildren_roundTrips children ih
    refine ⟨.obj [("union", .obj [("child", .arr js)])], ?_, ⟨_, rfl⟩, ?_⟩
    · rw [NewUnionRewrite, MarshalJSON]
      simp only [hjs]
      rfl
    · intro fuel hfuel
      have hd : (Json.obj [("union", .obj [("child", .arr js)])]).depth =
          max (max (Json.depthList js + 1) 0 + 1) 0 + 1 := rfl
      obtain ⟨f, rfl⟩ : ∃ f, fuel = f + 1 := ⟨fuel - 1, by omega⟩
      have hf : Json.depthList js ≤ f := by
        rw [hd] at hfuel
        simp only [Nat.max_zero] at hfuel
        omega
      show decodeVariadic (UnmarshalJSONFuel f) "union" (.obj [("child", .arr js)]) = _
      show (match decodeItems (UnmarshalJSONFuel f) js with
        | none => none
        | some (Except.error e) => some (Except.error e)
        | some (Except.ok children) => some (Except.ok (UsersetRewrite.mk "union" none none children))) = _
      rw [hdec f hf]
      rfl
  | intersection children _ _ ih =>
    obtain ⟨js, hjs, _, hdec⟩ := marshalChildren_roundTrips children ih
    refine ⟨.obj [("intersection", .obj [("child", .arr js)])], ?_, ⟨_, rfl⟩, ?_⟩
    · rw [NewIntersectionRewrite, MarshalJSON]
      simp only [hjs]
      rfl
    · intro fuel hfuel
      have hd : (Json.obj [("intersection", .obj [("child", .arr js)])]).depth =
          max (max (Json.depthList js + 1) 0 + 1) 0 + 1 := rfl
      obtain ⟨f, rfl⟩ : ∃ f, fuel = f + 1 := ⟨fuel - 1, by omega⟩
      have hf : Json.depthList js ≤ f := by
        rw [hd] at hfuel
        simp only [Nat.max_zero] at hfuel
        omega
      show decodeVariadic (UnmarshalJSONFuel f) "intersection" (.obj [("child", .arr js)]) = _
      show (match decodeItems (UnmarshalJSONFuel f) js with
        | none => none
        | some (Except.error e) => some (Except.error e)
        | some (Except.ok children) => some (Except.ok (UsersetRewrite.mk "intersection" none none children))) = _
      rw [hdec f hf]
      rfl
  | exclusion base subtract _ _ ihb ihs =>
    obtain ⟨jb, hjb, ⟨mb, rfl⟩, hdb⟩ := ihb
    obtain ⟨js, hjs, ⟨ms, rfl⟩, hds⟩ := ihs
    refine ⟨.obj [("exclusion", .obj [("base", .obj mb), ("subtract", .obj ms)])], ?_,
      ⟨_, rfl⟩, ?_⟩
    · rw [NewExclusionRewrite, MarshalJSON]
      simp only [marshalChildren, hjb, hjs]
      rfl
    · intro fuel hfuel
      have hd : (Json.obj [("exclusion", .obj [("base", .obj mb), ("subtract", .obj ms)])]).depth =
          max (max (Json.obj mb).depth (max (Json.obj ms).depth 0) + 1) 0 + 1 := rfl
      obtain ⟨f, rfl⟩ : ∃ f, fuel = f + 1 := ⟨fuel - 1, by omega⟩
      have hfb : (Json.obj mb).depth ≤ f := by
        rw [hd] at hfuel
        simp only [Nat.max_zero] at hfuel
        omega
      have hfs : (Json.obj ms).depth ≤ f := by
        rw [hd] at hfuel
        simp only [Nat.max_zero] at hfuel
        omega
      show decodeExclusion (UnmarshalJSONFuel f)
        (.obj [("base", .obj mb), ("subtract", .obj ms)]) = _
      show (match UnmarshalJSONFuel f (.obj mb) with
        | none => none
        | some (Except.error e) => some (Except.error e)
        | some (Except.ok b) =>
          match UnmarshalJSONFuel f (.obj ms) with
          | none => none
          | some (Except.error e) => some (Except.error e)
          | some (Except.ok s) => some (Except.ok (UsersetRewrite.mk "exclusion" none none [b, s]))) = _
      rw [hdb f hfb, hds f hfs]
      rfl

theorem depth_le_of_mem_members (k : String) (v : Json) :
    ∀ (m : List (String × Json)), (k, v) ∈ m → v.depth ≤ Json.depthMembers m
  | [], h => by simp at h
  | (k1, v1) :: m, h => by
    simp only [Json.depthMembers]
    rcases List.mem_cons.mp h with h | h
    · cases h
      exact le_max_left _ _
    · exact le_trans (depth_le_of_mem_members k v m h) (le_max_right _ _)

theorem depth_le_of_mem_items (x : Json) :
    ∀ (items : List Json), x ∈ items → x.depth ≤ Json.depthList items
  | [], h => by simp at h
  | y :: items, h => by
    simp only [Json.depthList]
    rcases List.mem_cons.mp h with h | h
    · cases h
      exact le_max_left _ _
    · exact le_trans (depth_le_of_mem_items x items h) (le_max_right _ _)

theorem mem_of_lookup {β : Type} (k : String) (v : β) :
    ∀ (l : List (String × β)), l.lookup k = some v → ∃ k1, (k1, v) ∈ l
  | [], h => by simp at h
  | (k1, v1) :: l, h => by
    simp only [List.lookup] at h
    split at h
    · cases h
      exact ⟨k1, List.mem_cons_self _ _⟩
    · obtain ⟨k2, hk⟩ := mem_of_lookup k v l h
      exact ⟨k2, List.mem_cons_of_mem _ hk⟩

theorem depth_rawGet (raw : List (String × Json)) (k : String) (v : Json)
    (h : rawGet raw k = some v) : v.depth ≤ Json.depthMembers raw := by
  obtain ⟨k1, hk⟩ := mem_of_lookup k v _ h
  exact depth_le_of_mem_members k1 v raw (List.mem_reverse.mp hk)

theorem depth_asRawMap (data : Json) (raw : List (String × Json)) (h : asRawMap data = .ok raw) :
    Json.depthMembers raw + 1 ≤ data.depth := by
  cases data with
  | null =>
    simp only [asRawMap, Except.ok.injEq] at h
    subst h
    simp [Json.depth, Json.depthMembers]
  | obj m =>
    simp only [asRawMap, Except.ok.injEq] at h
    subst h
    simp [Json.depth]
  | bool b => simp [asRawMap] at h
  | num n => simp [asRawMap] at h
  | str s => simp [asRawMap] at h
  | arr items => simp [asRawMap] at h

theorem decodeItems_cons (recur : Json → Option (Except Error UsersetRewrite))
    (x : Json) (rest : List Json) (hx : x ≠ .null) :
    decodeItems recur (x :: rest) =
      match recur x with
      | none => none
      | some (.error e) => some (.error e)
      | some (.ok c) =>
        match decodeItems recur rest with
        | none => none
        | some (.error e) => some (.error e)
        | some (.ok cs) => some (.ok (c :: cs)) := by
  cases x with
  | null => exact absurd rfl hx
  | bool b =>
    rw [decodeItems]
    all_goals first | rfl | (intro h; cases h)
  | num n =>
    rw [decodeItems]
    all_goals first | rfl | (intro h; cases h)
  | str s =>
    rw [decodeItems]
    all_goals first | rfl | (intro h; cases h)
  | arr xs =>
    rw [decodeItems]
    all_goals first | rfl | (intro h; cases h)
  | obj m =>
    rw [decodeItems]
    all_goals first | rfl | (intro h; cases h)

theorem decodeItems_agree (recur recur2 : Json → Option (Except Error UsersetRewrite)) (d : Nat)
    (h : Agree recur recur2 d) :
    ∀ (items : List Json), Json.depthList items ≤ d →
      decodeItems recur2 items = decodeItems recur items
  | [], _ => rfl
  | x :: items, hd => by
    simp only [Json.depthList] at hd
    have h1 := h x (le_trans (le_max_left _ _) hd)
    have i1 := decodeItems_agree recur recur2 d h items (le_trans (le_max_right _ _) hd)
    by_cases hx : x = .null
    · subst hx
      rfl
    · rw [decodeItems_cons recur2 x items hx, decodeItems_cons recur x items hx, h1, i1]

theorem decodeChildren_agree (recur recur2 : Json → Option (Except Error UsersetRewrite)) (d : Nat)
    (h : Agree recur recur2 d) (data : Json) (hd : data.depth ≤ d) :
    decodeChildren recur2 data = decodeChildren recur data := by
  cases data with
  | arr items =>
    simp only [decodeChildren]
    apply decodeItems_agree recur recur2 d h
    simp only [Json.depth] at hd
    omega
  | null => rfl
  | bool b => rfl
  | num n => rfl
  | str s => rfl
  | obj m => rfl

theorem decodeVariadic_agree (recur recur2 : Json → Option (Except Error UsersetRewrite)) (d : Nat)
    (h : Agree recur recur2 d) (variant : String) (data : Json) (hd : data.depth ≤ d) :
    decodeVariadic recur2 variant data = decodeVariadic recur variant data := by
  unfold decodeVariadic
  cases hraw : asRawMap data with
  | error e => rfl
  | ok m =>
    dsimp only
    cases hc : rawGet m "child" with
    | none => rfl
    | some cd =>
      dsimp only
      have hcd : cd.depth ≤ d := by
        have := depth_rawGet m "child" cd hc
        have := depth_asRawMap data m hraw
        omega
      rw [decodeChildren_agree recur recur2 d h cd hcd]

theorem decodeExclusion_agree (recur recur2 : Json → Option (Except Error UsersetRewrite)) (d : Nat)
    (h : Agree recur recur2 d) (data : Json) (hd : data.depth ≤ d) :
    decodeExclusion recur2 data = decodeExclusion recur data := by
  unfold decodeExclusion
  cases hraw : asRawMap data with
  | error e => rfl
  | ok m =>
    dsimp only
    have hm := depth_asRawMap data m hraw
    cases hb : rawGet m "base" with
    | none => rfl
    | some bd =>
      dsimp only
      rw [h bd (by have := depth_rawGet m "base" bd hb; omega)]
      cases hr : recur bd with
      | none => rfl
      | some r =>
        cases r with
        | error e => rfl
        | ok b =>
          dsimp only
          cases hs : rawGet m "subtract" with
          | none => rfl
          | some sd =>
            dsimp only
            rw [h sd (by have := depth_rawGet m "subtract" sd hs; omega)]

/-- A recursion bound above the nesting depth of the value never changes the answer of the
decoder: at the bound `data.depth` that `UnmarshalJSON` uses, the answer `none` is never an
exhausted bound. -/
theorem UnmarshalJSONFuel_stable :
    ∀ (f : Nat) (j : Json), j.depth ≤ f → ∀ f2, f ≤ f2 →
      UnmarshalJSONFuel f2 j = UnmarshalJSONFuel f j := by
  intro f
  induction f with
  | zero =>
    intro j hj
    cases j <;> simp [Json.depth] at hj
  | succ f ih =>
    intro j hj f2 hf2
    obtain ⟨g, rfl⟩ : ∃ g, f2 = g + 1 := ⟨f2 - 1, by omega⟩
    have hag : Agree (UnmarshalJSONFuel f) (UnmarshalJSONFuel g) f :=
      fun x hx => ih x hx g (by omega)
    simp only [UnmarshalJSONFuel]
    cases hraw : asRawMap j with
    | error e => rfl
    | ok raw =>
      dsimp only
      have hm := depth_asRawMap j raw hraw
      have hsub : ∀ k v, rawGet raw k = some v → v.depth ≤ f := fun k v hk => by
        have := depth_rawGet raw k v hk
        omega
      by_cases ht : (rawGet raw "_this").isSome = true
      · rw [if_pos ht, if_pos ht]
      · rw [if_neg ht, if_neg ht]
        cases h1 : rawGet raw "computed_userset" with
        | some d => rfl
        | none =>
          dsimp only
          cases h2 : rawGet raw "tuple_to_userset" with
          | some d => rfl
          | none =>
            dsimp only
            cases h3 : rawGet raw "union" with
            | some d => exact decodeVariadic_agree _ _ f hag "union" d (hsub _ d h3)
            | none =>
              dsimp only
              cases h4 : rawGet raw "intersection" with
              | some d => exact decodeVariadic_agree _ _ f hag "intersection" d (hsub _ d h4)
              | none =>
                dsimp only
                cases h5 : rawGet raw "exclusion" with
                | some d => exact decodeExclusion_agree _ _ f hag d (hsub _ d h5)
                | none => rfl

theorem UnmarshalJSONFuel_eq (data : Json) (f : Nat) (hf : data.depth ≤ f) :
    UnmarshalJSONFuel f data = UnmarshalJSON data :=
  UnmarshalJSONFuel_stable data.depth data (le_refl _) f hf

/-- C19: for every structurally valid rewrite tree `t`, `MarshalJSON(t)` succeeds and
`UnmarshalJSON` applied to its output returns a tree equal to `t`. -/
theorem MarshalJSON_UnmarshalJSON_roundtrip (t : UsersetRewrite) (h : Valid t) :
    ∃ j, MarshalJSON t = .ok j ∧ UnmarshalJSON j = some (.ok t) := by
  obtain ⟨j, hj, _, hdec⟩ := valid_roundTrips t h
  exact ⟨j, hj, hdec j.depth (le_refl _)⟩

theorem sampleRewrite_valid : Valid sampleRewrite :=
  Valid.exclusion _ _
    (Valid.union _ (by simp) (by
      intro c hc
      simp only [List.mem_cons, List.mem_singleton, List.not_mem_nil, or_false] at hc
      rcases hc with rfl | rfl | rfl
      · exact Valid.this
      · exact Valid.computedUserset _
      · exact Valid.tupleToUserset _ _))
    (Valid.intersection _ (by simp) (by
      intro c hc
      simp only [List.mem_cons, List.mem_singleton, List.not_mem_nil, or_false] at hc
      rcases hc with rfl | rfl
      · exact Valid.computedUserset _
      · exact Valid.this))

theorem MarshalJSON_UnmarshalJSON_roundtrip_witness :
    Valid sampleRewrite ∧
    ∃ j, MarshalJSON sampleRewrite = .ok j ∧ UnmarshalJSON j = some (.ok sampleRewrite) :=
  ⟨sampleRewrite_valid, MarshalJSON_UnmarshalJSON_roundtrip sampleRewrite sampleRewrite_valid⟩

/-- C20 (as stated) fails: a JSON object that holds the two variant keys `_this` and `union`
is accepted by `UnmarshalJSON` and decoded as `This`. -/
theorem UnmarshalJSON_accepts_two_variant_keys :
    (∃ v, rawGet [("_this", .obj []), ("union", .obj [("child", .arr [.obj [("_this", .obj [])]])])]
      "_this" = some v) ∧
    (∃ v, rawGet [("_this", .obj []), ("union", .obj [("child", .arr [.obj [("_this", .obj [])]])])]
      "union" = some v) ∧
    UnmarshalJSON twoVariantKeys = some (.ok NewThisRewrite) :=
  ⟨⟨_, rfl⟩, ⟨_, rfl⟩, rfl⟩

theorem UnmarshalJSONFuel_single (f : Nat) (raw : List (String × Json)) (k : String) (v : Json)
    (h : firstVariant raw = some (k, v)) :
    UnmarshalJSONFuel (f + 1) (.obj raw) = UnmarshalJSONFuel (f + 1) (.obj [(k, v)]) := by
  simp only [firstVariant, variantKeys, List.findSome?] at h
  simp only [UnmarshalJSONFuel, asRawMap]
  cases h0 : rawGet raw "_this" with
  | some d =>
    rw [h0] at h
    simp only [Option.map_some', Option.some.injEq, Prod.mk.injEq] at h
    obtain ⟨rfl, rfl⟩ := h
    rfl
  | none =>
    rw [h0] at h
    simp only [Option.map_none'] at h
    cases h1 : rawGet raw "computed_userset" with
    | some d =>
      rw [h1] at h
      simp only [Option.map_some', Option.some.injEq, Prod.mk.injEq] at h
      obtain ⟨rfl, rfl⟩ := h
      rfl
    | none =>
      rw [h1] at h
      simp only [Option.map_none'] at h
      cases h2 : rawGet raw "tuple_to_userset" with
      | some d =>
        rw [h2] at h
        simp only [Option.map_some', Option.some.injEq, Prod.mk.injEq] at h
        obtain ⟨rfl, rfl⟩ := h
        rfl
      | none =>
        rw [h2] at h
        simp only [Option.map_none'] at h
        cases h3 : rawGet raw "union" with
        | some d =>
          rw [h3] at h
          simp only [Option.map_some', Option.some.injEq, Prod.mk.injEq] at h
          obtain ⟨rfl, rfl⟩ := h
          rfl
        | none =>
          rw [h3] at h
          simp only [Option.map_none'] at h
          cases h4 : rawGet raw "intersection" with
          | some d =>
            rw [h4] at h
            simp only [Option.map_some', Option.some.injEq, Prod.mk.injEq] at h
            obtain ⟨rfl, rfl⟩ := h
            rfl
          | none =>
            rw [h4] at h
            simp only [Option.map_none'] at h
            cases h5 : rawGet raw "exclusion" with
            | some d =>
              rw [h5] at h
              simp only [Option.map_some', Option.some.injEq, Prod.mk.injEq] at h
              obtain ⟨rfl, rfl⟩ := h
              rfl
            | none =>
              rw [h5] at h
              simp at h

theorem UnmarshalJSONFuel_no_variant (f : Nat) (raw : List (String × Json))
    (h : firstVariant raw = none) :
    UnmarshalJSONFuel (f + 1) (.obj raw) = some (.error .unknownRewriteType) := by
  simp only [firstVariant, variantKeys, List.findSome?] at h
  simp only [UnmarshalJSONFuel, asRawMap]
  cases h0 : rawGet raw "_this" with
  | some d => rw [h0] at h; simp at h
  | none =>
    rw [h0] at h
    simp only [Option.map_none'] at h
    cases h1 : rawGet raw "computed_userset" with
    | some d => rw [h1] at h; simp at h
    | none =>
      rw [h1] at h
      simp only [Option.map_none'] at h
      cases h2 : rawGet raw "tuple_to_userset" with
      | some d => rw [h2] at h; simp at h
      | none =>
        rw [h2] at h
        simp only [Option.map_none'] at h
        cases h3 : rawGet raw "union" with
        | some d => rw [h3] at h; simp at h
        | none =>
          rw [h3] at h
          simp only [Option.map_none'] at h
          cases h4 : rawGet raw "intersection" with
          | some d => rw [h4] at h; simp at h
          | none =>
            rw [h4] at h
            simp only [Option.map_none'] at h
            cases h5 : rawGet raw "exclusion" with
            | some d => rw [h5] at h; simp at h
            | none => rfl

/-- C20 (amended): `UnmarshalJSON` rejects a JSON object that holds none of the six variant
keys; an object that holds one or more of them is decoded exactly as the object reduced to
the first variant key present (in the order `_this`, `computed_userset`,
`tuple_to_userset`, `union`, `intersection`, `exclusion`) and its value: further variant
keys are ignored, not rejected. -/
theorem UnmarshalJSON_first_variant_key (raw : List (String × Json)) :
    UnmarshalJSON (.obj raw) =
      match firstVariant raw with
      | none => some (.error .unknownRewriteType)
      | some (k, v) => UnmarshalJSON (.obj [(k, v)]) := by
  have hpos : ∀ m : List (String × Json), ∃ f, (Json.obj m).depth = f + 1 :=
    fun m => ⟨Json.depthMembers m, rfl⟩
  obtain ⟨f, hf⟩ := hpos raw
  cases h : firstVariant raw with
  | none =>
    dsimp only
    rw [UnmarshalJSON, hf]
    exact UnmarshalJSONFuel_no_variant f raw h
  | some p =>
    obtain ⟨k, v⟩ := p
    dsimp only
    rw [UnmarshalJSON, hf, UnmarshalJSONFuel_single f raw k v h]
    apply UnmarshalJSONFuel_eq
    have hv : v.depth ≤ Json.depthMembers raw := by
      have hmem : ∃ k1, rawGet raw k1 = some v := by
        simp only [firstVariant, List.findSome?_eq_some_iff, Option.map_eq_some'] at h
        obtain ⟨_, k1, _, _, ⟨v1, hv1, heq⟩, _⟩ := h
        simp only [Prod.mk.injEq] at heq
        obtain ⟨rfl, rfl⟩ := heq
        exact ⟨_, hv1⟩
      obtain ⟨k1, hk1⟩ := hmem
      exact depth_rawGet raw k1 v hk1
    have hd : (Json.obj [(k, v)]).depth = max v.depth 0 + 1 := rfl
    have hd2 : (Json.obj raw).depth = Json.depthMembers raw + 1 := rfl
    rw [hd2] at hf
    rw [hd, Nat.max_zero]
    omega

/-- C30: `Expand` and `getRelations` agree: a subject occurs in `Expand(resource, relation)`
exactly when `relation` occurs in `getRelations(subject, resource)`. -/
theorem Expand_iff_getRelations (s : Store) (resource relation subject : String) :
    ∃ out held, s.Expand resource relation = some out ∧
      getRelations s.relationships subject resource = some held ∧
      (subject ∈ out ↔ relation ∈ held) := by
  obtain ⟨d, e, hout, hd, he⟩ := Expand_spec s resource relation
  obtain ⟨held, hheld, hmem⟩ := getRelations_spec s.relationships subject resource
  refine ⟨d ++ e, held, hout, hheld, ?_⟩
  rw [List.mem_append, hd subject, he subject, hmem relation]
  unfold Holds
  constructor
  · rintro (h | ⟨t, ht, h1, h2, _, h4⟩)
    · exact Or.inl h
    · exact Or.inr ⟨t.subject, h4, t, ht, h1, h2, rfl⟩
  · rintro (h | ⟨g, hg, t, ht, h1, h2, h3⟩)
    · exact Or.inl h
    · exact Or.inr ⟨t, ht, h1, h2, by rw [h3]; exact hg.hasPrefix, by rw [h3]; exact hg⟩

theorem run_cons (s : Store) (op : Op) (ops : List Op) :
    run s (op :: ops) = run (step s op) ops := rfl

/-- C22 (as stated) fails: after one `AddRelationship` on a new store the only minted token
is `zk_1`, and `GetChangeNumber` returns 2. -/
theorem GetChangeNumber_not_latest_token :
    mintedTokens (NewStore LoadDefaultSchema) [.add "document:report" "owner" "user:alice" 1] =
      ["zk_1"] ∧
    (run (NewStore LoadDefaultSchema)
      [.add "document:report" "owner" "user:alice" 1]).GetChangeNumber = 2 := by
  decide

theorem UsersetRewrite.induct (P : UsersetRewrite → Prop)
    (h : ∀ type cu ttu children, (∀ c ∈ children, P c) → P (.mk type cu ttu children)) :
    ∀ t, P t := by
  intro t
  exact UsersetRewrite.rec (motive_1 := P) (motive_2 := fun cs => ∀ c ∈ cs, P c)
    (fun type cu ttu children ih => h type cu ttu children ih)
    (by intro c hc; cases hc)
    (fun head tail ih1 ih2 c hc => by
      rcases List.mem_cons.mp hc with rfl | hc
      · exact ih1
      · exact ih2 c hc) t

theorem scanRelated_cons {α : Type} (ask : α → Option (Except Error Bool)) (x : α)
    (rest : List α) :
    scanRelated ask (x :: rest) =
      match ask x with
      | none => none
      | some (.error e) => some (.error e)
      | some (.ok true) => some (.ok true)
      | some (.ok false) => scanRelated ask rest :=
  rfl

theorem scanRelated_skip {α : Type} (ask : α → Option (Except Error Bool)) :
    ∀ (pre : List α) (rest : List α), (∀ y ∈ pre, ask y = some (.ok false)) →
      scanRelated ask (pre ++ rest) = scanRelated ask rest
  | [], _, _ => rfl
  | y :: pre, rest, h => by
    rw [List.cons_append, scanRelated_cons, h y (List.mem_cons_self y pre)]
    exact scanRelated_skip ask pre rest (fun z hz => h z (List.mem_cons_of_mem y hz))

theorem scanRelated_true_iff {α : Type} (ask : α → Option (Except Error Bool)) :
    ∀ (l : List α), scanRelated ask l = some (.ok true) ↔
      ∃ pre x post, l = pre ++ x :: post ∧ (∀ y ∈ pre, ask y = some (.ok false)) ∧
        ask x = some (.ok true)
  | [] => by
    constructor
    · intro h; simp [scanRelated] at h
    · rintro ⟨pre, x, post, h, _⟩
      simp at h
  | a :: l => by
    rw [scanRelated_cons]
    constructor
    · intro h
      cases ha : ask a with
      | none => rw [ha] at h; cases h
      | some r =>
        rw [ha] at h
        cases r with
        | error e => cases h
        | ok b =>
          cases b with
          | true => exact ⟨[], a, l, rfl, by simp, ha⟩
          | false =>
            obtain ⟨pre, x, post, h1, h2, h3⟩ := (scanRelated_true_iff ask l).mp h
            refine ⟨a :: pre, x, post, by rw [h1]; rfl, ?_, h3⟩
            intro y hy
            rcases List.mem_cons.mp hy with rfl | hy
            · exact ha
            · exact h2 y hy
    · rintro ⟨pre, x, post, h1, h2, h3⟩
      cases pre with
      | nil =>
        simp only [List.nil_append, List.cons.injEq] at h1
        obtain ⟨rfl, rfl⟩ := h1
        rw [h3]
      | cons p pre =>
        simp only [List.cons_append, List.cons.injEq] at h1
        obtain ⟨rfl, rfl⟩ := h1
        rw [h2 a (List.mem_cons_self _ _)]
        exact (scanRelated_true_iff ask _).mpr
          ⟨pre, x, post, rfl, fun y hy => h2 y (List.mem_cons_of_mem _ hy), h3⟩

theorem scanRelated_false_iff {α : Type} (ask : α → Option (Except Error Bool)) :
    ∀ (l : List α), scanRelated ask l = some (.ok false) ↔
      ∀ y ∈ l, ask y = some (.ok false)
  | [] => by simp [scanRelated]
  | a :: l => by
    rw [scanRelated_cons]
    constructor
    · intro h
      cases ha : ask a with
      | none => rw [ha] at h; cases h
      | some r =>
        rw [ha] at h
        cases r with
        | error e => cases h
        | ok b =>
          cases b with
          | true => cases h
          | false =>
            intro y hy
            rcases List.mem_cons.mp hy with rfl | hy
            · exact ha
            · exact (scanRelated_false_iff ask l).mp h y hy
    · intro h
      rw [h a (List.mem_cons_self _ _)]
      exact (scanRelated_false_iff ask l).mpr (fun y hy => h y (List.mem_cons_of_mem _ hy))

theorem scanRelated_error_iff {α : Type} (ask : α → Option (Except Error Bool)) (e : Error) :
    ∀ (l : List α), scanRelated ask l = some (.error e) ↔
      ∃ pre x post, l = pre ++ x :: post ∧ (∀ y ∈ pre, ask y = some (.ok false)) ∧
        ask x = some (.error e)
  | [] => by
    constructor
    · intro h; simp [scanRelated] at h
    · rintro ⟨pre, x, post, h, _⟩
      simp at h
  | a :: l => by
    rw [scanRelated_cons]
    constructor
    · intro h
      cases ha : ask a with
      | none => rw [ha] at h; cases h
      | some r =>
        rw [ha] at h
        cases r with
        | error e2 =>
          simp only [Option.some.injEq, Except.error.injEq] at h
          subst h
          exact ⟨[], a, l, rfl, by simp, ha⟩
        | ok b =>
          cases b with
          | true => cases h
          | false =>
            obtain ⟨pre, x, post, h1, h2, h3⟩ := (scanRelated_error_iff ask e l).mp h
            refine ⟨a :: pre, x, post, by rw [h1]; rfl, ?_, h3⟩
            intro y hy
            rcases List.mem_cons.mp hy with rfl | hy
            · exact ha
            · exact h2 y hy
    · rintro ⟨pre, x, post, h1, h2, h3⟩
      cases pre with
      | nil =>
        simp only [List.nil_append, List.cons.injEq] at h1
        obtain ⟨rfl, rfl⟩ := h1
        rw [h3]
      | cons p pre =>
        simp only [List.cons_append, List.cons.injEq] at h1
        obtain ⟨rfl, rfl⟩ := h1
        rw [h2 a (List.mem_cons_self _ _)]
        exact (scanRelated_error_iff ask e _).mpr
          ⟨pre, x, post, rfl, fun y hy => h2 y (List.mem_cons_of_mem _ hy), h3⟩

theorem scanAll_cons {α : Type} (ask : α → Option (Except Error Bool)) (x : α)
    (rest : List α) :
    scanAll ask (x :: rest) =
      match ask x with
      | none => none
      | some (.error e) => some (.error e)
      | some (.ok false) => some (.ok false)
      | some (.ok true) => scanAll ask rest :=
  rfl

theorem scanAll_true_iff {α : Type} (ask : α → Option (Except Error Bool)) :
    ∀ (l : List α), scanAll ask l = some (.ok true) ↔
      ∀ y ∈ l, ask y = some (.ok true)
  | [] => by simp [scanAll]
  | a :: l => by
    rw [scanAll_cons]
    constructor
    · intro h
      cases ha : ask a with
      | none => rw [ha] at h; cases h
      | some r =>
        rw [ha] at h
        cases r with
        | error e => cases h
        | ok b =>
          cases b with
          | false => cases h
          | true =>
            intro y hy
            rcases List.mem_cons.mp hy with rfl | hy
            · exact ha
            · exact (scanAll_true_iff ask l).mp h y hy
    · intro h
      rw [h a (List.mem_cons_self _ _)]
      exact (scanAll_true_iff ask l).mpr (fun y hy => h y (List.mem_cons_of_mem _ hy))

theorem scanAll_decided {α : Type} (ask : α → Option (Except Error Bool))
    (r : Except Error Bool) (hr : r ≠ .ok true) :
    ∀ (l : List α), scanAll ask l = some r ↔
      ∃ pre x post, l = pre ++ x :: post ∧ (∀ y ∈ pre, ask y = some (.ok true)) ∧
        ask x = some r
  | [] => by
    constructor
    · intro h
      simp only [scanAll, Option.some.injEq] at h
      exact absurd h.symm hr
    · rintro ⟨pre, x, post, h, _⟩
      simp at h
  | a :: l => by
    rw [scanAll_cons]
    constructor
    · intro h
      cases ha : ask a with
      | none => rw [ha] at h; cases h
      | some r2 =>
        rw [ha] at h
        cases r2 with
        | error e2 =>
          simp only [Option.some.injEq] at h
          subst h
          exact ⟨[], a, l, rfl, by simp, ha⟩
        | ok b =>
          cases b with
          | false =>
            simp only [Option.some.injEq] at h
            subst h
            exact ⟨[], a, l, rfl, by simp, ha⟩
          | true =>
            obtain ⟨pre, x, post, h1, h2, h3⟩ := (scanAll_decided ask r hr l).mp h
            refine ⟨a :: pre, x, post, by rw [h1]; rfl, ?_, h3⟩
            intro y hy
            rcases List.mem_cons.mp hy with rfl | hy
            · exact ha
            · exact h2 y hy
    · rintro ⟨pre, x, post, h1, h2, h3⟩
      cases pre with
      | nil =>
        simp only [List.nil_append, List.cons.injEq] at h1
        obtain ⟨rfl, rfl⟩ := h1
        rw [h3]
        cases r with
        | error e => rfl
        | ok b =>
          cases b with
          | false => rfl
          | true => exact absurd rfl hr
      | cons p pre =>
        simp only [List.cons_append, List.cons.injEq] at h1
        obtain ⟨rfl, rfl⟩ := h1
        rw [h2 a (List.mem_cons_self _ _)]
        exact (scanAll_decided ask r hr _).mpr
          ⟨pre, x, post, rfl, fun y hy => h2 y (List.mem_cons_of_mem _ hy), h3⟩

theorem evaluateUnion_eq_scan (ev : String → String → String → Option (Except Error Bool))
    (rels : List Relationship) (objectID subject : String) :
    ∀ (cs : List UsersetRewrite), evaluateUnion ev rels objectID subject cs =
      scanRelated (evaluateUsersetRewrite ev rels objectID subject) cs
  | [] => by
    rw [evaluateUnion]
    all_goals rfl
  | c :: cs => by
    rw [evaluateUnion, scanRelated_cons, evaluateUnion_eq_scan ev rels objectID subject cs]

theorem evaluateIntersection_eq_scan (ev : String → String → String → Option (Except Error Bool))
    (rels : List Relationship) (objectID subject : String) :
    ∀ (cs : List UsersetRewrite), evaluateIntersection ev rels objectID subject cs =
      scanAll (evaluateUsersetRewrite ev rels objectID subject) cs
  | [] => by
    rw [evaluateIntersection]
    all_goals rfl
  | c :: cs => by
    rw [evaluateIntersection, scanAll_cons,
      evaluateIntersection_eq_scan ev rels objectID subject cs]

theorem evaluate_this (ev : String → String → String → Option (Except Error Bool))
    (rels : List Relationship) (objectID subject : String) (cu : Option ComputedUserset)
    (ttu : Option TupleToUserset) (children : List UsersetRewrite) :
    evaluateUsersetRewrite ev rels objectID subject (.mk "this" cu ttu children) =
      some (.ok (rels.any (fun r =>
        decide (r.resource = objectID) && decide (r.subject = subject)))) := by
  rfl

theorem evaluate_computed (ev : String → String → String → Option (Except Error Bool))
    (rels : List Relationship) (objectID subject : String) (cu : ComputedUserset)
    (ttu : Option TupleToUserset) (children : List UsersetRewrite) :
    evaluateUsersetRewrite ev rels objectID subject
        (.mk "computed_userset" (some cu) ttu children) =
      ev objectID cu.relation subject := by
  rfl

theorem evaluate_tupleToUserset (ev : String → String → String → Option (Except Error Bool))
    (rels : List Relationship) (objectID subject : String) (cu : Option ComputedUserset)
    (ttu : TupleToUserset) (children : List UsersetRewrite) :
    evaluateUsersetRewrite ev rels objectID subject
        (.mk "tuple_to_userset" cu (some ttu) children) =
      scanRelated (fun relatedObj => ev relatedObj ttu.computedUserset.relation subject)
        ((rels.filter (fun r => decide (r.resource = objectID) &&
          decide (r.relation = ttu.tupleset.relation))).map (fun r => r.subject)) := by
  rfl

theorem evaluate_union (ev : String → String → String → Option (Except Error Bool))
    (rels : List Relationship) (objectID subject : String) (cu : Option ComputedUserset)
    (ttu : Option TupleToUserset) (children : List UsersetRewrite) :
    evaluateUsersetRewrite ev rels objectID subject (.mk "union" cu ttu children) =
      if children.length = 0 then some (.error .unionNoChildren)
      else scanRelated (evaluateUsersetRewrite ev rels objectID subject) children := by
  rw [← evaluateUnion_eq_scan]
  rfl

theorem evaluate_intersection (ev : String → String → String → Option (Except Error Bool))
    (rels : List Relationship) (objectID subject : String) (cu : Option ComputedUserset)
    (ttu : Option TupleToUserset) (children : List UsersetRewrite) :
    evaluateUsersetRewrite ev rels objectID subject (.mk "intersection" cu ttu children) =
      if children.length = 0 then some (.error .intersectionNoChildren)
      else scanAll (evaluateUsersetRewrite ev rels objectID subject) children := by
  rw [← evaluateIntersection_eq_scan]
  rfl

theorem evaluate_exclusion (ev : String → String → String → Option (Except Error Bool))
    (rels : List Relationship) (objectID subject : String) (cu : Option ComputedUserset)
    (ttu : Option TupleToUserset) (base subtract : UsersetRewrite) :
    evaluateUsersetRewrite ev rels objectID subject (.mk "exclusion" cu ttu [base, subtract]) =
      match evaluateUsersetRewrite ev rels objectID subject base with
      | none => none
      | some (.error e) => some (.error e)
      | some (.ok false) => some (.ok false)
      | some (.ok true) =>
        match evaluateUsersetRewrite ev rels objectID subject subtract with
        | none => none
        | some (.error e) => some (.error e)
        | some (.ok subtractAllowed) => some (.ok (true && !subtractAllowed)) := by
  rfl

theorem evaluate_exclusion_arity (ev : String → String → String → Option (Except Error Bool))
    (rels : List Relationship) (objectID subject : String) (cu : Option ComputedUserset)
    (ttu : Option TupleToUserset) (children : List UsersetRewrite) (h : children.length ≠ 2) :
    evaluateUsersetRewrite ev rels objectID subject (.mk "exclusion" cu ttu children) =
      some (.error .exclusionChildren) := by
  have h1 : evaluateUsersetRewrite ev rels objectID subject (.mk "exclusion" cu ttu children) =
      if children.length ≠ 2 then some (.error .exclusionChildren)
      else evaluateExclusion ev rels objectID subject children := rfl
  rw [h1, if_pos h]

/-- C25: a `Union` node returns true at the first child (left to right) that is true, the
error at the first child that errors, and false when every child of a non-empty list is
false; an `Intersection` node returns false at the first child that is false, the error at
the first child that errors, and true when every child of a non-empty list is true. The
children `post` after the deciding one play no part in the result. -/
theorem union_intersection_short_circuit
    (ev : String → String → String → Option (Except Error Bool))
    (rels : List Relationship) (objectID subject : String) (cu : Option ComputedUserset)
    (ttu : Option TupleToUserset) (pre post children : List UsersetRewrite)
    (c : UsersetRewrite) (e : Error) :
    ((∀ p ∈ pre, evaluateUsersetRewrite ev rels objectID subject p = some (.ok false)) →
      evaluateUsersetRewrite ev rels objectID subject c = some (.ok true) →
      evaluateUsersetRewrite ev rels objectID subject (.mk "union" cu ttu (pre ++ c :: post)) =
        some (.ok true)) ∧
    ((∀ p ∈ pre, evaluateUsersetRewrite ev rels objectID subject p = some (.ok false)) →
      evaluateUsersetRewrite ev rels objectID subject c = some (.error e) →
      evaluateUsersetRewrite ev rels objectID subject (.mk "union" cu ttu (pre ++ c :: post)) =
        some (.error e)) ∧
    (children ≠ [] →
      (∀ p ∈ children, evaluateUsersetRewrite ev rels objectID subject p = some (.ok false)) →
      evaluateUsersetRewrite ev rels objectID subject (.mk "union" cu ttu children) =
        some (.ok false)) ∧
    ((∀ p ∈ pre, evaluateUsersetRewrite ev rels objectID subject p = some (.ok true)) →
      evaluateUsersetRewrite ev rels objectID subject c = some (.ok false) →
      evaluateUsersetRewrite ev rels objectID subject
        (.mk "intersection" cu ttu (pre ++ c :: post)) = some (.ok false)) ∧
    ((∀ p ∈ pre, evaluateUsersetRewrite ev rels objectID subject p = some (.ok true)) →
      evaluateUsersetRewrite ev rels objectID subject c = some (.error e) →
      evaluateUsersetRewrite ev rels objectID subject
        (.mk "intersection" cu ttu (pre ++ c :: post)) = some (.error e)) ∧
    (children ≠ [] →
      (∀ p ∈ children, evaluateUsersetRewrite ev rels objectID subject p = some (.ok true)) →
      evaluateUsersetRewrite ev rels objectID subject (.mk "intersection" cu ttu children) =
        some (.ok true)) := by
  have hlen : ¬ (pre ++ c :: post).length = 0 := by simp
  refine ⟨?_, ?_, ?_, ?_, ?_, ?_⟩
  · intro hpre hc
    rw [evaluate_union, if_neg hlen]
    exact (scanRelated_true_iff _ _).mpr ⟨pre, c, post, rfl, hpre, hc⟩
  · intro hpre hc
    rw [evaluate_union, if_neg hlen]
    exact (scanRelated_error_iff _ e _).mpr ⟨pre, c, post, rfl, hpre, hc⟩
  · intro hne hall
    have : ¬ children.length = 0 := fun h => hne (List.length_eq_zero.mp h)
    rw [evaluate_union, if_neg this]
    exact (scanRelated_false_iff _ _).mpr hall
  · intro hpre hc
    rw [evaluate_intersection, if_neg hlen]
    exact (scanAll_decided _ _ (by intro h; cases h) _).mpr ⟨pre, c, post, rfl, hpre, hc⟩
  · intro hpre hc
    rw [evaluate_intersection, if_neg hlen]
    exact (scanAll_decided _ _ (by intro h; cases h) _).mpr ⟨pre, c, post, rfl, hpre, hc⟩
  · intro hne hall
    have : ¬ children.length = 0 := fun h => hne (List.length_eq_zero.mp h)
    rw [evaluate_intersection, if_neg this]
    exact (scanAll_true_iff _ _).mpr hall

/-- C26: an `Exclusion` node with children `[base, subtract]` returns false without error
when `base` is false, whatever `subtract` is; when `base` is true it returns the negation of
`subtract`, or the error of `subtract`; when `base` errors it returns that error. A node
whose child list does not have exactly two elements evaluates to an error. -/
theorem exclusion_semantics
    (ev : String → String → String → Option (Except Error Bool))
    (rels : List Relationship) (objectID subject : String) (cu : Option ComputedUserset)
    (ttu : Option TupleToUserset) (base subtract : UsersetRewrite)
    (children : List UsersetRewrite) (e : Error) (b : Bool) :
    (evaluateUsersetRewrite ev rels objectID subject base = some (.ok false) →
      evaluateUsersetRewrite ev rels objectID subject (.mk "exclusion" cu ttu [base, subtract]) =
        some (.ok false)) ∧
    (evaluateUsersetRewrite ev rels objectID subject base = some (.ok true) →
      evaluateUsersetRewrite ev rels objectID subject subtract = some (.ok b) →
      evaluateUsersetRewrite ev rels objectID subject (.mk "exclusion" cu ttu [base, subtract]) =
        some (.ok (!b))) ∧
    (evaluateUsersetRewrite ev rels objectID subject base = some (.ok true) →
      evaluateUsersetRewrite ev rels objectID subject subtract = some (.error e) →
      evaluateUsersetRewrite ev rels objectID subject (.mk "exclusion" cu ttu [base, subtract]) =
        some (.error e)) ∧
    (evaluateUsersetRewrite ev rels objectID subject base = some (.error e) →
      evaluateUsersetRewrite ev rels objectID subject (.mk "exclusion" cu ttu [base, subtract]) =
        some (.error e)) ∧
    (children.length ≠ 2 →
      evaluateUsersetRewrite ev rels objectID subject (.mk "exclusion" cu ttu children) =
        some (.error .exclusionChildren)) := by
  refine ⟨?_, ?_, ?_, ?_, ?_⟩
  · intro hb
    rw [evaluate_exclusion, hb]
  · intro hb hs
    rw [evaluate_exclusion, hb, hs]
    rfl
  · intro hb hs
    rw [evaluate_exclusion, hb, hs]
  · intro hb
    rw [evaluate_exclusion, hb]
  · exact evaluate_exclusion_arity ev rels objectID subject cu ttu children

theorem EvaluateUsersetFuel_zero (schema : Schema) (rels : List Relationship)
    (objectID relation subject : String) :
    EvaluateUsersetFuel schema rels 0 objectID relation subject = none := rfl

theorem EvaluateUsersetFuel_badObject (schema : Schema) (rels : List Relationship) (fuel : Nat)
    (objectID relation subject : String) (h : ':' ∉ objectID.data) :
    EvaluateUsersetFuel schema rels (fuel + 1) objectID relation subject =
      some (.error (.invalidResourceFormat objectID)) := by
  have hlen : (SplitN2 objectID ':').length ≠ 2 := fun hl => h ((SplitN2_length _ _).mp hl)
  unfold EvaluateUsersetFuel
  simp only [hlen, ne_eq, not_false_eq_true, if_true]

theorem EvaluateUsersetFuel_noDefinition (schema : Schema) (rels : List Relationship)
    (fuel : Nat) (objectID relation subject : String) (e : Error) (hobj : ':' ∈ objectID.data)
    (hdef : schema.GetDefinition (typeOf objectID) = .error e) :
    EvaluateUsersetFuel schema rels (fuel + 1) objectID relation subject = some (.error e) := by
  have hlen : (SplitN2 objectID ':').length = 2 := (SplitN2_length _ _).mpr hobj
  unfold EvaluateUsersetFuel
  simp only [hlen, ne_eq, not_true_eq_false, if_false, SplitN2_headD objectID hobj, hdef]

theorem EvaluateUsersetFuel_noRelation (schema : Schema) (rels : List Relationship)
    (fuel : Nat) (objectID relation subject : String) (d : Definition)
    (hobj : ':' ∈ objectID.data)
    (hdef : schema.GetDefinition (typeOf objectID) = .ok d)
    (hrel : d.relations.lookup relation = none) :
    EvaluateUsersetFuel schema rels (fuel + 1) objectID relation subject =
      some (.error (.relationNotDefined relation (typeOf objectID))) := by
  have hlen : (SplitN2 objectID ':').length = 2 := (SplitN2_length _ _).mpr hobj
  unfold EvaluateUsersetFuel
  simp only [hlen, ne_eq, not_true_eq_false, if_false, SplitN2_headD objectID hobj, hdef, hrel]

theorem EvaluateUsersetFuel_direct (schema : Schema) (rels : List Relationship)
    (fuel : Nat) (objectID relation subject : String) (d : Definition) (rel : Relation)
    (hobj : ':' ∈ objectID.data)
    (hdef : schema.GetDefinition (typeOf objectID) = .ok d)
    (hrel : d.relations.lookup relation = some rel) (hrw : rel.usersetRewrite = none) :
    EvaluateUsersetFuel schema rels (fuel + 1) objectID relation subject =
      if rels.any (sameTriple objectID relation subject) then some (.ok true)
      else if HasPrefix subject "user:" then
        match getGroupMemberships rels subject [] with
        | none => none
        | some (groups, _) =>
          some (.ok (groups.any (fun groupID =>
            rels.any (sameTriple objectID relation groupID))))
      else some (.ok false) := by
  have hlen : (SplitN2 objectID ':').length = 2 := (SplitN2_length _ _).mpr hobj
  unfold EvaluateUsersetFuel
  simp only [hlen, ne_eq, not_true_eq_false, if_false, SplitN2_headD objectID hobj, hdef, hrel,
    hrw]

theorem EvaluateUsersetFuel_rewrite (schema : Schema) (rels : List Relationship)
    (fuel : Nat) (objectID relation subject : String) (d : Definition) (rel : Relation)
    (rewrite : UsersetRewrite) (hobj : ':' ∈ objectID.data)
    (hdef : schema.GetDefinition (typeOf objectID) = .ok d)
    (hrel : d.relations.lookup relation = some rel)
    (hrw : rel.usersetRewrite = some rewrite) :
    EvaluateUsersetFuel schema rels (fuel + 1) objectID relation subject =
      evaluateUsersetRewrite (EvaluateUsersetFuel schema rels fuel) rels objectID subject
        rewrite := by
  have hlen : (SplitN2 objectID ':').length = 2 := (SplitN2_length _ _).mpr hobj
  unfold EvaluateUsersetFuel
  simp only [hlen, ne_eq, not_true_eq_false, if_false, SplitN2_headD objectID hobj, hdef, hrel,
    hrw]

/-- The cases of `EvaluateUserset` before it looks at the tuples. -/
theorem EvaluateUsersetFuel_cases (schema : Schema) (objectID relation : String) :
    (∃ e, ∀ rels fuel subject,
      EvaluateUsersetFuel schema rels (fuel + 1) objectID relation subject = some (.error e)) ∨
    (∃ d rel, ':' ∈ objectID.data ∧ schema.GetDefinition (typeOf objectID) = .ok d ∧
      d.relations.lookup relation = some rel) := by
  by_cases hobj : ':' ∈ objectID.data
  · cases hdef : schema.GetDefinition (typeOf objectID) with
    | error e =>
      exact Or.inl ⟨e, fun rels fuel subject =>
        EvaluateUsersetFuel_noDefinition schema rels fuel objectID relation subject e hobj hdef⟩
    | ok d =>
      cases hrel : d.relations.lookup relation with
      | none =>
        exact Or.inl ⟨_, fun rels fuel subject =>
          EvaluateUsersetFuel_noRelation schema rels fuel objectID relation subject d hobj hdef
            hrel⟩
      | some rel => exact Or.inr ⟨d, rel, hobj, rfl, hrel⟩
  · exact Or.inl ⟨_, fun rels fuel subject =>
      EvaluateUsersetFuel_badObject schema rels fuel objectID relation subject hobj⟩

/-- The direct check of `EvaluateUserset` for a relation without a rewrite tree. -/
theorem direct_check_spec (schema : Schema) (rels : List Relationship)
    (fuel : Nat) (objectID relation subject : String) (d : Definition) (rel : Relation)
    (hobj : ':' ∈ objectID.data)
    (hdef : schema.GetDefinition (typeOf objectID) = .ok d)
    (hrel : d.relations.lookup relation = some rel) (hrw : rel.usersetRewrite = none) :
    ∃ b, EvaluateUsersetFuel schema rels (fuel + 1) objectID relation subject = some (.ok b) ∧
      (b = true ↔
        (∃ t ∈ rels, triple t = (objectID, relation, subject)) ∨
        (HasPrefix subject "user:" = true ∧
          ∃ g, InGroup rels subject g ∧ ∃ t ∈ rels, triple t = (objectID, relation, g))) := by
  rw [EvaluateUsersetFuel_direct schema rels fuel objectID relation subject d rel hobj hdef hrel
    hrw]
  obtain ⟨g, w, hg⟩ := getGroupMemberships_total rels subject []
  have hmem := getGroupMemberships_mem rels subject g w hg
  by_cases h1 : rels.any (sameTriple objectID relation subject) = true
  · rw [if_pos h1]
    refine ⟨true, rfl, ?_⟩
    simp only [true_iff]
    left
    obtain ⟨t, ht, h⟩ := List.any_eq_true.mp h1
    exact ⟨t, ht, (sameTriple_iff _ _ _ _).mp h⟩
  · rw [if_neg h1]
    have hno : ¬ ∃ t ∈ rels, triple t = (objectID, relation, subject) := by
      rintro ⟨t, ht, h⟩
      exact h1 (List.any_eq_true.mpr ⟨t, ht, (sameTriple_iff _ _ _ _).mpr h⟩)
    by_cases h2 : HasPrefix subject "user:" = true
    · rw [if_pos h2, hg]
      refine ⟨_, rfl, ?_⟩
      simp only [List.any_eq_true, sameTriple_iff, hmem, hno, h2, false_or, true_and]
    · rw [if_neg h2]
      refine ⟨false, rfl, ?_⟩
      simp only [hno, h2, false_and, or_self]
      simp

theorem scanRelated_mono {α : Type} (ask ask2 : α → Option (Except Error Bool)) (l : List α)
    (h : ∀ a ∈ l, ∀ x, ask a = some x → ask2 a = some x) (x : Except Error Bool)
    (hx : scanRelated ask l = some x) : scanRelated ask2 l = some x := by
  rcases x with e | b
  · obtain ⟨pre, y, post, rfl, h1, h2⟩ := (scanRelated_error_iff ask e l).mp hx
    exact (scanRelated_error_iff ask2 e _).mpr ⟨pre, y, post, rfl,
      fun z hz => h z (List.mem_append_left _ hz) _ (h1 z hz),
      h y (List.mem_append_right _ (List.mem_cons_self _ _)) _ h2⟩
  · cases b
    · exact (scanRelated_false_iff ask2 l).mpr
        (fun y hy => h y hy _ ((scanRelated_false_iff ask l).mp hx y hy))
    · obtain ⟨pre, y, post, rfl, h1, h2⟩ := (scanRelated_true_iff ask l).mp hx
      exact (scanRelated_true_iff ask2 _).mpr ⟨pre, y, post, rfl,
        fun z hz => h z (List.mem_append_left _ hz) _ (h1 z hz),
        h y (List.mem_append_right _ (List.mem_cons_self _ _)) _ h2⟩

theorem scanAll_mono {α : Type} (ask ask2 : α → Option (Except Error Bool)) (l : List α)
    (h : ∀ a ∈ l, ∀ x, ask a = some x → ask2 a = some x) (x : Except Error Bool)
    (hx : scanAll ask l = some x) : scanAll ask2 l = some x := by
  by_cases hr : x = .ok true
  · subst hr
    exact (scanAll_true_iff ask2 l).mpr
      (fun y hy => h y hy _ ((scanAll_true_iff ask l).mp hx y hy))
  · obtain ⟨pre, y, post, rfl, h1, h2⟩ := (scanAll_decided ask x hr l).mp hx
    exact (scanAll_decided ask2 x hr _).mpr ⟨pre, y, post, rfl,
      fun z hz => h z (List.mem_append_left _ hz) _ (h1 z hz),
      h y (List.mem_append_right _ (List.mem_cons_self _ _)) _ h2⟩

theorem evaluateExclusion_pair (ev : String → String → String → Option (Except Error Bool))
    (rels : List Relationship) (objectID subject : String) (base subtract : UsersetRewrite) :
    evaluateExclusion ev rels objectID subject [base, subtract] =
      match evaluateUsersetRewrite ev rels objectID subject base with
      | none => none
      | some (.error e) => some (.error e)
      | some (.ok false) => some (.ok false)
      | some (.ok true) =>
        match evaluateUsersetRewrite ev rels objectID subject subtract with
        | none => none
        | some (.error e) => some (.error e)
        | some (.ok subtractAllowed) => some (.ok (true && !subtractAllowed)) :=
  rfl

/-- The outcomes of an `exclusion` node over `[base, subtract]`. -/
theorem evaluateExclusion_some_iff (ev : String → String → String → Option (Except Error Bool))
    (rels : List Relationship) (objectID subject : String) (base subtract : UsersetRewrite)
    (x : Except Error Bool) :
    evaluateExclusion ev rels objectID subject [base, subtract] = some x ↔
      (∃ e, evaluateUsersetRewrite ev rels objectID subject base = some (.error e) ∧
        x = .error e) ∨
      (evaluateUsersetRewrite ev rels objectID subject base = some (.ok false) ∧
        x = .ok false) ∨
      (evaluateUsersetRewrite ev rels objectID subject base = some (.ok true) ∧
        ((∃ e, evaluateUsersetRewrite ev rels objectID subject subtract = some (.error e) ∧
          x = .error e) ∨
         (∃ z, evaluateUsersetRewrite ev rels objectID subject subtract = some (.ok z) ∧
          x = .ok (!z)))) := by
  rw [evaluateExclusion_pair]
  cases hb : evaluateUsersetRewrite ev rels objectID subject base with
  | none => simp
  | some r =>
    rcases r with e | b
    · simp [eq_comm]
    · cases b
      · simp [eq_comm]
      · cases hs : evaluateUsersetRewrite ev rels objectID subject subtract with
        | none => simp
        | some r2 =>
          rcases r2 with e | z
          · simp [eq_comm]
          · simp [eq_comm]

/-- The evaluation of a node, case by case on its `type` field. -/
theorem evaluateUsersetRewrite_mk (ev : String → String → String → Option (Except Error Bool))
    (rels : List Relationship) (objectID subject : String) (type : String)
    (cu : Option ComputedUserset) (ttu : Option TupleToUserset)
    (children : List UsersetRewrite) :
    evaluateUsersetRewrite ev rels objectID subject (.mk type cu ttu children) =
      if type = "this" then
        some (.ok (rels.any (fun r =>
          decide (r.resource = objectID) && decide (r.subject = subject))))
      else if type = "computed_userset" then
        match cu with
        | none => some (.error .computedUsersetNil)
        | some c => ev objectID c.relation subject
      else if type = "tuple_to_userset" then
        match ttu with
        | none => some (.error .tupleToUsersetNil)
        | some t =>
          scanRelated (fun relatedObj => ev relatedObj t.computedUserset.relation subject)
            ((rels.filter (fun r => decide (r.resource = objectID) &&
              decide (r.relation = t.tupleset.relation))).map (fun r => r.subject))
      else if type = "union" then
        if children.length = 0 then some (.error .unionNoChildren)
        else scanRelated (evaluateUsersetRewrite ev rels objectID subject) children
      else if type = "intersection" then
        if children.length = 0 then some (.error .intersectionNoChildren)
        else scanAll (evaluateUsersetRewrite ev rels objectID subject) children
      else if type = "exclusion" then
        if children.length ≠ 2 then some (.error .exclusionChildren)
        else evaluateExclusion ev rels objectID subject children
      else some (.error (.unknownRewriteTypeNamed type)) := by
  rw [← evaluateUnion_eq_scan, ← evaluateIntersection_eq_scan]
  rfl

/-- A node evaluated with a recursive call that answers at least as often answers at least
as often, with the same answers. -/
theorem evaluateUsersetRewrite_mono (ev ev2 : String → String → String → Option (Except Error Bool))
    (rels : List Relationship) (subject : String)
    (h : ∀ a b x, ev a b subject = some x → ev2 a b subject = some x) :
    ∀ (t : UsersetRewrite) (objectID : String) (x : Except Error Bool),
      evaluateUsersetRewrite ev rels objectID subject t = some x →
      evaluateUsersetRewrite ev2 rels objectID subject t = some x := by
  intro t
  induction t using UsersetRewrite.induct with
  | h type cu ttu children ih =>
    intro objectID x
    rw [evaluateUsersetRewrite_mk, evaluateUsersetRewrite_mk]
    split_ifs with h1 h2 h3 h4 h5 h6 h7 h8 h9
    · exact id
    · cases cu with
      | none => exact id
      | some c => exact h _ _ _
    · cases ttu with
      | none => exact id
      | some t => exact scanRelated_mono _ _ _ (fun a _ y hy => h _ _ _ hy) x
    · exact id
    · exact scanRelated_mono _ _ _ (fun c hc y hy => ih c hc objectID y hy) x
    · exact id
    · exact scanAll_mono _ _ _ (fun c hc y hy => ih c hc objectID y hy) x
    · exact id
    · have hlen : children.length = 2 := by omega
      obtain ⟨base, subtract, rfl⟩ := List.length_eq_two.mp hlen
      rw [evaluateExclusion_some_iff, evaluateExclusion_some_iff]
      have hb := ih base (List.mem_cons_self _ _) objectID
      have hs := ih subtract (List.mem_cons_of_mem _ (List.mem_cons_self _ _)) objectID
      rintro (⟨e, h1, rfl⟩ | ⟨h1, rfl⟩ | ⟨h1, ⟨e, h2, rfl⟩ | ⟨z, h2, rfl⟩⟩)
      · exact Or.inl ⟨e, hb _ h1, rfl⟩
      · exact Or.inr (Or.inl ⟨hb _ h1, rfl⟩)
      · exact Or.inr (Or.inr ⟨hb _ h1, Or.inl ⟨e, hs _ h2, rfl⟩⟩)
      · exact Or.inr (Or.inr ⟨hb _ h1, Or.inr ⟨z, hs _ h2, rfl⟩⟩)
    · exact id

/-- More fuel never changes an answer of `EvaluateUserset`. -/
theorem EvaluateUsersetFuel_succ_mono (schema : Schema) (rels : List Relationship)
    (subject : String) :
    ∀ (fuel : Nat) (objectID relation : String) (x : Except Error Bool),
      EvaluateUsersetFuel schema rels fuel objectID relation subject = some x →
      EvaluateUsersetFuel schema rels (fuel + 1) objectID relation subject = some x
  | 0, _, _, _ => by
    intro h
    cases h
  | fuel + 1, objectID, relation, x => by
    rcases EvaluateUsersetFuel_cases schema objectID relation with
      ⟨e, he⟩ | ⟨d, rel, hobj, hdef, hrel⟩
    · rw [he, he]
      exact id
    · cases hrw : rel.usersetRewrite with
      | none =>
        rw [EvaluateUsersetFuel_direct schema rels _ objectID relation subject d rel hobj hdef
          hrel hrw, EvaluateUsersetFuel_direct schema rels _ objectID relation subject d rel hobj
          hdef hrel hrw]
        exact id
      | some rewrite =>
        rw [EvaluateUsersetFuel_rewrite schema rels _ objectID relation subject d rel rewrite hobj
          hdef hrel hrw, EvaluateUsersetFuel_rewrite schema rels _ objectID relation subject d rel
          rewrite hobj hdef hrel hrw]
        exact evaluateUsersetRewrite_mono _ _ rels subject
          (fun a b y hy => EvaluateUsersetFuel_succ_mono schema rels subject fuel a b y hy)
          rewrite objectID x

theorem EvaluateUsersetFuel_mono (schema : Schema) (rels : List Relationship)
    (objectID relation subject : String) (x : Except Error Bool) (n m : Nat) (hnm : n ≤ m)
    (h : EvaluateUsersetFuel schema rels n objectID relation subject = some x) :
    EvaluateUsersetFuel schema rels m objectID relation subject = some x := by
  induction m with
  | zero =>
    have : n = 0 := by omega
    subst this
    exact h
  | succ m ih =>
    by_cases hn : n = m + 1
    · subst hn
      exact h
    · exact EvaluateUsersetFuel_succ_mono schema rels subject m objectID relation x
        (ih (by omega))

/-- The outcome of `EvaluateUserset` is unique: two recursion bounds that both give an answer
give the same answer. -/
theorem EvaluatesTo_unique (schema : Schema) (rels : List Relationship)
    (objectID relation subject : String) (x y : Except Error Bool)
    (hx : EvaluatesTo schema rels objectID relation subject x)
    (hy : EvaluatesTo schema rels objectID relation subject y) : x = y := by
  obtain ⟨n, hn⟩ := hx
  obtain ⟨m, hm⟩ := hy
  have h1 := EvaluateUsersetFuel_mono schema rels objectID relation subject x n (max n m)
    (le_max_left _ _) hn
  have h2 := EvaluateUsersetFuel_mono schema rels objectID relation subject y m (max n m)
    (le_max_right _ _) hm
  rw [h1] at h2
  cases h2
  rfl

theorem triple_eq_iff (t : Relationship) (r l u : String) :
    triple t = (r, l, u) ↔ t.resource = r ∧ t.relation = l ∧ t.subject = u := by
  simp [triple]

theorem rewriteSchema_document :
    ∃ d, rewriteSchema.GetDefinition "document" = .ok d ∧
      d.relations.lookup "owner" = some ⟨[⟨"user", ""⟩], none⟩ ∧
      d.relations.lookup "editor" = some ⟨[⟨"user", ""⟩],
        some (NewUnionRewrite [NewThisRewrite, NewComputedUsersetRewrite "owner"])⟩ ∧
      d.relations.lookup "viewer" = some ⟨[⟨"user", ""⟩, ⟨"group", "member"⟩],
        some (NewUnionRewrite [NewThisRewrite, NewComputedUsersetRewrite "editor",
          NewTupleToUsersetRewrite "parent" "viewer"])⟩ :=
  ⟨_, rfl, rfl, rfl, rfl⟩

/-- An answer without error needs a well-formed object identifier. -/
theorem colon_of_ok (schema : Schema) (rels : List Relationship) (fuel : Nat)
    (objectID relation subject : String) (b : Bool)
    (h : EvaluateUsersetFuel schema rels fuel objectID relation subject = some (.ok b)) :
    ':' ∈ objectID.data ∧ ∃ n, fuel = n + 1 := by
  cases fuel with
  | zero => cases h
  | succ n =>
    refine ⟨?_, n, rfl⟩
    by_contra hobj
    rw [EvaluateUsersetFuel_badObject schema rels n objectID relation subject hobj] at h
    cases h

/-- A union whose first child is `This` and whose second child is true is true. -/
theorem union_this_then_true (ev : String → String → String → Option (Except Error Bool))
    (rels : List Relationship) (objectID subject : String) (c : UsersetRewrite)
    (post : List UsersetRewrite)
    (hc : evaluateUsersetRewrite ev rels objectID subject c = some (.ok true)) :
    evaluateUsersetRewrite ev rels objectID subject (NewUnionRewrite (NewThisRewrite :: c :: post)) =
      some (.ok true) := by
  rw [NewUnionRewrite, evaluate_union, if_neg (by simp)]
  rw [scanRelated_true_iff]
  cases hb : rels.any (fun r => decide (r.resource = objectID) && decide (r.subject = subject)) with
  | true =>
    refine ⟨[], NewThisRewrite, c :: post, rfl, by simp, ?_⟩
    rw [NewThisRewrite, evaluate_this, hb]
  | false =>
    refine ⟨[NewThisRewrite], c, post, rfl, ?_, hc⟩
    intro y hy
    rw [List.mem_singleton] at hy
    rw [hy, NewThisRewrite, evaluate_this, hb]

/-- C29: under the default schema with the rewrite rules installed by
`UpdateDefinitionWithUsersetRewrites`, for every tuple list, every document identifier and
every subject: if `EvaluateUserset` returns true for `owner` it returns true for `editor`,
and if it returns true for `editor` it returns true for `viewer`. -/
theorem owners_are_editors_are_viewers (rels : List Relationship) (objectID subject : String)
    (hdoc : typeOf objectID = "document") :
    (EvaluatesTo rewriteSchema rels objectID "owner" subject (.ok true) →
      EvaluatesTo rewriteSchema rels objectID "editor" subject (.ok true)) ∧
    (EvaluatesTo rewriteSchema rels objectID "editor" subject (.ok true) →
      EvaluatesTo rewriteSchema rels objectID "viewer" subject (.ok true)) := by
  obtain ⟨d, hd, _, hed, hvi⟩ := rewriteSchema_document
  rw [← hdoc] at hd
  constructor
  · rintro ⟨fuel, h⟩
    obtain ⟨hobj, _⟩ := colon_of_ok _ _ _ _ _ _ _ h
    refine ⟨fuel + 1, ?_⟩
    rw [EvaluateUsersetFuel_rewrite rewriteSchema rels fuel objectID "editor" subject d _ _ hobj
      hd hed rfl]
    apply union_this_then_true
    rw [NewComputedUsersetRewrite, evaluate_computed]
    exact h
  · rintro ⟨fuel, h⟩
    obtain ⟨hobj, _⟩ := colon_of_ok _ _ _ _ _ _ _ h
    refine ⟨fuel + 1, ?_⟩
    rw [EvaluateUsersetFuel_rewrite rewriteSchema rels fuel objectID "viewer" subject d _ _ hobj
      hd hvi rfl]
    apply union_this_then_true
    rw [NewComputedUsersetRewrite, evaluate_computed]
    exact h

theorem owners_are_editors_are_viewers_witness :
    typeOf "document:report" = "document" ∧
    ((EvaluatesTo rewriteSchema
        (Store.InitializeWithSampleData (NewStore rewriteSchema) 0).relationships
        "document:report" "owner" "user:alice" (.ok true) →
      EvaluatesTo rewriteSchema
        (Store.InitializeWithSampleData (NewStore rewriteSchema) 0).relationships
        "document:report" "editor" "user:alice" (.ok true)) ∧
    (EvaluatesTo rewriteSchema
        (Store.InitializeWithSampleData (NewStore rewriteSchema) 0).relationships
        "document:report" "editor" "user:alice" (.ok true) →
      EvaluatesTo rewriteSchema
        (Store.InitializeWithSampleData (NewStore rewriteSchema) 0).relationships
        "document:report" "viewer" "user:alice" (.ok true))) ∧
    EvaluatesTo rewriteSchema
      (Store.InitializeWithSampleData (NewStore rewriteSchema) 0).relationships
      "document:report" "owner" "user:alice" (.ok true) :=
  ⟨by decide,
   owners_are_editors_are_viewers
     (Store.InitializeWithSampleData (NewStore rewriteSchema) 0).relationships
     "document:report" "user:alice" (by decide),
   ⟨1, by decide⟩⟩

/-- C27 (as stated, refuted): with the sample data of `InitializeWithSampleData`, the relation
`viewer` of `document` has no rewrite tree, the tuple `(document:report, viewer,
group:engineering)` is stored and `group:engineering` is in
`getGroupMemberships(group:frontend)`, so `viewer` occurs in
`getRelations(group:frontend, document:report)`; yet
`EvaluateUserset(document:report, viewer, group:frontend)` returns false. -/
theorem EvaluateUserset_skips_groups_of_groups :
    EvaluateUsersetFuel LoadDefaultSchema
      (Store.InitializeWithSampleData (NewStore LoadDefaultSchema) 0).relationships
      1 "document:report" "viewer" "group:frontend" = some (.ok false) ∧
    (getGroupMemberships
      (Store.InitializeWithSampleData (NewStore LoadDefaultSchema) 0).relationships
      "group:frontend" []).map (fun p => p.1) = some ["group:engineering"] ∧
    getRelations (Store.InitializeWithSampleData (NewStore LoadDefaultSchema) 0).relationships
      "group:frontend" "document:report" = some ["viewer"] := by
  decide

/-- C27 (amended): for a relation declared without a rewrite tree on a well-formed object,
`EvaluateUserset` returns a boolean without error, and it is true iff the tuple
`(object, relation, subject)` is stored, or the subject carries the prefix `user:` and a
tuple `(object, relation, G)` is stored for some `G` in `getGroupMemberships(subject)`. For a
subject with the prefix `user:` this is iff the relation occurs in
`getRelations(subject, object)`. -/
theorem EvaluateUserset_without_rewrite (schema : Schema) (rels : List Relationship)
    (fuel : Nat) (objectID relation subject : String) (d : Definition) (rel : Relation)
    (hobj : ':' ∈ objectID.data)
    (hdef : schema.GetDefinition (typeOf objectID) = .ok d)
    (hrel : d.relations.lookup relation = some rel) (hrw : rel.usersetRewrite = none) :
    ∃ b groups visited,
      EvaluateUsersetFuel schema rels (fuel + 1) objectID relation subject = some (.ok b) ∧
      getGroupMemberships rels subject [] = some (groups, visited) ∧
      (b = true ↔
        (∃ t ∈ rels, triple t = (objectID, relation, subject)) ∨
        (HasPrefix subject "user:" = true ∧
          ∃ g ∈ groups, ∃ t ∈ rels, triple t = (objectID, relation, g))) ∧
      (HasPrefix subject "user:" = true →
        (b = true ↔ ∃ held, getRelations rels subject objectID = some held ∧ relation ∈ held)) := by
  obtain ⟨b, hb, hiff⟩ := direct_check_spec schema rels fuel objectID relation subject d rel hobj
    hdef hrel hrw
  obtain ⟨g, w, hg⟩ := getGroupMemberships_total rels subject []
  have hmem := getGroupMemberships_mem rels subject g w hg
  obtain ⟨held, hheld, hspec⟩ := getRelations_spec rels subject objectID
  refine ⟨b, g, w, hb, hg, ?_, ?_⟩
  · rw [hiff]
    simp only [hmem]
  · intro hp
    rw [hiff]
    constructor
    · intro h
      refine ⟨held, hheld, (hspec relation).mpr ?_⟩
      rcases h with ⟨t, ht, h⟩ | ⟨_, x, hx, t, ht, h⟩
      · exact Or.inl ⟨t, ht, (triple_eq_iff _ _ _ _).mp h⟩
      · exact Or.inr ⟨x, hx, t, ht, (triple_eq_iff _ _ _ _).mp h⟩
    · rintro ⟨held2, h2, hin⟩
      rw [hheld] at h2
      cases h2
      rcases (hspec relation).mp hin with ⟨t, ht, h⟩ | ⟨x, hx, t, ht, h⟩
      · exact Or.inl ⟨t, ht, (triple_eq_iff _ _ _ _).mpr h⟩
      · exact Or.inr ⟨hp, x, hx, t, ht, (triple_eq_iff _ _ _ _).mpr h⟩

theorem EvaluateUserset_without_rewrite_witness :
    ':' ∈ "document:report".data ∧
    LoadDefaultSchema.GetDefinition (typeOf "document:report") = .ok docDef ∧
    docDef.relations.lookup "viewer" = some ⟨[⟨"user", ""⟩, ⟨"group", "member"⟩], none⟩ ∧
    ∃ b groups visited,
      EvaluateUsersetFuel LoadDefaultSchema
        (Store.InitializeWithSampleData (NewStore LoadDefaultSchema) 0).relationships
        (0 + 1) "document:report" "viewer" "user:dave" = some (.ok b) ∧
      getGroupMemberships
        (Store.InitializeWithSampleData (NewStore LoadDefaultSchema) 0).relationships
        "user:dave" [] = some (groups, visited) ∧
      (b = true ↔
        (∃ t ∈ (Store.InitializeWithSampleData (NewStore LoadDefaultSchema) 0).relationships,
          triple t = ("document:report", "viewer", "user:dave")) ∨
        (HasPrefix "user:dave" "user:" = true ∧
          ∃ g ∈ groups,
            ∃ t ∈ (Store.InitializeWithSampleData (NewStore LoadDefaultSchema) 0).relationships,
              triple t = ("document:report", "viewer", g))) ∧
      (HasPrefix "user:dave" "user:" = true →
        (b = true ↔ ∃ held,
          getRelations (Store.InitializeWithSampleData (NewStore LoadDefaultSchema) 0).relationships
            "user:dave" "document:report" = some held ∧ "viewer" ∈ held)) :=
  ⟨by decide, rfl, rfl,
   EvaluateUserset_without_rewrite LoadDefaultSchema
     (Store.InitializeWithSampleData (NewStore LoadDefaultSchema) 0).relationships
     0 "document:report" "viewer" "user:dave" docDef
     ⟨[⟨"user", ""⟩, ⟨"group", "member"⟩], none⟩ (by decide) rfl rfl rfl⟩

theorem mem_relatedObjects (rels : List Relationship) (objectID tupleRelation x : String) :
    x ∈ relatedObjects rels objectID tupleRelation ↔
      ∃ t ∈ rels, t.resource = objectID ∧ t.relation = tupleRelation ∧ t.subject = x := by
  simp only [relatedObjects, List.mem_map, List.mem_filter, Bool.and_eq_true,
    decide_eq_true_eq]
  constructor
  · rintro ⟨t, ⟨ht, h1, h2⟩, h3⟩
    exact ⟨t, ht, h1, h2, h3⟩
  · rintro ⟨t, ht, h1, h2, h3⟩
    exact ⟨t, ⟨ht, h1, h2⟩, h3⟩

/-- A scan whose answers are all booleans is true iff one of them is true. -/
theorem scanRelated_true_of_all_ok {α : Type} (ask : α → Option (Except Error Bool)) :
    ∀ (l : List α), (∀ y ∈ l, ∃ b, ask y = some (.ok b)) →
      (∃ x ∈ l, ask x = some (.ok true)) → scanRelated ask l = some (.ok true)
  | [], _, h => by
    obtain ⟨x, hx, _⟩ := h
    cases hx
  | a :: l, hall, h => by
    rw [scanRelated_cons]
    obtain ⟨b, hb⟩ := hall a (List.mem_cons_self _ _)
    cases b with
    | true => rw [hb]
    | false =>
      rw [hb]
      obtain ⟨x, hx, hxt⟩ := h
      rcases List.mem_cons.mp hx with rfl | hx
      · rw [hb] at hxt
        cases hxt
      · exact scanRelated_true_of_all_ok ask l (fun y hy => hall y (List.mem_cons_of_mem _ hy))
          ⟨x, hx, hxt⟩

/-- C21 (as stated, refuted): `NewUnionRewrite` and `NewIntersectionRewrite` called with no
child yield a node with zero children, and `UnmarshalJSON` accepts a `union` or
`intersection` object whose `child` array is empty, returning a node with zero children. -/
theorem empty_child_list_accepted :
    (NewUnionRewrite []).children = [] ∧
    (NewIntersectionRewrite []).children = [] ∧
    UnmarshalJSON (.obj [("union", .obj [("child", .arr [])])]) =
      some (.ok (NewUnionRewrite [])) ∧
    UnmarshalJSON (.obj [("intersection", .obj [("child", .arr [])])]) =
      some (.ok (NewIntersectionRewrite [])) :=
  ⟨rfl, rfl, rfl, rfl⟩

/-- C28 (as stated, refuted): in the store reached by `userFirstOps` the tuple
`(document:report, parent, folder:projects)` is stored and
`EvaluateUserset(folder:projects, viewer, user:eve)` is true, yet the node
`TupleToUserset{parent, viewer}` evaluated on `document:report` returns the error of the
related object `user:bob`, which is stored first. -/
theorem TupleToUserset_error_before_true :
    (∃ t ∈ (run (NewStore orderSchema) userFirstOps).relationships,
      t.resource = "document:report" ∧ t.relation = "parent" ∧
      EvaluateUsersetFuel orderSchema (run (NewStore orderSchema) userFirstOps).relationships 1
        t.subject "viewer" "user:eve" = some (.ok true)) ∧
    relatedObjects (run (NewStore orderSchema) userFirstOps).relationships
      "document:report" "parent" = ["user:bob", "folder:projects"] ∧
    evaluateUsersetRewrite
      (EvaluateUsersetFuel orderSchema (run (NewStore orderSchema) userFirstOps).relationships 1)
      (run (NewStore orderSchema) userFirstOps).relationships "document:report" "user:eve"
      (NewTupleToUsersetRewrite "parent" "viewer") =
        some (.error (.relationNotDefined "viewer" "user")) := by
  decide

/-- C28 (amended): a `TupleToUserset{rT, rC}` node evaluated on an object asks
`EvaluateUserset(X, rC, subject)` for the subjects `X` of the stored tuples
`(object, rT, X)` in stored order, and returns true iff one of them is true and all the ones
before it are false. So a true result gives a stored tuple `(object, rT, X)` with
`EvaluateUserset(X, rC, subject)` true; and such a tuple gives a true result when every one
of these calls returns without error. Under the default schema with rewrites, with
`(document:report, parent, folder:projects)` and `(folder:projects, viewer, user:eve)`
stored, `EvaluateUserset(document:report, viewer, user:eve)` is true. -/
theorem TupleToUserset_true_iff :
    (∀ (schema : Schema) (rels : List Relationship) (fuel : Nat) (objectID subject : String)
        (cu : Option ComputedUserset) (ttu : TupleToUserset) (children : List UsersetRewrite),
      (evaluateUsersetRewrite (EvaluateUsersetFuel schema rels fuel) rels objectID subject
          (.mk "tuple_to_userset" cu (some ttu) children) = some (.ok true) ↔
        ∃ pre x post,
          relatedObjects rels objectID ttu.tupleset.relation = pre ++ x :: post ∧
          (∀ y ∈ pre, EvaluateUsersetFuel schema rels fuel y ttu.computedUserset.relation
            subject = some (.ok false)) ∧
          EvaluateUsersetFuel schema rels fuel x ttu.computedUserset.relation subject =
            some (.ok true)) ∧
      (evaluateUsersetRewrite (EvaluateUsersetFuel schema rels fuel) rels objectID subject
          (.mk "tuple_to_userset" cu (some ttu) children) = some (.ok true) →
        ∃ t ∈ rels, t.resource = objectID ∧ t.relation = ttu.tupleset.relation ∧
          EvaluateUsersetFuel schema rels fuel t.subject ttu.computedUserset.relation subject =
            some (.ok true)) ∧
      ((∀ t ∈ rels, t.resource = objectID → t.relation = ttu.tupleset.relation →
          ∃ b, EvaluateUsersetFuel schema rels fuel t.subject ttu.computedUserset.relation
            subject = some (.ok b)) →
        (∃ t ∈ rels, t.resource = objectID ∧ t.relation = ttu.tupleset.relation ∧
          EvaluateUsersetFuel schema rels fuel t.subject ttu.computedUserset.relation subject =
            some (.ok true)) →
        evaluateUsersetRewrite (EvaluateUsersetFuel schema rels fuel) rels objectID subject
          (.mk "tuple_to_userset" cu (some ttu) children) = some (.ok true))) ∧
    EvaluatesTo rewriteSchema (run (NewStore rewriteSchema) parentFolderOps).relationships
      "document:report" "viewer" "user:eve" (.ok true) := by
  refine ⟨?_, ⟨3, by decide⟩⟩
  intro schema rels fuel objectID subject cu ttu children
  have hnode : evaluateUsersetRewrite (EvaluateUsersetFuel schema rels fuel) rels objectID
      subject (.mk "tuple_to_userset" cu (some ttu) children) =
      scanRelated (fun relatedObj =>
        EvaluateUsersetFuel schema rels fuel relatedObj ttu.computedUserset.relation subject)
        (relatedObjects rels objectID ttu.tupleset.relation) :=
    evaluate_tupleToUserset _ rels objectID subject cu ttu children
  rw [hnode]
  refine ⟨scanRelated_true_iff _ _, ?_, ?_⟩
  · intro h
    obtain ⟨pre, x, post, hl, _, hx⟩ := (scanRelated_true_iff _ _).mp h
    have hmem : x ∈ relatedObjects rels objectID ttu.tupleset.relation := by
      rw [hl]
      exact List.mem_append_right _ (List.mem_cons_self _ _)
    obtain ⟨t, ht, h1, h2, h3⟩ := (mem_relatedObjects _ _ _ _).mp hmem
    exact ⟨t, ht, h1, h2, by rw [h3]; exact hx⟩
  · intro hall hex
    apply scanRelated_true_of_all_ok
    · intro y hy
      obtain ⟨t, ht, h1, h2, h3⟩ := (mem_relatedObjects _ _ _ _).mp hy
      rw [← h3]
      exact hall t ht h1 h2
    · obtain ⟨t, ht, h1, h2, h3⟩ := hex
      exact ⟨t.subject, (mem_relatedObjects _ _ _ _).mpr ⟨t, ht, h1, h2, rfl⟩, h3⟩

theorem mem_map_triple (rels : List Relationship) (r l u : String) :
    (r, l, u) ∈ rels.map triple ↔
      ∃ t ∈ rels, t.resource = r ∧ t.relation = l ∧ t.subject = u := by
  simp only [List.mem_map, triple_eq_iff]

theorem memberEdge_congr (rels rels2 : List Relationship)
    (hmem : ∀ k, k ∈ rels.map triple → k ∈ rels2.map triple) (x g : String)
    (h : memberEdge rels x g) : memberEdge rels2 x g :=
  ⟨h.1, (mem_map_triple rels2 _ _ _).mp (hmem _ ((mem_map_triple rels _ _ _).mpr h.2))⟩

theorem InGroup_congr (rels rels2 : List Relationship)
    (hmem : ∀ k, k ∈ rels.map triple → k ∈ rels2.map triple) (x g : String)
    (h : InGroup rels x g) : InGroup rels2 x g := by
  induction h with
  | direct e => exact InGroup.direct (memberEdge_congr rels rels2 hmem _ _ e)
  | nested _ e ih => exact InGroup.nested ih (memberEdge_congr rels rels2 hmem _ _ e)

/-- Two scans over lists with the same elements, whose answers agree when both are booleans,
agree when both return a boolean. -/
theorem scanRelated_agree {α : Type} (ask ask2 : α → Option (Except Error Bool))
    (l l2 : List α) (hl : ∀ a, a ∈ l ↔ a ∈ l2)
    (h : ∀ a ∈ l, ∀ x y, ask a = some (.ok x) → ask2 a = some (.ok y) → x = y)
    (x y : Bool) (hx : scanRelated ask l = some (.ok x))
    (hy : scanRelated ask2 l2 = some (.ok y)) : x = y := by
  cases x with
  | true =>
    cases y with
    | true => rfl
    | false =>
      obtain ⟨pre, a, post, rfl, _, ha⟩ := (scanRelated_true_iff ask l).mp hx
      have hal : a ∈ pre ++ a :: post := List.mem_append_right _ (List.mem_cons_self _ _)
      exact h a hal _ _ ha ((scanRelated_false_iff ask2 l2).mp hy a ((hl a).mp hal))
  | false =>
    cases y with
    | false => rfl
    | true =>
      obtain ⟨pre, a, post, rfl, _, ha⟩ := (scanRelated_true_iff ask2 l2).mp hy
      have hal : a ∈ pre ++ a :: post := List.mem_append_right _ (List.mem_cons_self _ _)
      exact h a ((hl a).mpr hal) _ _ ((scanRelated_false_iff ask l).mp hx a ((hl a).mpr hal)) ha

theorem scanAll_agree {α : Type} (ask ask2 : α → Option (Except Error Bool))
    (l l2 : List α) (hl : ∀ a, a ∈ l ↔ a ∈ l2)
    (h : ∀ a ∈ l, ∀ x y, ask a = some (.ok x) → ask2 a = some (.ok y) → x = y)
    (x y : Bool) (hx : scanAll ask l = some (.ok x))
    (hy : scanAll ask2 l2 = some (.ok y)) : x = y := by
  cases x with
  | true =>
    cases y with
    | true => rfl
    | false =>
      obtain ⟨pre, a, post, rfl, _, ha⟩ :=
        (scanAll_decided ask2 (.ok false) (by intro h; cases h) l2).mp hy
      have hal : a ∈ pre ++ a :: post := List.mem_append_right _ (List.mem_cons_self _ _)
      exact h a ((hl a).mpr hal) _ _ ((scanAll_true_iff ask l).mp hx a ((hl a).mpr hal)) ha
  | false =>
    cases y with
    | false => rfl
    | true =>
      obtain ⟨pre, a, post, rfl, _, ha⟩ :=
        (scanAll_decided ask (.ok false) (by intro h; cases h) l).mp hx
      have hal : a ∈ pre ++ a :: post := List.mem_append_right _ (List.mem_cons_self _ _)
      exact h a hal _ _ ha ((scanAll_true_iff ask2 l2).mp hy a ((hl a).mp hal))

theorem any_this_congr (rels rels2 : List Relationship)
    (hmem : ∀ k, k ∈ rels.map triple ↔ k ∈ rels2.map triple) (objectID subject : String) :
    rels.any (fun r => decide (r.resource = objectID) && decide (r.subject = subject)) =
      rels2.any (fun r => decide (r.resource = objectID) && decide (r.subject = subject)) := by
  rw [Bool.eq_iff_iff]
  simp only [List.any_eq_true, Bool.and_eq_true, decide_eq_true_eq]
  constructor
  · rintro ⟨t, ht, h1, h2⟩
    obtain ⟨t2, ht2, h3, _, h5⟩ := (mem_map_triple rels2 _ _ _).mp
      ((hmem _).mp ((mem_map_triple rels t.resource t.relation t.subject).mpr ⟨t, ht, rfl, rfl, rfl⟩))
    exact ⟨t2, ht2, h3.trans h1, h5.trans h2⟩
  · rintro ⟨t, ht, h1, h2⟩
    obtain ⟨t2, ht2, h3, _, h5⟩ := (mem_map_triple rels _ _ _).mp
      ((hmem _).mpr ((mem_map_triple rels2 t.resource t.relation t.subject).mpr ⟨t, ht, rfl, rfl, rfl⟩))
    exact ⟨t2, ht2, h3.trans h1, h5.trans h2⟩

theorem relatedObjects_congr (rels rels2 : List Relationship)
    (hmem : ∀ k, k ∈ rels.map triple ↔ k ∈ rels2.map triple) (objectID tupleRelation : String)
    (x : String) :
    x ∈ relatedObjects rels objectID tupleRelation ↔
      x ∈ relatedObjects rels2 objectID tupleRelation := by
  rw [mem_relatedObjects, mem_relatedObjects, ← mem_map_triple, ← mem_map_triple]
  exact hmem _

/-- The boolean answers of a node on two tuple lists with the same tuples agree, when the
boolean answers of the recursive calls agree. -/
theorem evaluateUsersetRewrite_agree
    (ev ev2 : String → String → String → Option (Except Error Bool))
    (rels rels2 : List Relationship) (subject : String)
    (hmem : ∀ k, k ∈ rels.map triple ↔ k ∈ rels2.map triple)
    (h : ∀ a b x y, ev a b subject = some (.ok x) → ev2 a b subject = some (.ok y) → x = y) :
    ∀ (t : UsersetRewrite) (objectID : String) (x y : Bool),
      evaluateUsersetRewrite ev rels objectID subject t = some (.ok x) →
      evaluateUsersetRewrite ev2 rels2 objectID subject t = some (.ok y) → x = y := by
  intro t
  induction t using UsersetRewrite.induct with
  | h type cu ttu children ih =>
    intro objectID x y
    rw [evaluateUsersetRewrite_mk, evaluateUsersetRewrite_mk]
    split_ifs with h1 h2 h3 h4 h5 h6 h7 h8 h9
    · rw [any_this_congr rels rels2 hmem]
      intro hx hy
      rw [hx] at hy
      cases hy
      rfl
    · cases cu with
      | none =>
        intro hx
        cases hx
      | some c => exact h _ _ _ _
    · cases ttu with
      | none =>
        intro hx
        cases hx
      | some t =>
        exact scanRelated_agree _ _ _ _
          (relatedObjects_congr rels rels2 hmem objectID t.tupleset.relation)
          (fun a _ x y hx hy => h _ _ _ _ hx hy) x y
    · intro hx
      cases hx
    · exact scanRelated_agree _ _ _ _ (fun _ => Iff.rfl)
        (fun c hc x y hx hy => ih c hc objectID x y hx hy) x y
    · intro hx
      cases hx
    · exact scanAll_agree _ _ _ _ (fun _ => Iff.rfl)
        (fun c hc x y hx hy => ih c hc objectID x y hx hy) x y
    · intro hx
      cases hx
    · have hlen : children.length = 2 := by omega
      obtain ⟨base, subtract, rfl⟩ := List.length_eq_two.mp hlen
      rw [evaluateExclusion_some_iff, evaluateExclusion_some_iff]
      have hb := ih base (List.mem_cons_self _ _) objectID
      have hs := ih subtract (List.mem_cons_of_mem _ (List.mem_cons_self _ _)) objectID
      rintro (⟨e, _, h1⟩ | ⟨h1, h2⟩ | ⟨h1, ⟨e, _, h2⟩ | ⟨z, h2, h3⟩⟩)
      · cases h1
      · rintro (⟨e, _, h4⟩ | ⟨_, h4⟩ | ⟨h3, ⟨e, _, h4⟩ | ⟨z, _, _⟩⟩)
        · cases h4
        · cases h2
          cases h4
          rfl
        · cases h4
        · exact absurd (hb _ _ h1 h3) (by decide)
      · cases h2
      · rintro (⟨e, _, h4⟩ | ⟨h4, _⟩ | ⟨_, ⟨e, _, h5⟩ | ⟨z2, h5, h6⟩⟩)
        · cases h4
        · exact absurd (hb _ _ h1 h4) (by decide)
        · cases h5
        · cases h3
          cases h6
          rw [hs _ _ h2 h5]
    · intro hx
      cases hx

/-- The boolean answers of `EvaluateUserset` on two tuple lists with the same tuples agree,
whatever the recursion bounds. -/
theorem EvaluateUsersetFuel_agree (schema : Schema) (rels rels2 : List Relationship)
    (subject : String) (hmem : ∀ k, k ∈ rels.map triple ↔ k ∈ rels2.map triple) :
    ∀ (n m : Nat) (objectID relation : String) (x y : Bool),
      EvaluateUsersetFuel schema rels n objectID relation subject = some (.ok x) →
      EvaluateUsersetFuel schema rels2 m objectID relation subject = some (.ok y) → x = y
  | 0, _, _, _, _, _ => by
    intro hx
    cases hx
  | _ + 1, 0, _, _, _, _ => by
    intro _ hy
    cases hy
  | n + 1, m + 1, objectID, relation, x, y => by
    rcases EvaluateUsersetFuel_cases schema objectID relation with
      ⟨e, he⟩ | ⟨d, rel, hobj, hdef, hrel⟩
    · rw [he]
      intro hx
      cases hx
    · cases hrw : rel.usersetRewrite with
      | none =>
        obtain ⟨b, hb, hiff⟩ := direct_check_spec schema rels n objectID relation subject d rel
          hobj hdef hrel hrw
        obtain ⟨b2, hb2, hiff2⟩ := direct_check_spec schema rels2 m objectID relation subject d
          rel hobj hdef hrel hrw
        rw [hb, hb2]
        intro hx hy
        cases hx
        cases hy
        rw [Bool.eq_iff_iff, hiff, hiff2]
        simp only [triple_eq_iff, ← mem_map_triple, hmem]
        have hg : ∀ g, InGroup rels subject g ↔ InGroup rels2 subject g := fun g =>
          ⟨InGroup_congr rels rels2 (fun k hk => (hmem k).mp hk) _ _,
           InGroup_congr rels2 rels (fun k hk => (hmem k).mpr hk) _ _⟩
        simp only [hg]
      | some rewrite =>
        rw [EvaluateUsersetFuel_rewrite schema rels n objectID relation subject d rel rewrite hobj
          hdef hrel hrw, EvaluateUsersetFuel_rewrite schema rels2 m objectID relation subject d rel
          rewrite hobj hdef hrel hrw]
        exact evaluateUsersetRewrite_agree _ _ rels rels2 subject hmem
          (fun a b x y hx hy =>
            EvaluateUsersetFuel_agree schema rels rels2 subject hmem n m a b x y hx hy)
          rewrite objectID x y

/-- C23 (as stated, refuted): the stores reached by `folderFirstOps` and by `userFirstOps`
hold the same three tuples, in different orders; `EvaluateUserset(document:report, viewer,
user:eve)` returns true without error on the first and an error on the second. -/
theorem EvaluateUserset_depends_on_order :
    ((run (NewStore orderSchema) folderFirstOps).relationships.map triple).Perm
      ((run (NewStore orderSchema) userFirstOps).relationships.map triple) ∧
    EvaluateUsersetFuel orderSchema (run (NewStore orderSchema) folderFirstOps).relationships 2
      "document:report" "viewer" "user:eve" = some (.ok true) ∧
    EvaluateUsersetFuel orderSchema (run (NewStore orderSchema) userFirstOps).relationships 2
      "document:report" "viewer" "user:eve" =
        some (.error (.relationNotDefined "viewer" "user")) := by
  decide

/-- C23 (amended): for every schema, object, relation and subject, and every two tuple lists
whose tuples are permutations of each other, if `EvaluateUserset(object, relation, subject)`
returns without error on both lists then it returns the same boolean on both. -/
theorem EvaluateUserset_decision_order_independent (schema : Schema)
    (rels rels2 : List Relationship) (objectID relation subject : String) (b b2 : Bool)
    (hperm : (rels.map triple).Perm (rels2.map triple))
    (h1 : EvaluatesTo schema rels objectID relation subject (.ok b))
    (h2 : EvaluatesTo schema rels2 objectID relation subject (.ok b2)) : b = b2 := by
  obtain ⟨n, hn⟩ := h1
  obtain ⟨m, hm⟩ := h2
  exact EvaluateUsersetFuel_agree schema rels rels2 subject (fun k => hperm.mem_iff) n m
    objectID relation b b2 hn hm

theorem EvaluateUserset_decision_order_independent_witness :
    ((run (NewStore rewriteSchema) parentFolderOps).relationships.map triple).Perm
      ((run (NewStore rewriteSchema)
        [.add "folder:projects" "viewer" "user:eve" 1,
         .add "document:report" "parent" "folder:projects" 2]).relationships.map triple) ∧
    EvaluatesTo rewriteSchema (run (NewStore rewriteSchema) parentFolderOps).relationships
      "document:report" "viewer" "user:eve" (.ok true) ∧
    EvaluatesTo rewriteSchema
      (run (NewStore rewriteSchema)
        [.add "folder:projects" "viewer" "user:eve" 1,
         .add "document:report" "parent" "folder:projects" 2]).relationships
      "document:report" "viewer" "user:eve" (.ok true) ∧
    true = true :=
  ⟨by decide, ⟨3, by decide⟩, ⟨3, by decide⟩,
   EvaluateUserset_decision_order_independent rewriteSchema
     (run (NewStore rewriteSchema) parentFolderOps).relationships
     (run (NewStore rewriteSchema)
        [.add "folder:projects" "viewer" "user:eve" 1,
         .add "document:report" "parent" "folder:projects" 2]).relationships
     "document:report" "viewer" "user:eve" true true (by decide) ⟨3, by decide⟩ ⟨3, by decide⟩⟩

theorem perm_cons_eraseIdx {α : Type} :
    ∀ (l : List α) (i : Nat) (hi : i < l.length), l.Perm (l[i] :: l.eraseIdx i)
  | [], _, h => by simp at h
  | a :: l, 0, _ => by simp
  | a :: l, i + 1, h => by
    have hi : i < l.length := by simpa using h
    have ih := perm_cons_eraseIdx l i hi
    simp only [List.getElem_cons_succ, List.eraseIdx_cons_succ]
    exact (List.Perm.cons a ih).trans (List.Perm.swap _ a _)

theorem swapRemove_getElem? (rs : List Relationship) (i : Nat) (hi : i < rs.length) (j : Nat)
    (hj : j < rs.length - 1) :
    (swapRemove rs i)[j]? = if j = i then rs.getLast? else rs[j]? := by
  unfold swapRemove
  cases hl : rs.getLast? with
  | none =>
    rw [List.getLast?_eq_none_iff] at hl
    subst hl
    simp at hi
  | some last =>
    dsimp only
    rw [List.dropLast_eq_take, List.getElem?_take_of_lt (by simpa using hj), List.getElem?_set]
    by_cases h : i = j
    · subst h
      simp [hi]
    · rw [if_neg h, if_neg (fun h2 => h h2.symm)]

theorem swapRemove_length (rs : List Relationship) (i : Nat) (hi : i < rs.length) :
    (swapRemove rs i).length + 1 = rs.length := by
  have h := (swapRemove_perm rs i hi).length_eq
  rw [List.length_eraseIdx_of_lt hi] at h
  omega

/-- C31: after a successful `RemoveRelationship(r, l, u)` the stored tuples, each with its
token and timestamp, are the tuples stored before minus one tuple whose triple is
`(r, l, u)`, as multisets; only the order can change: the slot of the removed tuple (the
first one with that triple) holds the tuple that was last, every other slot but the last is
unchanged, and the list is one shorter. -/
theorem RemoveRelationship_removes_one (s : Store) (r l u : String)
    (hok : (s.RemoveRelationship r l u).1 = .ok ()) :
    ∃ t, triple t = (r, l, u) ∧
      s.relationships.Perm (t :: (s.RemoveRelationship r l u).2.relationships) ∧
      (s.RemoveRelationship r l u).2.relationships.length + 1 = s.relationships.length ∧
      s.relationships[s.relationships.findIdx (sameTriple r l u)]? = some t ∧
      ∀ j, j < (s.RemoveRelationship r l u).2.relationships.length →
        (s.RemoveRelationship r l u).2.relationships[j]? =
          if j = s.relationships.findIdx (sameTriple r l u) then s.relationships.getLast?
          else s.relationships[j]? := by
  rcases remove_cases s r l u with ⟨hi, htr, h1⟩ | ⟨_, h1⟩
  · rw [h1]
    dsimp only
    have hlen := swapRemove_length s.relationships _ hi
    refine ⟨s.relationships[s.relationships.findIdx (sameTriple r l u)], htr, ?_, hlen,
      List.getElem?_eq_getElem hi, ?_⟩
    · exact (perm_cons_eraseIdx s.relationships _ hi).trans
        (List.Perm.cons _ (swapRemove_perm s.relationships _ hi).symm)
    · intro j hj
      exact swapRemove_getElem? s.relationships _ hi j (by omega)
  · rw [h1] at hok
    cases hok

theorem RemoveRelationship_removes_one_witness :
    ((Store.InitializeWithSampleData (NewStore LoadDefaultSchema) 0).RemoveRelationship
      "document:report" "editor" "user:bob").1 = .ok () ∧
    ∃ t, triple t = ("document:report", "editor", "user:bob") ∧
      (Store.InitializeWithSampleData (NewStore LoadDefaultSchema) 0).relationships.Perm
        (t :: ((Store.InitializeWithSampleData (NewStore LoadDefaultSchema) 0).RemoveRelationship
          "document:report" "editor" "user:bob").2.relationships) ∧
      ((Store.InitializeWithSampleData (NewStore LoadDefaultSchema) 0).RemoveRelationship
          "document:report" "editor" "user:bob").2.relationships.length + 1 =
        (Store.InitializeWithSampleData (NewStore LoadDefaultSchema) 0).relationships.length ∧
      (Store.InitializeWithSampleData (NewStore LoadDefaultSchema) 0).relationships[
        (Store.InitializeWithSampleData (NewStore LoadDefaultSchema) 0).relationships.findIdx
          (sameTriple "document:report" "editor" "user:bob")]? = some t ∧
      ∀ j, j < ((Store.InitializeWithSampleData (NewStore LoadDefaultSchema) 0).RemoveRelationship
            "document:report" "editor" "user:bob").2.relationships.length →
        ((Store.InitializeWithSampleData (NewStore LoadDefaultSchema) 0).RemoveRelationship
            "document:report" "editor" "user:bob").2.relationships[j]? =
          if j =
            (Store.InitializeWithSampleData (NewStore LoadDefaultSchema) 0).relationships.findIdx
              (sameTriple "document:report" "editor" "user:bob")
          then
            (Store.InitializeWithSampleData (NewStore LoadDefaultSchema) 0).relationships.getLast?
          else (Store.InitializeWithSampleData (NewStore LoadDefaultSchema) 0).relationships[j]? :=
  ⟨by decide,
   RemoveRelationship_removes_one (Store.InitializeWithSampleData (NewStore LoadDefaultSchema) 0)
     "document:report" "editor" "user:bob" (by decide)⟩

theorem wrapInt64_of_range (n : Int) (h1 : -9223372036854775808 ≤ n)
    (h2 : n < 9223372036854775808) : wrapInt64 n = n := by
  unfold wrapInt64
  omega

theorem wrapInt64_add (a b : Int) : wrapInt64 (wrapInt64 a + b) = wrapInt64 (a + b) := by
  unfold wrapInt64
  omega

theorem wrapInt64_range (n : Int) :
    -9223372036854775808 ≤ wrapInt64 n ∧ wrapInt64 n < 9223372036854775808 := by
  unfold wrapInt64
  omega

/-- While the counter does not wrap around, the tokens minted by a history carry strictly
increasing numbers, all of them from the counter at the start up to, and not including, the
counter at the end. -/
theorem mintedTokens_bounded (ops : List Op) :
    ∀ (s : Store), 0 ≤ s.changeNumber →
      s.changeNumber + (ops.length : Int) < 9223372036854775808 →
      ∃ ns : List Int,
        mintedTokens s ops = ns.map (fun n => "zk_" ++ formatInt n) ∧
        ns.Pairwise (fun a b => a < b) ∧
        (∀ n ∈ ns, s.changeNumber ≤ n ∧ n < (run s ops).changeNumber) ∧
        s.changeNumber ≤ (run s ops).changeNumber := by
  induction ops with
  | nil => intro s _ _; exact ⟨[], rfl, List.Pairwise.nil, by simp, le_refl _⟩
  | cons op ops ih =>
    intro s h0 hb
    have hb2 : s.changeNumber + (ops.length : Int) + 1 < 9223372036854775808 := by
      simpa [add_assoc] using hb
    have hsame : ∃ ns : List Int,
        mintedTokens s ops = ns.map (fun n => "zk_" ++ formatInt n) ∧
        ns.Pairwise (fun a b => a < b) ∧
        (∀ n ∈ ns, s.changeNumber ≤ n ∧ n < (run s ops).changeNumber) ∧
        s.changeNumber ≤ (run s ops).changeNumber := ih s h0 (by omega)
    have hwrap : wrapInt64 (s.changeNumber + 1) = s.changeNumber + 1 :=
      wrapInt64_of_range _ (by omega) (by omega)
    cases op with
    | add r l u now =>
      rw [run_cons]
      simp only [step]
      rcases add_cases s r l u now with ⟨_, h⟩ | ⟨_, _, h⟩ | ⟨_, _, _, h⟩ |
        ⟨_, _, _, t, hf, h⟩ | ⟨_, _, _, hf, h⟩
      · obtain ⟨ns, h1, h2⟩ := hsame
        exact ⟨ns, by simp only [mintedTokens, h, h1], by rw [h]; exact h2⟩
      · obtain ⟨ns, h1, h2⟩ := hsame
        exact ⟨ns, by simp only [mintedTokens, h, h1], by rw [h]; exact h2⟩
      · obtain ⟨ns, h1, h2⟩ := hsame
        refine ⟨ns, ?_, ?_⟩
        · rcases h with h | h | h <;> simp only [mintedTokens, h, h1]
        · rcases h with h | h | h <;> rw [h] <;> exact h2
      · obtain ⟨ns, h1, h2⟩ := hsame
        have hany : s.relationships.any (sameTriple r l u) = true :=
          List.any_eq_true.mpr ⟨t, List.mem_of_find?_eq_some hf, List.find?_some hf⟩
        exact ⟨ns, by simp only [mintedTokens, h, hany, if_true, h1], by rw [h]; exact h2⟩
      · have hins : (inserted s r l u now).changeNumber = s.changeNumber + 1 := hwrap
        obtain ⟨ns, h1, h2, h3, h4⟩ := ih (inserted s r l u now) (by omega) (by omega)
        have hany : ¬ s.relationships.any (sameTriple r l u) = true := by
          intro hc
          obtain ⟨t, ht, hp⟩ := List.any_eq_true.mp hc
          exact List.find?_eq_none.mp hf t ht hp
        refine ⟨s.changeNumber :: ns, ?_, ?_, ?_, ?_⟩
        · simp only [mintedTokens, h, hany, if_false, h1, List.map_cons]
          rfl
        · exact List.pairwise_cons.mpr ⟨fun n hn => by have := (h3 n hn).1; omega, h2⟩
        · rw [h]
          dsimp only
          intro n hn
          rcases List.mem_cons.mp hn with rfl | hn
          · exact ⟨le_refl _, by omega⟩
          · have := h3 n hn
            exact ⟨by omega, this.2⟩
        · rw [h]
          dsimp only
          omega
    | remove r l u =>
      rw [run_cons]
      simp only [step]
      rcases remove_cases s r l u with ⟨_, _, h⟩ | ⟨_, h⟩
      · have hrem : (s.RemoveRelationship r l u).2.changeNumber = s.changeNumber + 1 := by
          rw [h]
          exact hwrap
        obtain ⟨ns, h1, h2, h3, h4⟩ := ih (s.RemoveRelationship r l u).2 (by omega) (by omega)
        refine ⟨ns, by simp only [mintedTokens, h1], h2, ?_, by omega⟩
        intro n hn
        have := h3 n hn
        exact ⟨by omega, this.2⟩
      · obtain ⟨ns, h1, h2⟩ := hsame
        exact ⟨ns, by simp only [mintedTokens, h, h1], by rw [h]; exact h2⟩

theorem mintedTokens_shortlex (schema : Schema) (ops : List Op)
    (hlen : ops.length < 9223372036854775807) :
    (mintedTokens (NewStore schema) ops).Pairwise shortlexLt := by
  obtain ⟨ns, h1, h2, h3, _⟩ := mintedTokens_bounded ops (NewStore schema)
    (by simp only [NewStore]; omega) (by simp only [NewStore]; omega)
  rw [h1, List.pairwise_map]
  refine List.Pairwise.imp_of_mem ?_ h2
  intro a b ha _ hab
  have h0 : (1 : Int) ≤ a := (h3 a ha).1
  exact token_shortlex a b (by omega) hab

theorem add_on_empty (c : Int) (now : Nat) :
    (⟨[], LoadDefaultSchema, c⟩ : Store).AddRelationship "document:report" "owner" "user:alice"
        now =
      (.ok ("zk_" ++ formatInt c),
        ⟨[⟨"document:report", "owner", "user:alice", "zk_" ++ formatInt c, now⟩],
          LoadDefaultSchema, wrapInt64 (c + 1)⟩) :=
  rfl

theorem remove_single (c : Int) (tok : String) (now : Nat) :
    (⟨[⟨"document:report", "owner", "user:alice", tok, now⟩], LoadDefaultSchema, c⟩ :
        Store).RemoveRelationship "document:report" "owner" "user:alice" =
      (.ok (), ⟨[], LoadDefaultSchema, wrapInt64 (c + 1)⟩) :=
  rfl

theorem run_addRemoveOps :
    ∀ (k : Nat) (c : Int),
      run ⟨[], LoadDefaultSchema, wrapInt64 c⟩ (addRemoveOps k) =
        ⟨[], LoadDefaultSchema, wrapInt64 (c + 2 * (k : Int))⟩
  | 0, c => by simp [addRemoveOps, run]
  | k + 1, c => by
    rw [addRemoveOps, run_cons, run_cons]
    simp only [step]
    rw [add_on_empty]
    dsimp only
    rw [remove_single]
    dsimp only
    rw [wrapInt64_add, add_assoc, wrapInt64_add, run_addRemoveOps k (c + (1 + 1))]
    congr 2
    push_cast
    omega

theorem mintedTokens_addRemoveOps (rest : List Op) :
    ∀ (k : Nat) (c : Int),
      mintedTokens ⟨[], LoadDefaultSchema, wrapInt64 c⟩ (addRemoveOps (k + 1) ++ rest) =
        ("zk_" ++ formatInt (wrapInt64 c)) ::
          mintedTokens ⟨[], LoadDefaultSchema, wrapInt64 (c + 2)⟩ (addRemoveOps k ++ rest) := by
  intro k c
  rw [addRemoveOps, List.cons_append, List.cons_append, mintedTokens]
  rw [add_on_empty]
  dsimp only
  rw [mintedTokens, remove_single]
  dsimp only
  rw [wrapInt64_add, add_assoc, wrapInt64_add]
  simp only [List.any_nil, Bool.false_eq_true, if_false]
  rfl

theorem mintedTokens_addRemoveOps_last :
    ∀ (k : Nat) (c : Int), ∃ ts : List String,
      mintedTokens ⟨[], LoadDefaultSchema, wrapInt64 c⟩
          (addRemoveOps k ++ [.add "document:report" "owner" "user:alice" 1]) =
        ts ++ ["zk_" ++ formatInt (wrapInt64 (c + 2 * (k : Int)))]
  | 0, c => by
    refine ⟨[], ?_⟩
    rw [addRemoveOps, List.nil_append, mintedTokens, add_on_empty]
    simp [mintedTokens]
  | k + 1, c => by
    obtain ⟨ts, h⟩ := mintedTokens_addRemoveOps_last k (c + 2)
    refine ⟨("zk_" ++ formatInt (wrapInt64 c)) :: ts, ?_⟩
    have hk : c + 2 + 2 * (k : Int) = c + 2 * ((k + 1 : Nat) : Int) := by
      push_cast
      omega
    rw [mintedTokens_addRemoveOps, h, List.cons_append, hk]

/-- C6 (as stated, refuted): the change counter is an `int64` that wraps around. In the
history `recycleOps` (the tuple is stored and removed `2^63` times, then stored once more)
the first new-tuple add mints `zk_1` and the last new-tuple add, `2^64` successful mutations
later, mints `zk_1` again. -/
theorem minted_token_recycled :
    ∃ middle : List String,
      mintedTokens (NewStore LoadDefaultSchema) recycleOps = "zk_1" :: (middle ++ ["zk_1"]) := by
  have h1 := mintedTokens_addRemoveOps [.add "document:report" "owner" "user:alice" 1]
    9223372036854775807 1
  obtain ⟨ts, h2⟩ := mintedTokens_addRemoveOps_last 9223372036854775807 (1 + 2)
  rw [h2] at h1
  have e1 : wrapInt64 1 = 1 := by decide
  have e2 : wrapInt64 (1 + 2 + 2 * ((9223372036854775807 : Nat) : Int)) = 1 := by decide
  have e3 : "zk_" ++ formatInt 1 = "zk_1" := by decide
  rw [e2, e1, e3] at h1
  exact ⟨ts, h1⟩

/-- C6 (amended): in every sequence of fewer than `2^63 - 1` calls on a store created by
`NewStore`, the tokens minted for new tuples are `zk_N` for strictly increasing counters `N`
(in issue order), so that no token value is minted twice. -/
theorem minted_tokens_strictly_increasing (schema : Schema) (ops : List Op)
    (hlen : ops.length < 9223372036854775807) :
    ∃ ns : List Int,
      mintedTokens (NewStore schema) ops = ns.map (fun n => "zk_" ++ formatInt n) ∧
      ns.Pairwise (fun a b => a < b) ∧
      (mintedTokens (NewStore schema) ops).Nodup := by
  obtain ⟨ns, h1, h2, _⟩ := mintedTokens_bounded ops (NewStore schema)
    (by simp only [NewStore]; omega) (by simp only [NewStore]; omega)
  exact ⟨ns, h1, h2,
    (mintedTokens_shortlex schema ops hlen).imp (fun h => shortlexLt_ne _ _ h)⟩

theorem minted_tokens_strictly_increasing_witness :
    tenAdds.length < 9223372036854775807 ∧
    ∃ ns : List Int,
      mintedTokens (NewStore LoadDefaultSchema) tenAdds =
        ns.map (fun n => "zk_" ++ formatInt n) ∧
      ns.Pairwise (fun a b => a < b) ∧
      (mintedTokens (NewStore LoadDefaultSchema) tenAdds).Nodup :=
  ⟨by decide, minted_tokens_strictly_increasing LoadDefaultSchema tenAdds (by decide)⟩

/-- C7 (amended): in every sequence of fewer than `2^63 - 1` calls on a store created by
`NewStore`, any two minted tokens are ordered by issue order under the
length-then-lexicographic comparison of strings. -/
theorem minted_tokens_shortlex_increasing (schema : Schema) (ops : List Op)
    (hlen : ops.length < 9223372036854775807) :
    (mintedTokens (NewStore schema) ops).Pairwise
      (fun s t => s.length < t.length ∨ (s.length = t.length ∧ stringLt s t)) :=
  mintedTokens_shortlex schema ops hlen

theorem minted_tokens_shortlex_increasing_witness :
    tenAdds.length < 9223372036854775807 ∧
    (mintedTokens (NewStore LoadDefaultSchema) tenAdds).Pairwise
      (fun s t => s.length < t.length ∨ (s.length = t.length ∧ stringLt s t)) :=
  ⟨by decide, minted_tokens_shortlex_increasing LoadDefaultSchema tenAdds (by decide)⟩

/-- C12 (as stated, refuted): after `2^62 - 1` rounds of storing and removing a tuple the
store created by `NewStore` is empty and its counter is 9223372036854775807; the next
`AddRelationship` of a new tuple succeeds and leaves the counter at -9223372036854775808,
and so does a successful `RemoveRelationship` at that counter value. -/
theorem changeNumber_wraps_around :
    run (NewStore LoadDefaultSchema) (addRemoveOps 4611686018427387903) =
      ⟨[], LoadDefaultSchema, 9223372036854775807⟩ ∧
    ((⟨[], LoadDefaultSchema, 9223372036854775807⟩ : Store).AddRelationship
      "document:report" "owner" "user:alice" 1).1 = .ok "zk_9223372036854775807" ∧
    ((⟨[], LoadDefaultSchema, 9223372036854775807⟩ : Store).AddRelationship
      "document:report" "owner" "user:alice" 1).2.GetChangeNumber = -9223372036854775808 ∧
    ((⟨[⟨"document:report", "owner", "user:alice", "zk_1", 1⟩], LoadDefaultSchema,
        9223372036854775807⟩ : Store).RemoveRelationship
      "document:report" "owner" "user:alice").1 = .ok () ∧
    ((⟨[⟨"document:report", "owner", "user:alice", "zk_1", 1⟩], LoadDefaultSchema,
        9223372036854775807⟩ : Store).RemoveRelationship
      "document:report" "owner" "user:alice").2.GetChangeNumber = -9223372036854775808 := by
  refine ⟨?_, by decide, by decide, by decide, by decide⟩
  have h := run_addRemoveOps 4611686018427387903 1
  have e1 : wrapInt64 1 = 1 := by decide
  have e2 : wrapInt64 (1 + 2 * ((4611686018427387903 : Nat) : Int)) = 9223372036854775807 := by
    decide
  rw [e1, e2] at h
  exact h

/-- C12 (amended): the change counter is an `int64`. An `AddRelationship` that inserts a new
tuple and a successful `RemoveRelationship` replace it by the next `int64`: the counter plus
one when it is below 9223372036854775807, and -9223372036854775808 when it is
9223372036854775807. It keeps its value on an `AddRelationship` of a stored tuple, on every
failing call, and on `Check`, `Expand` and `ListRelationships`. -/
theorem changeNumber_transitions (s : Store) (r l u : String) (now : Nat)
    (subject resource action relation : String) :
    ((∃ tok, (s.AddRelationship r l u now).1 = .ok tok) →
      (∀ t ∈ s.relationships, triple t ≠ (r, l, u)) →
      (s.afterCall (.add r l u now)).GetChangeNumber = wrapInt64 (s.GetChangeNumber + 1)) ∧
    ((∃ tok, (s.AddRelationship r l u now).1 = .ok tok) →
      (∃ t ∈ s.relationships, triple t = (r, l, u)) →
      (s.afterCall (.add r l u now)).GetChangeNumber = s.GetChangeNumber) ∧
    ((∃ e, (s.AddRelationship r l u now).1 = .error e) →
      (s.afterCall (.add r l u now)).GetChangeNumber = s.GetChangeNumber) ∧
    ((s.RemoveRelationship r l u).1 = .ok () →
      (s.afterCall (.remove r l u)).GetChangeNumber = wrapInt64 (s.GetChangeNumber + 1)) ∧
    ((∃ e, (s.RemoveRelationship r l u).1 = .error e) →
      (s.afterCall (.remove r l u)).GetChangeNumber = s.GetChangeNumber) ∧
    (s.afterCall (.check subject resource action)).GetChangeNumber = s.GetChangeNumber ∧
    (s.afterCall (.expand resource relation)).GetChangeNumber = s.GetChangeNumber ∧
    (s.afterCall .list).GetChangeNumber = s.GetChangeNumber ∧
    (-9223372036854775808 ≤ s.GetChangeNumber → s.GetChangeNumber < 9223372036854775807 →
      wrapInt64 (s.GetChangeNumber + 1) = s.GetChangeNumber + 1) ∧
    (s.GetChangeNumber = 9223372036854775807 →
      wrapInt64 (s.GetChangeNumber + 1) = -9223372036854775808) := by
  dsimp only [Store.afterCall, Store.GetChangeNumber]
  refine ⟨?_, ?_, ?_, ?_, ?_, rfl, rfl, rfl, ?_, ?_⟩
  · rintro ⟨tok, htok⟩ hnew
    rcases add_cases s r l u now with ⟨_, h⟩ | ⟨_, _, h⟩ | ⟨_, _, _, h⟩ |
      ⟨_, _, _, t, hf, h⟩ | ⟨_, _, _, _, h⟩
    · rw [h] at htok; cases htok
    · rw [h] at htok; cases htok
    · rcases h with h | h | h <;> rw [h] at htok <;> cases htok
    · exact absurd ((sameTriple_iff r l u t).mp (List.find?_some hf))
        (hnew t (List.mem_of_find?_eq_some hf))
    · rw [h]; rfl
  · rintro ⟨tok, htok⟩ ⟨t, ht, htr⟩
    rcases add_cases s r l u now with ⟨_, h⟩ | ⟨_, _, h⟩ | ⟨_, _, _, h⟩ |
      ⟨_, _, _, t2, _, h⟩ | ⟨_, _, _, hf, h⟩
    · rw [h] at htok; cases htok
    · rw [h] at htok; cases htok
    · rcases h with h | h | h <;> rw [h] at htok <;> cases htok
    · rw [h]
    · exact absurd ((sameTriple_iff r l u t).mpr htr) (List.find?_eq_none.mp hf t ht)
  · rintro ⟨e, he⟩
    rcases add_cases s r l u now with ⟨_, h⟩ | ⟨_, _, h⟩ | ⟨_, _, _, h⟩ |
      ⟨_, _, _, t, _, h⟩ | ⟨_, _, _, _, h⟩
    · rw [h]
    · rw [h]
    · rcases h with h | h | h <;> rw [h]
    · rw [h] at he; cases he
    · rw [h] at he; cases he
  · intro hok
    rcases remove_cases s r l u with ⟨_, _, h⟩ | ⟨_, h⟩
    · rw [h]
    · rw [h] at hok; cases hok
  · rintro ⟨e, he⟩
    rcases remove_cases s r l u with ⟨_, _, h⟩ | ⟨_, h⟩
    · rw [h] at he; cases he
    · rw [h]
  · intro h1 h2
    exact wrapInt64_of_range _ (by omega) (by omega)
  · intro h
    rw [h]
    decide

/-- C22 (amended): in every store state reached from `NewStore` by fewer than `2^63 - 1`
calls, `GetChangeNumber` is strictly greater than the number `N` of every token `zk_N`
minted so far; and in every store state reached from `NewStore` it is the number that the
next minted token carries. -/
theorem GetChangeNumber_next_token (schema : Schema) (ops : List Op) :
    (ops.length < 9223372036854775807 →
      ∃ ns : List Int,
        mintedTokens (NewStore schema) ops = ns.map (fun n => "zk_" ++ formatInt n) ∧
        ∀ n ∈ ns, n < (run (NewStore schema) ops).GetChangeNumber) ∧
    (∀ r l u now tok,
      ((run (NewStore schema) ops).AddRelationship r l u now).1 = .ok tok →
      (∀ t ∈ (run (NewStore schema) ops).relationships, triple t ≠ (r, l, u)) →
      tok = "zk_" ++ formatInt (run (NewStore schema) ops).GetChangeNumber) := by
  constructor
  · intro hlen
    obtain ⟨ns, h1, _, h2, _⟩ := mintedTokens_bounded ops (NewStore schema)
      (by simp only [NewStore]; omega) (by simp only [NewStore]; omega)
    exact ⟨ns, h1, fun n hn => (h2 n hn).2⟩
  · intro r l u now tok htok hnew
    rcases add_cases (run (NewStore schema) ops) r l u now with ⟨_, h⟩ | ⟨_, _, h⟩ |
      ⟨_, _, _, h⟩ | ⟨_, _, _, t, hf, h⟩ | ⟨_, _, _, _, h⟩
    · rw [h] at htok; cases htok
    · rw [h] at htok; cases htok
    · rcases h with h | h | h <;> rw [h] at htok <;> cases htok
    · exact absurd ((sameTriple_iff r l u t).mp (List.find?_some hf))
        (hnew t (List.mem_of_find?_eq_some hf))
    · rw [h] at htok
      simp only [Except.ok.injEq] at htok
      exact htok.symm

theorem UnmarshalJSON_variadic (variant : String) (members : List (String × Json))
    (hv : variant = "union" ∨ variant = "intersection") :
    UnmarshalJSON (.obj [(variant, .obj members)]) =
      decodeVariadic (UnmarshalJSONFuel (Json.obj [(variant, .obj members)]).depth) variant
        (.obj members) := by
  rw [← UnmarshalJSONFuel_eq _ ((Json.obj [(variant, .obj members)]).depth + 1)
    (Nat.le_succ _)]
  rcases hv with rfl | rfl <;> rfl

/-- C21 (amended): `NewUnionRewrite` and `NewIntersectionRewrite` return a node with exactly
the children they are given, none when they are given none. `UnmarshalJSON` of a `union` or
`intersection` object whose `child` member is the empty array returns, without error, a node
with zero children; it returns an error when the `child` member is absent. The evaluation of
a `union` or `intersection` node with zero children returns an error. -/
theorem empty_child_list_rejected_at_evaluation :
    (∀ children : List UsersetRewrite,
      (NewUnionRewrite children).children = children ∧
      (NewIntersectionRewrite children).children = children) ∧
    (∀ members : List (String × Json), rawGet members "child" = some (.arr []) →
      UnmarshalJSON (.obj [("union", .obj members)]) = some (.ok (.mk "union" none none [])) ∧
      UnmarshalJSON (.obj [("intersection", .obj members)]) =
        some (.ok (.mk "intersection" none none []))) ∧
    (∀ members : List (String × Json), rawGet members "child" = none →
      UnmarshalJSON (.obj [("union", .obj members)]) =
        some (.error (.missingField "union" "child")) ∧
      UnmarshalJSON (.obj [("intersection", .obj members)]) =
        some (.error (.missingField "intersection" "child"))) ∧
    (∀ (ev : String → String → String → Option (Except Error Bool))
        (rels : List Relationship) (objectID subject : String)
        (cu : Option ComputedUserset) (ttu : Option TupleToUserset),
      evaluateUsersetRewrite ev rels objectID subject (.mk "union" cu ttu []) =
        some (.error .unionNoChildren) ∧
      evaluateUsersetRewrite ev rels objectID subject (.mk "intersection" cu ttu []) =
        some (.error .intersectionNoChildren)) := by
  refine ⟨fun children => ⟨rfl, rfl⟩, ?_, ?_,
    fun ev rels objectID subject cu ttu => ⟨rfl, rfl⟩⟩
  · intro members h
    rw [UnmarshalJSON_variadic "union" members (Or.inl rfl),
      UnmarshalJSON_variadic "intersection" members (Or.inr rfl), decodeVariadic,
      decodeVariadic]
    simp only [asRawMap, h, decodeChildren, decodeItems]
    exact ⟨trivial, trivial⟩
  · intro members h
    rw [UnmarshalJSON_variadic "union" members (Or.inl rfl),
      UnmarshalJSON_variadic "intersection" members (Or.inr rfl), decodeVariadic,
      decodeVariadic]
    simp only [asRawMap, h]
    exact ⟨trivial, trivial⟩

/-- C24 (as stated, refuted): with `viewer` defined by the single node `This` and only the
tuple `(document:report, owner, user:alice)` stored, `EvaluateUserset(document:report,
viewer, user:alice)` returns true although the tuple `(document:report, viewer, user:alice)`
is not stored: a subject that only holds a different relation is in the userset. -/
theorem This_ignores_relation :
    (run (NewStore thisSchema) [.add "document:report" "owner" "user:alice" 1]).relationships =
      [⟨"document:report", "owner", "user:alice", "zk_1", 1⟩] ∧
    EvaluateUsersetFuel thisSchema
      (run (NewStore thisSchema) [.add "document:report" "owner" "user:alice" 1]).relationships
      1 "document:report" "viewer" "user:alice" = some (.ok true) ∧
    ¬ ∃ t ∈ (run (NewStore thisSchema)
        [.add "document:report" "owner" "user:alice" 1]).relationships,
      triple t = ("document:report", "viewer", "user:alice") := by
  decide

/-- C24 (amended): a `This` node denotes the subjects related to the current object by a
stored tuple of any relation. For a relation `L` of a well-formed object whose rewrite tree
is the single node `This`, `EvaluateUserset(object, L, subject)` returns without error, and
it returns true iff some tuple `(object, _, subject)` is stored. -/
theorem This_true_iff_any_relation (schema : Schema) (rels : List Relationship) (fuel : Nat)
    (objectID relation subject : String) (d : Definition) (rel : Relation)
    (hobj : ':' ∈ objectID.data)
    (hdef : schema.GetDefinition (typeOf objectID) = .ok d)
    (hrel : d.relations.lookup relation = some rel)
    (hrw : rel.usersetRewrite = some NewThisRewrite) :
    ∃ b, EvaluateUsersetFuel schema rels (fuel + 1) objectID relation subject = some (.ok b) ∧
      (b = true ↔ ∃ t ∈ rels, t.resource = objectID ∧ t.subject = subject) := by
  rw [EvaluateUsersetFuel_rewrite schema rels fuel objectID relation subject d rel _ hobj hdef
    hrel hrw]
  refine ⟨_, evaluate_this _ rels objectID subject none none [], ?_⟩
  simp only [List.any_eq_true, Bool.and_eq_true, decide_eq_true_eq]

theorem This_true_iff_any_relation_witness :
    ':' ∈ "document:report".data ∧
    (∃ d rel, thisSchema.GetDefinition (typeOf "document:report") = .ok d ∧
      d.relations.lookup "viewer" = some rel ∧ rel.usersetRewrite = some NewThisRewrite) ∧
    ∃ b, EvaluateUsersetFuel thisSchema
        [⟨"document:report", "owner", "user:alice", "zk_1", 1⟩] (0 + 1)
        "document:report" "viewer" "user:alice" = some (.ok b) ∧
      (b = true ↔ ∃ t ∈ [(⟨"document:report", "owner", "user:alice", "zk_1", 1⟩ : Relationship)],
        t.resource = "document:report" ∧ t.subject = "user:alice") :=
  ⟨by decide, ⟨_, _, rfl, rfl, rfl⟩,
   This_true_iff_any_relation thisSchema [⟨"document:report", "owner", "user:alice", "zk_1", 1⟩]
     0 "document:report" "viewer" "user:alice"
     { type := "document"
       relations :=
         [("owner", ⟨[⟨"user", ""⟩], none⟩),
          ("viewer", ⟨[⟨"user", ""⟩], some NewThisRewrite⟩)] }
     ⟨[⟨"user", ""⟩], some NewThisRewrite⟩ (by decide) rfl rfl rfl⟩

theorem union_intersection_short_circuit_witness :
    evaluateUsersetRewrite
      (EvaluateUsersetFuel LoadDefaultSchema
        (Store.InitializeWithSampleData (NewStore LoadDefaultSchema) 0).relationships 1)
      (Store.InitializeWithSampleData (NewStore LoadDefaultSchema) 0).relationships
      "document:report" "user:bob"
      (.mk "union" none none
        ([NewComputedUsersetRewrite "owner"] ++
          NewThisRewrite :: [NewComputedUsersetRewrite "nosuch"])) = some (.ok true) ∧
    evaluateUsersetRewrite
      (EvaluateUsersetFuel LoadDefaultSchema
        (Store.InitializeWithSampleData (NewStore LoadDefaultSchema) 0).relationships 1)
      (Store.InitializeWithSampleData (NewStore LoadDefaultSchema) 0).relationships
      "document:report" "user:bob"
      (.mk "union" none none
        ([NewComputedUsersetRewrite "owner"] ++
          NewComputedUsersetRewrite "nosuch" :: [NewThisRewrite])) =
        some (.error (.relationNotDefined "nosuch" "document")) ∧
    evaluateUsersetRewrite
      (EvaluateUsersetFuel LoadDefaultSchema
        (Store.InitializeWithSampleData (NewStore LoadDefaultSchema) 0).relationships 1)
      (Store.InitializeWithSampleData (NewStore LoadDefaultSchema) 0).relationships
      "document:report" "user:bob"
      (.mk "union" none none
        [NewComputedUsersetRewrite "owner", NewComputedUsersetRewrite "viewer"]) =
        some (.ok false) ∧
    evaluateUsersetRewrite
      (EvaluateUsersetFuel LoadDefaultSchema
        (Store.InitializeWithSampleData (NewStore LoadDefaultSchema) 0).relationships 1)
      (Store.InitializeWithSampleData (NewStore LoadDefaultSchema) 0).relationships
      "document:report" "user:bob"
      (.mk "intersection" none none
        ([NewThisRewrite] ++
          NewComputedUsersetRewrite "owner" :: [NewComputedUsersetRewrite "nosuch"])) =
        some (.ok false) ∧
    evaluateUsersetRewrite
      (EvaluateUsersetFuel LoadDefaultSchema
        (Store.InitializeWithSampleData (NewStore LoadDefaultSchema) 0).relationships 1)
      (Store.InitializeWithSampleData (NewStore LoadDefaultSchema) 0).relationships
      "document:report" "user:bob"
      (.mk "intersection" none none
        ([NewThisRewrite] ++
          NewComputedUsersetRewrite "nosuch" :: [NewComputedUsersetRewrite "owner"])) =
        some (.error (.relationNotDefined "nosuch" "document")) ∧
    evaluateUsersetRewrite
      (EvaluateUsersetFuel LoadDefaultSchema
        (Store.InitializeWithSampleData (NewStore LoadDefaultSchema) 0).relationships 1)
      (Store.InitializeWithSampleData (NewStore LoadDefaultSchema) 0).relationships
      "document:report" "user:bob"
      (.mk "intersection" none none
        [NewThisRewrite, NewComputedUsersetRewrite "editor"]) = some (.ok true) :=
  ⟨(union_intersection_short_circuit _ _ "document:report" "user:bob" none none
      [NewComputedUsersetRewrite "owner"] [NewComputedUsersetRewrite "nosuch"] []
      NewThisRewrite .relationshipNotFound).1 (by decide) (by decide),
   (union_intersection_short_circuit _ _ "document:report" "user:bob" none none
      [NewComputedUsersetRewrite "owner"] [NewThisRewrite] []
      (NewComputedUsersetRewrite "nosuch") (.relationNotDefined "nosuch" "document")).2.1
      (by decide) (by decide),
   (union_intersection_short_circuit _ _ "document:report" "user:bob" none none [] []
      [NewComputedUsersetRewrite "owner", NewComputedUsersetRewrite "viewer"]
      NewThisRewrite .relationshipNotFound).2.2.1 (by simp) (by decide),
   (union_intersection_short_circuit _ _ "document:report" "user:bob" none none
      [NewThisRewrite] [NewComputedUsersetRewrite "nosuch"] []
      (NewComputedUsersetRewrite "owner") .relationshipNotFound).2.2.2.1
      (by decide) (by decide),
   (union_intersection_short_circuit _ _ "document:report" "user:bob" none none
      [NewThisRewrite] [NewComputedUsersetRewrite "owner"] []
      (NewComputedUsersetRewrite "nosuch") (.relationNotDefined "nosuch" "document")).2.2.2.2.1
      (by decide) (by decide),
   (union_intersection_short_circuit _ _ "document:report" "user:bob" none none [] []
      [NewThisRewrite, NewComputedUsersetRewrite "editor"]
      NewThisRewrite .relationshipNotFound).2.2.2.2.2 (by simp) (by decide)⟩

end Zanzibar
